import Mathlib

/-!
# tbload: publish session and report statistics

A shallow embedding of `RunCommand.Run` (`main.go`: bounds handling, client-set
construction, connection phase, publish session, result collection), of
`MqttClient.ConnectAndWait` (`mqtt_client.go`) and of the statistics module
(`report.go`).

Conventions of the embedding:

* Go `int` and `time.Duration` are unbounded `Int` where they count loop iterations,
  results or elapsed time. Where `Run` combines values taken from the command line
  (range check, clamping, slice index) the 64-bit wrap-around of `int` is modelled
  explicitly (`wrapInt`).
* Go `float64` is embedded twice. For what `buildSummary` counts, rejects and
  reorders (error cases, counters, error rate of whole numbers, independence of the
  input order) the statistics module is read over exact rationals `ℚ`. For every
  statement about a float64 *value* (throughput series, bucket bounds and keys,
  cumulative fractions) the module is embedded again in the namespace `Float64`, with
  the float64 operations as a parameter `Arith`; `ieee` is IEEE-754 binary64 with
  round-to-nearest-even, infinities and NaN, on which the code is evaluated and for
  which the rounding error of the running sums is bounded.
* Go maps keyed by `float64` are association lists with distinct keys
  (`GoMap`), read with `GoMap.get` (zero value when the key is absent) and
  written with `GoMap.set`.
* A runtime panic (index out of range) is the failure `Failure.panic`.
-/

namespace Tbload

/-! ## Data model (`mqtt_client.go`, `report.go`) -/

def ConnectFailedEvent : String := "ConnectFailed"
def PublishCompleteEvent : String := "PublishComplete"
def PublishFailEvent : String := "PublishFail"
def TimeoutExceededEvent : String := "TimeoutExceeded"

/-- The `Result` record of `mqtt_client.go`; durations are in nanoseconds. -/
structure Result where
  ClientId : String
  Event : String
  Error : Bool
  MessagePublished : Int
  PublishTime : Int
  PublishDoneTime : Int
  deriving DecidableEq, Repr

/-! ## Publish session (`main.go`, the per-client goroutine of `RunCommand.Run`) -/

/-- What one iteration of the publish loop observes: whether the `select` finds a
value on `timer.C`, the flag returned by `PublishAndWait` (consulted only in the
`default` branch), and the value of `time.Since(startTime)` should a `Result` be
sent during the iteration. -/
structure Obs where
  timerFired : Bool
  published : Bool
  elapsed : Int
  deriving DecidableEq, Repr

/-- Local variables of the goroutine, together with the two things it does to the
outside world: the results sent to `resultQueue` and the timestamps placed in
published payloads (both oldest first). -/
structure SessionState where
  ts : Int
  count : Int
  sent : List Result
  stamps : List Int
  deriving DecidableEq, Repr

/-- One iteration of `for i := 0; i < cmd.info.MessageNum; i++ { select { ... } }`.
Both `break` statements sit directly inside the `select`, so they leave the
`select` only; the `for` loop goes on to its next iteration. -/
def publishStep (clientId : String) (o : Obs) (s : SessionState) : SessionState :=
  if o.timerFired then
    { s with sent := s.sent ++ [{ ClientId := clientId, Event := TimeoutExceededEvent,
                                  Error := true, MessagePublished := s.count,
                                  PublishTime := 0, PublishDoneTime := o.elapsed }] }
  else
    let ts := s.ts + 1
    if !o.published then
      { s with ts := ts, stamps := s.stamps ++ [ts],
               sent := s.sent ++ [{ ClientId := clientId, Event := PublishFailEvent,
                                    Error := true, MessagePublished := s.count,
                                    PublishTime := 0, PublishDoneTime := o.elapsed }] }
    else
      { s with ts := ts, stamps := s.stamps ++ [ts], count := s.count + 1 }

/-- The `for` loop: `n` iterations remain, the next one has index `i`. -/
def publishLoop (clientId : String) (obs : Nat → Obs) : Nat → Nat → SessionState → SessionState
  | 0, _, s => s
  | n + 1, i, s => publishLoop clientId obs n (i + 1) (publishStep clientId (obs i) s)

/-- The goroutine body: initialise, run the loop `MessageNum` times, then send
`PublishComplete` when `count == cmd.info.MessageNum`. `startUnix` is
`startTime.Unix()`, `doneElapsed` is `time.Since(startTime)` after the loop. -/
def publishSession (clientId : String) (startUnix : Int) (MessageNum : Int)
    (obs : Nat → Obs) (doneElapsed : Int) : SessionState :=
  let s := publishLoop clientId obs MessageNum.toNat 0
    { ts := startUnix * 1000, count := 0, sent := [], stamps := [] }
  if s.count = MessageNum then
    { s with sent := s.sent ++ [{ ClientId := clientId, Event := PublishCompleteEvent,
                                  Error := false, MessagePublished := s.count,
                                  PublishTime := 0, PublishDoneTime := doneElapsed }] }
  else s

/-- Observation sequence in which no timer value is seen and no publish is acknowledged. -/
def neverAcked : Nat → Obs := fun _ => { timerFired := false, published := false, elapsed := 7 }

/-! ## Report statistics (`report.go`), read over exact rationals

This reading is used for the error cases, the counters and the order of the results;
float64 values are treated in the section "The statistics module with float64 made
explicit" below. -/

/-- How a call can fail: with a Go `error` value carrying a message, or with a
runtime panic. -/
inductive Failure where
  | err (msg : String)
  | panic
  deriving DecidableEq, Repr

/-- A Go map keyed by `float64`: an association list, one entry per key. -/
abbrev GoMap (V : Type) := List (ℚ × V)

/-- Reading `m[k]`: the stored value, or the zero value when `k` is absent. -/
def GoMap.get {V : Type} [Zero V] : GoMap V → ℚ → V
  | [], _ => 0
  | (k', v) :: m, k => if k' = k then v else GoMap.get m k

/-- Writing `m[k] = v`. -/
def GoMap.set {V : Type} : GoMap V → ℚ → V → GoMap V
  | [], k, v => [(k, v)]
  | (k', v') :: m, k, v => if k' = k then (k', v) :: m else (k', v') :: GoMap.set m k v

/-- The keys visited by `for k := range m`. -/
def GoMap.keys {V : Type} (m : GoMap V) : List ℚ := m.map Prod.fst

/-- The Go library call `sort.Float64s`: an ascending sort. -/
def sortFloat64s (xs : List ℚ) : List ℚ := xs.insertionSort (· ≤ ·)

/-- The Go library call `time.Duration.Seconds` on a duration in nanoseconds. -/
def Seconds (d : Int) : ℚ := (d : ℚ) / 1000000000

structure Summary where
  Clients : Int
  TotalMessages : Int
  MessagesPublished : Int
  Errors : Int
  ErrorRate : ℚ
  Completed : Int
  ConnectFailed : Int
  PublishFailed : Int
  TimeoutExceeded : Int
  PublishPerformance : List ℚ
  PublishPerformanceMedian : ℚ
  PublishPerformanceHistogram : GoMap ℚ
  deriving DecidableEq, Repr

/-- `median`: `(series[(len-1)/2] + series[len/2]) / 2`; `none` is the index panic. -/
def median (series : List ℚ) : Option ℚ := do
  let a ← series[(series.length - 1) / 2]?
  let b ← series[series.length / 2]?
  pure ((a + b) / 2)

def nBuckets : Nat := 10

/-- One pass of the inner loop body of `buildHistogram` for bucket index `i`. -/
def bucketStep (slowest steps v : ℚ) (tmp : ℚ) (i : Nat) : ℚ :=
  let f0 := slowest + steps * (i : ℚ)
  let f1 := slowest + steps * ((i + 1 : Nat) : ℚ)
  if v ≥ f0 ∧ v ≤ f1 then f1 else tmp

/-- The inner loop `for i := 0; i <= nBuckets; i++` of `buildHistogram`, started
from `var tmp float64` and run over the first `n` bucket indices. -/
def bucketScan (slowest steps v : ℚ) (n : Nat) : ℚ :=
  (List.range n).foldl (bucketStep slowest steps v) 0

/-- The key under which `buildHistogram` counts the value `v`. -/
def bucketOf (slowest steps v : ℚ) : ℚ := bucketScan slowest steps v (nBuckets + 1)

/-- The outer loop `for _, v := range series { ...; bucketCount[tmp]++ }`. -/
def countBuckets (slowest steps : ℚ) (series : List ℚ) : GoMap Int :=
  series.foldl (fun m v => m.set (bucketOf slowest steps v)
    (m.get (bucketOf slowest steps v) + 1)) []

/-- The last loop of `buildHistogram`, over the sorted keys, carrying `prev`. -/
def histogramLoop (bucketCount : GoMap Int) (total : Int) : List ℚ → ℚ → GoMap ℚ → GoMap ℚ
  | [], _, histogram => histogram
  | k :: ks, prev, histogram =>
    let cur := ((bucketCount.get k : Int) : ℚ) / (total : ℚ) + prev
    histogramLoop bucketCount total ks cur (histogram.set k cur)

/-- `buildHistogram`; `none` is the index panic on an empty series. -/
def buildHistogram (series : List ℚ) (total : Int) : Option (GoMap ℚ) := do
  let slowest ← series[0]?
  let fastest ← series[series.length - 1]?
  let steps := (fastest - slowest) / (nBuckets : ℚ)
  let bucketCount := countBuckets slowest steps series
  let keys := sortFloat64s bucketCount.keys
  pure (histogramLoop bucketCount total keys 0 [])

/-- The counters of `buildSummary`. -/
structure Counters where
  nMessagesPublished : Int
  nErrors : Int
  nCompleted : Int
  nInProgress : Int
  nConnectFailed : Int
  nPublishFailed : Int
  nTimeoutExceeded : Int
  publishPerformance : List ℚ
  deriving DecidableEq, Repr

def Counters.init : Counters :=
  { nMessagesPublished := 0, nErrors := 0, nCompleted := 0, nInProgress := 0,
    nConnectFailed := 0, nPublishFailed := 0, nTimeoutExceeded := 0,
    publishPerformance := [] }

/-- The value appended to `publishPerformance` for a completed client. -/
def throughput (r : Result) : ℚ := (r.MessagePublished : ℚ) / Seconds r.PublishDoneTime

/-- The body of `for _, r := range results` in `buildSummary`. -/
def summaryStep (c : Counters) (r : Result) : Counters :=
  let c := { c with nMessagesPublished := c.nMessagesPublished + r.MessagePublished }
  let c :=
    if r.Error then
      let c := { c with nErrors := c.nErrors + 1 }
      if r.Event = ConnectFailedEvent then { c with nConnectFailed := c.nConnectFailed + 1 }
      else if r.Event = PublishFailEvent then { c with nPublishFailed := c.nPublishFailed + 1 }
      else if r.Event = TimeoutExceededEvent then
        { c with nTimeoutExceeded := c.nTimeoutExceeded + 1 }
      else c
    else c
  let c := if r.Event = PublishCompleteEvent then { c with nCompleted := c.nCompleted + 1 } else c
  if r.Event = PublishCompleteEvent then
    { c with publishPerformance := c.publishPerformance ++ [throughput r] }
  else c

deriving instance DecidableEq for Except

/-- `buildSummary`. -/
def buildSummary (nClient nMessages : Int) (results : List Result) : Except Failure Summary :=
  if results.length = 0 then .error (.err "no results collected")
  else
    let totalMessages := nClient * nMessages
    let c := results.foldl summaryStep Counters.init
    if c.publishPerformance.length = 0 then .error (.err "no feasible results found")
    else
      let publishPerformance := sortFloat64s c.publishPerformance
      let errorRate := (c.nErrors : ℚ) / (nClient : ℚ) * 100
      match median publishPerformance,
            buildHistogram publishPerformance (c.nCompleted + c.nInProgress) with
      | some med, some histogram =>
        .ok { Clients := nClient, TotalMessages := totalMessages,
              MessagesPublished := c.nMessagesPublished, Errors := c.nErrors,
              ErrorRate := errorRate, Completed := c.nCompleted,
              ConnectFailed := c.nConnectFailed, PublishFailed := c.nPublishFailed,
              TimeoutExceeded := c.nTimeoutExceeded,
              PublishPerformance := publishPerformance,
              PublishPerformanceMedian := med,
              PublishPerformanceHistogram := histogram }
      | _, _ => .error .panic

/-- A `PublishComplete` result as the session sends it. -/
def completed (id : String) (n : Int) (elapsed : Int) : Result :=
  { ClientId := id, Event := PublishCompleteEvent, Error := false,
    MessagePublished := n, PublishTime := 0, PublishDoneTime := elapsed }

/-- A `PublishFail` result as the session sends it. -/
def failed (id : String) (n : Int) (elapsed : Int) : Result :=
  { ClientId := id, Event := PublishFailEvent, Error := true,
    MessagePublished := n, PublishTime := 0, PublishDoneTime := elapsed }

/-- The results whose event is `PublishComplete`. -/
def completedOf (rs : List Result) : List Result :=
  rs.filter (fun r => decide (r.Event = PublishCompleteEvent))

/-- Three clients, five messages each, done after 1 s, 2 s and 5 s. -/
def threeClients : List Result :=
  [completed "a" 5 1000000000, completed "b" 5 2000000000, completed "c" 5 5000000000]

/-- The summary `buildSummary 3 5 threeClients` returns. -/
def threeSummary : Summary :=
  { Clients := 3, TotalMessages := 15, MessagesPublished := 15, Errors := 0, ErrorRate := 0,
    Completed := 3, ConnectFailed := 0, PublishFailed := 0, TimeoutExceeded := 0,
    PublishPerformance := [1, 5 / 2, 5], PublishPerformanceMedian := 5 / 2,
    PublishPerformanceHistogram := [(7 / 5, 1 / 3), (13 / 5, 2 / 3), (27 / 5, 1)] }

/-- One failed and three completed clients (4 configured clients, 5 messages each). -/
def oneFailure : List Result :=
  [failed "a" 2 1000000000, completed "b" 5 1000000000, completed "c" 5 2000000000,
   completed "d" 5 5000000000]

/-- The summary `buildSummary 4 5 oneFailure` returns. -/
def oneFailureSummary : Summary :=
  { Clients := 4, TotalMessages := 20, MessagesPublished := 17, Errors := 1, ErrorRate := 25,
    Completed := 3, ConnectFailed := 0, PublishFailed := 1, TimeoutExceeded := 0,
    PublishPerformance := [1, 5 / 2, 5], PublishPerformanceMedian := 5 / 2,
    PublishPerformanceHistogram := [(7 / 5, 1 / 3), (13 / 5, 2 / 3), (27 / 5, 1)] }

/-- The zero value of `Result`, as `make([]Result, concurrent)` fills every slot. -/
def zeroResult : Result :=
  { ClientId := "", Event := "", Error := false, MessagePublished := 0,
    PublishTime := 0, PublishDoneTime := 0 }

/-- The collection loop `LOOP2` of `RunCommand.Run`. `arrivals` are the results received
from `resultQueue` before the `timeout * 2` timer fires; the timer case is taken when
they are used up. `none` is the index panic of `results[j] = r`. -/
def collectLoop (concurrent : Int) : List Result → List Result → Nat → Option (List Result × Nat)
  | [], results, j => some (results, j)
  | r :: arrivals, results, j =>
    if j < results.length then
      if ((j + 1 : Nat) : Int) = concurrent then some (results.set j r, j + 1)
      else collectLoop concurrent arrivals (results.set j r) (j + 1)
    else none

/-- `results := make([]Result, concurrent); j := 0; LOOP2: ...`: the slice handed to
`buildSummary` and the number of results received. `none` is a panic (negative length
for `make`, or an index out of range). -/
def collectResults (concurrent : Int) (arrivals : List Result) : Option (List Result × Nat) :=
  if concurrent < 0 then none
  else collectLoop concurrent arrivals (List.replicate concurrent.toNat zeroResult) 0

/-- The iteration takes the `default` branch and so attempts a publish. -/
def attempted (o : Obs) : Bool := !o.timerFired

/-- The iteration attempts a publish and the publish is acknowledged. -/
def acked (o : Obs) : Bool := !o.timerFired && o.published

/-- Observation sequence: the publish of iteration 1 is not acknowledged, every other
publish is, and no timer value is seen. -/
def failsSecond : Nat → Obs :=
  fun i => { timerFired := false, published := decide (i ≠ 1), elapsed := 7 }

/-- Observation sequence in which every publish is acknowledged in time. -/
def allAcked : Nat → Obs := fun _ => { timerFired := false, published := true, elapsed := 7 }

/-! ## Connecting (`mqtt_client.go`, and the connection phase of `RunCommand.Run`) -/

/-- The message of `ErrMqttClientConnectTimeout`; a Go `error` is modelled by its
message, `nil` by `none`. -/
def ErrMqttClientConnectTimeout : String := "mqtt client connect timeout"

/-- What one iteration of the retry loop of `ConnectAndWait` observes: whether the
`select` finds a value on the total timer, the flag of `token.WaitTimeout` and the
value of `token.Error()` (the last two only matter in the `default` branch). -/
structure ConnObs where
  timerFired : Bool
  settled : Bool
  err : Option String
  deriving DecidableEq, Repr

/-- `MqttClient.ConnectAndWait` over the observations of its iterations. `none` means
the observations are used up while the loop is still retrying. -/
def ConnectAndWait : List ConnObs → Option (Bool × Option String)
  | [] => none
  | o :: os =>
    if o.timerFired then some (false, some ErrMqttClientConnectTimeout)
    else if o.settled = true ∧ o.err = none then some (true, none)
    else if o.err ≠ none then some (false, o.err)
    else ConnectAndWait os

/-- An iteration after which `ConnectAndWait` tries again: no timer value, the token
did not settle and reports no error. -/
def ConnObs.retries (o : ConnObs) : Prop :=
  o.timerFired = false ∧ o.settled = false ∧ o.err = none

/-- What the fan-in loop of the connection phase receives: a connect outcome from
`connectedQueue`, or the value of the phase timer. -/
inductive ConnEvent where
  | outcome (v : Bool)
  | timer
  deriving DecidableEq, Repr

/-- The fan-in loop `for loop := true; loop; { select { ... } }`; the result is
`(nConnected, counter, isConnectTimeout)`. `none` means the events are used up while
the loop is still waiting. -/
def connectLoop (concurrent : Int) : List ConnEvent → Int → Int → Option (Int × Int × Bool)
  | [], _, _ => none
  | .outcome v :: es, nConnected, counter =>
    if counter + 1 = concurrent then
      some (if v then nConnected + 1 else nConnected, counter + 1, false)
    else connectLoop concurrent es (if v then nConnected + 1 else nConnected) (counter + 1)
  | .timer :: _, nConnected, counter => some (nConnected, counter, true)

/-- How the connection phase ends: the run goes on to the publish phase, or `Run`
returns an error with the given message. -/
inductive PhaseResult where
  | proceed
  | failed (msg : String)
  deriving DecidableEq, Repr

/-- The text of `fmt.Errorf("only %d/%d devices connected!", nConnected, concurrent)`. -/
def onlyConnected (nConnected concurrent : Int) : String :=
  "only " ++ toString nConnected ++ "/" ++ toString concurrent ++ " devices connected!"

/-- The connection phase after the connect goroutines are started: the fan-in loop
and the two checks that follow it. -/
def connectionPhase (concurrent : Int) (events : List ConnEvent) : Option PhaseResult :=
  match connectLoop concurrent events 0 0 with
  | none => none
  | some (nConnected, counter, isConnectTimeout) =>
    if isConnectTimeout then some (.failed (onlyConnected nConnected concurrent))
    else if nConnected < counter then some (.failed (onlyConnected nConnected concurrent))
    else some .proceed

/-! ## Bounds and client set of `RunCommand.Run` (`main.go`)

The values combined here come straight from the command line (`-startNum`,
`-concurrent`) and from the stored device count, so the arithmetic of Go's `int`
(64 bits wide, wrapping on overflow) is modelled explicitly by `wrapInt`. -/

/-- The largest value of a 64-bit Go `int`. -/
def maxInt : Int := 9223372036854775807

/-- The value a 64-bit Go `int` holds after an operation whose exact result is `x`. -/
def wrapInt (x : Int) : Int :=
  (x + 9223372036854775808) % 18446744073709551616 - 9223372036854775808

/-- The "condition variables" `Run` computes before it builds the client set. -/
structure RunBounds where
  startNum : Int
  endNum : Int
  concurrent : Int
  deriving DecidableEq, Repr

/-- The text of `fmt.Errorf("startNum[%d] out of range[0-%d]", StartNum, DeviceNum)`. -/
def outOfRange (StartNum DeviceNum : Int) : String :=
  "startNum[" ++ toString StartNum ++ "] out of range[0-" ++ toString DeviceNum ++ "]"

/-- The range check and the clamping of `RunCommand.Run` ("calculate condition
variable"), for the flag values `StartNum`, `ConcurrentNum` and the stored
`DeviceNum`. -/
def runBounds (StartNum ConcurrentNum DeviceNum : Int) : Except Failure RunBounds :=
  if StartNum < 0 ∨ wrapInt (StartNum + 1) > DeviceNum then
    .error (.err (outOfRange StartNum DeviceNum))
  else
    let concurrent := ConcurrentNum
    let startNum := StartNum
    let endNum := wrapInt (wrapInt (StartNum + ConcurrentNum) - 1)
    if wrapInt (endNum + 1) > DeviceNum then
      let endNum := wrapInt (DeviceNum - 1)
      let concurrent := wrapInt (wrapInt (endNum - startNum) + 1)
      .ok { startNum := startNum, endNum := endNum, concurrent := concurrent }
    else
      .ok { startNum := startNum, endNum := endNum, concurrent := concurrent }

/-- The slice `clients`: its length and, for every index, `none` for a nil slot or the
index of the device whose client the slot holds. -/
structure ClientSlice where
  len : Int
  slot : Int → Option Nat

/-- `make([]*MqttClient, concurrent)`. The Go runtime panics when the length is
negative or when the byte size of the slice (8 bytes per pointer) does not fit in a
64-bit word; its further memory limits are not modelled. -/
def makeClients (concurrent : Int) : Except Failure ClientSlice :=
  if concurrent < 0 ∨ 8 * concurrent ≥ 18446744073709551616 then .error .panic
  else .ok { len := concurrent, slot := fun _ => none }

/-- `InitCommandInfo.forEach` with the callback of `Run`: `n` devices remain, the next
has index `i`. `store i` is the outcome of `store.GetDevice` for device `i`: an error
message, or the stored `SeqNo`. -/
def forEach (store : Nat → Except String Int) (b : RunBounds) :
    Nat → Nat → ClientSlice → Except Failure ClientSlice
  | 0, _, clients => .ok clients
  | n + 1, i, clients =>
    match store i with
    | .error e => .error (.err e)
    | .ok seqNo =>
      if seqNo < b.startNum ∨ seqNo > b.endNum then forEach store b n (i + 1) clients
      else
        let idx := wrapInt ((i : Int) - b.startNum)
        if idx < 0 ∨ idx ≥ clients.len then .error .panic
        else forEach store b n (i + 1)
          { clients with slot := Function.update clients.slot idx (some i) }

/-- The part of `Run` from the range check to the end of the client-set construction. -/
def initClients (StartNum ConcurrentNum DeviceNum : Int) (store : Nat → Except String Int) :
    Except Failure ClientSlice := do
  let b ← runBounds StartNum ConcurrentNum DeviceNum
  let clients ← makeClients b.concurrent
  forEach store b DeviceNum.toNat 0 clients

/-- A device store in which every device's `SeqNo` is its position. -/
def seqStore : Nat → Except String Int := fun i => .ok (i : Int)

/-! ## The statistics module with float64 made explicit (`report.go`)

The definitions above read `float64` as exact rationals; that is enough for what
`buildSummary` counts, rejects and reorders. What the module computes *in* float64
(throughput values, bucket bounds, running sums) is embedded a second time, with the
float64 operations as a parameter `Arith`, so that a statement proved for every
`Arith` holds of the code whatever rounding does. `ieee` is IEEE-754 binary64 with
round-to-nearest-even; the code is evaluated on it for concrete inputs, and the
statements that depend on how rounding behaves (monotone running sums, error bounds)
are proved for it. -/

/-- The float64 operations `report.go` uses, on a carrier `F`: the conversion
`float64(n)`, the four arithmetic operations, the comparisons `<=` and `<`, and
`math.IsNaN` (used by `sort.Float64s`). -/
structure Arith (F : Type) where
  ofInt : Int → F
  add : F → F → F
  sub : F → F → F
  mul : F → F → F
  div : F → F → F
  le : F → F → Bool
  lt : F → F → Bool
  isNaN : F → Bool

/-- The values of an IEEE-754 binary64: a finite value (as the rational it denotes),
the two infinities and NaN. The sign of zero is not kept: no divisor in `report.go`
can be a negative zero (each is the conversion of an integer or a sum starting from
one), so the sign of a zero never reaches a result. -/
inductive Binary64 where
  | fin (q : ℚ)
  | pinf
  | ninf
  | nan
  deriving DecidableEq, Repr

/-- The power `2 ^ u` as a rational, for an integer exponent. -/
def pow2 (u : Int) : ℚ :=
  if 0 ≤ u then ((2 ^ u.toNat : Nat) : ℚ) else 1 / ((2 ^ (-u).toNat : Nat) : ℚ)

/-- The number of binary digits of `n` (`fuel` bounds the recursion). -/
def bitLen : Nat → Nat → Nat
  | 0, _ => 0
  | fuel + 1, n => if n = 0 then 0 else bitLen fuel (n / 2) + 1

/-- For positive `a`: the integer `e` with `2 ^ e ≤ a < 2 ^ (e + 1)`. -/
def ilog2 (a : ℚ) : Int :=
  let e0 := (bitLen a.num.natAbs a.num.natAbs : Int) - (bitLen a.den a.den : Int)
  if pow2 e0 ≤ a then e0 else e0 - 1

/-- Rounding of a non-negative rational to an integer, ties to even. -/
def roundHalfEven (x : ℚ) : Int :=
  let f := ⌊x⌋
  let r := x - (f : ℚ)
  if r < 1 / 2 then f else if 1 / 2 < r then f + 1 else if f % 2 = 0 then f else f + 1

/-- Round-to-nearest-even of an exact result to binary64: 53 significant bits, least
exponent -1022 (below it the spacing stays `2 ^ -1074`), overflow to an infinity from
`2 ^ 1024`. -/
def Binary64.round (q : ℚ) : Binary64 :=
  if q = 0 then .fin 0
  else
    let a := |q|
    let u := max (ilog2 a) (-1022) - 52
    let v := (roundHalfEven (a / pow2 u) : ℚ) * pow2 u
    if pow2 1024 ≤ v then (if 0 < q then .pinf else .ninf)
    else .fin (if 0 < q then v else -v)

def Binary64.add : Binary64 → Binary64 → Binary64
  | .fin a, .fin b => Binary64.round (a + b)
  | .nan, _ => .nan
  | _, .nan => .nan
  | .pinf, .ninf => .nan
  | .ninf, .pinf => .nan
  | .pinf, _ => .pinf
  | _, .pinf => .pinf
  | .ninf, _ => .ninf
  | _, .ninf => .ninf

def Binary64.neg : Binary64 → Binary64
  | .fin a => .fin (-a)
  | .pinf => .ninf
  | .ninf => .pinf
  | .nan => .nan

def Binary64.sub (a b : Binary64) : Binary64 := Binary64.add a (Binary64.neg b)

def Binary64.mul : Binary64 → Binary64 → Binary64
  | .fin a, .fin b => Binary64.round (a * b)
  | .nan, _ => .nan
  | _, .nan => .nan
  | .fin a, .pinf => if a = 0 then .nan else if 0 < a then .pinf else .ninf
  | .fin a, .ninf => if a = 0 then .nan else if 0 < a then .ninf else .pinf
  | .pinf, .fin b => if b = 0 then .nan else if 0 < b then .pinf else .ninf
  | .ninf, .fin b => if b = 0 then .nan else if 0 < b then .ninf else .pinf
  | .pinf, .pinf => .pinf
  | .ninf, .ninf => .pinf
  | .pinf, .ninf => .ninf
  | .ninf, .pinf => .ninf

/-- Division; a zero divisor is a positive zero. -/
def Binary64.div : Binary64 → Binary64 → Binary64
  | .fin a, .fin b =>
    if b = 0 then (if a = 0 then .nan else if 0 < a then .pinf else .ninf)
    else Binary64.round (a / b)
  | .nan, _ => .nan
  | _, .nan => .nan
  | .fin _, .pinf => .fin 0
  | .fin _, .ninf => .fin 0
  | .pinf, .fin b => if 0 ≤ b then .pinf else .ninf
  | .ninf, .fin b => if 0 ≤ b then .ninf else .pinf
  | .pinf, .pinf => .nan
  | .pinf, .ninf => .nan
  | .ninf, .pinf => .nan
  | .ninf, .ninf => .nan

def Binary64.le : Binary64 → Binary64 → Bool
  | .nan, _ => false
  | _, .nan => false
  | .ninf, _ => true
  | _, .pinf => true
  | .fin a, .fin b => decide (a ≤ b)
  | .pinf, _ => false
  | _, .ninf => false

def Binary64.lt : Binary64 → Binary64 → Bool
  | .nan, _ => false
  | _, .nan => false
  | .fin a, .fin b => decide (a < b)
  | .ninf, .ninf => false
  | .ninf, _ => true
  | .pinf, _ => false
  | .fin _, .pinf => true
  | .fin _, .ninf => false

def Binary64.isNaN : Binary64 → Bool
  | .nan => true
  | _ => false

/-- IEEE-754 binary64 arithmetic, round-to-nearest-even: Go's `float64`. -/
def ieee : Arith Binary64 :=
  { ofInt := fun n => Binary64.round (n : ℚ), add := Binary64.add, sub := Binary64.sub,
    mul := Binary64.mul, div := Binary64.div, le := Binary64.le, lt := Binary64.lt,
    isNaN := Binary64.isNaN }

namespace Float64

/-- The Go library call `time.Duration.Seconds`:
`sec := d / Second; nsec := d % Second; return float64(sec) + float64(nsec)/1e9`. -/
def Seconds {F : Type} (A : Arith F) (d : Int) : F :=
  A.add (A.ofInt (d.tdiv 1000000000))
    (A.div (A.ofInt (d.tmod 1000000000)) (A.ofInt 1000000000))

/-- The value `float64(r.MessagePublished)/r.PublishDoneTime.Seconds()`. -/
def throughput {F : Type} (A : Arith F) (r : Result) : F :=
  A.div (A.ofInt r.MessagePublished) (Seconds A r.PublishDoneTime)

/-- The order of `sort.Float64s`: `x < y || (isNaN(x) && !isNaN(y))`. -/
def less {F : Type} (A : Arith F) (x y : F) : Bool :=
  A.lt x y || (A.isNaN x && !A.isNaN y)

/-- The Go library call `sort.Float64s`: afterwards no element is `less` than an
element before it. -/
def sortFloat64s {F : Type} (A : Arith F) (xs : List F) : List F :=
  xs.insertionSort (fun a b => less A b a = false)

/-- `median`; `none` is the index panic. -/
def median {F : Type} (A : Arith F) (series : List F) : Option F := do
  let a ← series[(series.length - 1) / 2]?
  let b ← series[series.length / 2]?
  pure (A.div (A.add a b) (A.ofInt 2))

/-- The lower bound `f0` of bucket `i`. -/
def lower {F : Type} (A : Arith F) (slowest steps : F) (i : Nat) : F :=
  A.add slowest (A.mul steps (A.ofInt (i : Int)))

/-- The upper bound `f1` of bucket `i`. -/
def upper {F : Type} (A : Arith F) (slowest steps : F) (i : Nat) : F :=
  A.add slowest (A.mul steps (A.ofInt ((i + 1 : Nat) : Int)))

/-- The test `v >= f0 && v <= f1` of bucket `i`. -/
def inBucket {F : Type} (A : Arith F) (slowest steps v : F) (i : Nat) : Bool :=
  A.le (lower A slowest steps i) v && A.le v (upper A slowest steps i)

/-- One pass of the inner loop body of `buildHistogram` for bucket index `i`. -/
def bucketStep {F : Type} (A : Arith F) (slowest steps v : F) (tmp : F) (i : Nat) : F :=
  if inBucket A slowest steps v i then upper A slowest steps i else tmp

/-- The inner loop `for i := 0; i <= nBuckets; i++`, started from `var tmp float64`
and run over the first `n` bucket indices. -/
def bucketScan {F : Type} (A : Arith F) (slowest steps v : F) (n : Nat) : F :=
  (List.range n).foldl (bucketStep A slowest steps v) (A.ofInt 0)

/-- The key under which `buildHistogram` counts the value `v`. -/
def bucketOf {F : Type} (A : Arith F) (slowest steps v : F) : F :=
  bucketScan A slowest steps v (nBuckets + 1)

/-- The assignment the specification words describe: scan the buckets in increasing
order and take the upper bound of the first one whose closed interval contains `v`
(zero value when none does). -/
def firstMatchBucket {F : Type} (A : Arith F) (slowest steps v : F) : F :=
  match (List.range (nBuckets + 1)).find? (fun i => inBucket A slowest steps v i) with
  | some i => upper A slowest steps i
  | none => A.ofInt 0

/-- A Go map keyed by `float64`: an association list, one entry per key. A key of
`buildHistogram` is never NaN (it is the zero value or a bound `f1` with `v <= f1`),
so key equality is equality of values. -/
abbrev GoMap (F V : Type) := List (F × V)

/-- Reading `m[k]`: the stored value, or the zero value `d` when `k` is absent. -/
def GoMap.get {F V : Type} [DecidableEq F] (d : V) : GoMap F V → F → V
  | [], _ => d
  | (k', v) :: m, k => if k' = k then v else GoMap.get d m k

/-- Writing `m[k] = v`. -/
def GoMap.set {F V : Type} [DecidableEq F] : GoMap F V → F → V → GoMap F V
  | [], k, v => [(k, v)]
  | (k', v') :: m, k, v => if k' = k then (k', v) :: m else (k', v') :: GoMap.set m k v

/-- The keys visited by `for k := range m`. -/
def GoMap.keys {F V : Type} (m : GoMap F V) : List F := m.map Prod.fst

/-- The loop body `bucketCount[tmp]++` for the key function `key`. -/
def bump {F : Type} [DecidableEq F] (key : F → F) (m : GoMap F Int) (v : F) : GoMap F Int :=
  m.set (key v) (m.get 0 (key v) + 1)

/-- The outer loop `for _, v := range series { ...; bucketCount[tmp]++ }`. -/
def countBuckets {F : Type} [DecidableEq F] (A : Arith F) (slowest steps : F)
    (series : List F) : GoMap F Int :=
  series.foldl (bump (bucketOf A slowest steps)) []

/-- The value `float64(bucketCount[k])/float64(total) + prev` of the last loop. -/
def cumulate {F : Type} [DecidableEq F] (A : Arith F) (bucketCount : GoMap F Int)
    (total : Int) (prev : F) (k : F) : F :=
  A.add (A.div (A.ofInt (bucketCount.get 0 k)) (A.ofInt total)) prev

/-- The last loop of `buildHistogram`, over the sorted keys, carrying `prev`. -/
def histogramLoop {F : Type} [DecidableEq F] (A : Arith F) (bucketCount : GoMap F Int)
    (total : Int) : List F → F → GoMap F F → GoMap F F
  | [], _, histogram => histogram
  | k :: ks, prev, histogram =>
    histogramLoop A bucketCount total ks (cumulate A bucketCount total prev k)
      (histogram.set k (cumulate A bucketCount total prev k))

/-- The step width `(fastest - slowest) / float64(nBuckets)`. -/
def stepsOf {F : Type} (A : Arith F) (slowest fastest : F) : F :=
  A.div (A.sub fastest slowest) (A.ofInt (nBuckets : Int))

/-- `buildHistogram`; `none` is the index panic on an empty series. -/
def buildHistogram {F : Type} [DecidableEq F] (A : Arith F) (series : List F) (total : Int) :
    Option (GoMap F F) := do
  let slowest ← series[0]?
  let fastest ← series[series.length - 1]?
  let steps := stepsOf A slowest fastest
  let bucketCount := countBuckets A slowest steps series
  let keys := sortFloat64s A bucketCount.keys
  pure (histogramLoop A bucketCount total keys (A.ofInt 0) [])

/-- `Summary`, with `float64` fields in `F`. -/
structure Summary (F : Type) where
  Clients : Int
  TotalMessages : Int
  MessagesPublished : Int
  Errors : Int
  ErrorRate : F
  Completed : Int
  ConnectFailed : Int
  PublishFailed : Int
  TimeoutExceeded : Int
  PublishPerformance : List F
  PublishPerformanceMedian : F
  PublishPerformanceHistogram : GoMap F F
  deriving DecidableEq, Repr

/-- The counters of `buildSummary`. -/
structure Counters (F : Type) where
  nMessagesPublished : Int
  nErrors : Int
  nCompleted : Int
  nInProgress : Int
  nConnectFailed : Int
  nPublishFailed : Int
  nTimeoutExceeded : Int
  publishPerformance : List F

def Counters.init {F : Type} : Counters F :=
  { nMessagesPublished := 0, nErrors := 0, nCompleted := 0, nInProgress := 0,
    nConnectFailed := 0, nPublishFailed := 0, nTimeoutExceeded := 0,
    publishPerformance := [] }

/-- The body of `for _, r := range results` in `buildSummary`. -/
def summaryStep {F : Type} (A : Arith F) (c : Counters F) (r : Result) : Counters F :=
  let c := { c with nMessagesPublished := c.nMessagesPublished + r.MessagePublished }
  let c :=
    if r.Error then
      let c := { c with nErrors := c.nErrors + 1 }
      if r.Event = ConnectFailedEvent then { c with nConnectFailed := c.nConnectFailed + 1 }
      else if r.Event = PublishFailEvent then { c with nPublishFailed := c.nPublishFailed + 1 }
      else if r.Event = TimeoutExceededEvent then
        { c with nTimeoutExceeded := c.nTimeoutExceeded + 1 }
      else c
    else c
  let c := if r.Event = PublishCompleteEvent then { c with nCompleted := c.nCompleted + 1 } else c
  if r.Event = PublishCompleteEvent then
    { c with publishPerformance := c.publishPerformance ++ [throughput A r] }
  else c

/-- `buildSummary`. -/
def buildSummary {F : Type} [DecidableEq F] (A : Arith F) (nClient nMessages : Int)
    (results : List Result) : Except Failure (Summary F) :=
  if results.length = 0 then .error (.err "no results collected")
  else
    let totalMessages := nClient * nMessages
    let c := results.foldl (summaryStep A) Counters.init
    if c.publishPerformance.length = 0 then .error (.err "no feasible results found")
    else
      let publishPerformance := sortFloat64s A c.publishPerformance
      let errorRate := A.mul (A.div (A.ofInt c.nErrors) (A.ofInt nClient)) (A.ofInt 100)
      match median A publishPerformance,
            buildHistogram A publishPerformance (c.nCompleted + c.nInProgress) with
      | some med, some histogram =>
        .ok { Clients := nClient, TotalMessages := totalMessages,
              MessagesPublished := c.nMessagesPublished, Errors := c.nErrors,
              ErrorRate := errorRate, Completed := c.nCompleted,
              ConnectFailed := c.nConnectFailed, PublishFailed := c.nPublishFailed,
              TimeoutExceeded := c.nTimeoutExceeded,
              PublishPerformance := publishPerformance,
              PublishPerformanceMedian := med,
              PublishPerformanceHistogram := histogram }
      | _, _ => .error .panic

/-- The running sum the last loop of `buildHistogram` has reached after the keys `ks`. -/
def runningSum {F : Type} [DecidableEq F] (A : Arith F) (bucketCount : GoMap F Int)
    (total : Int) (ks : List F) : F :=
  ks.foldl (cumulate A bucketCount total) (A.ofInt 0)

end Float64

/-- The float64 value of an integer, for writing inputs. -/
def f64 (n : Int) : Binary64 := Binary64.fin (n : ℚ)

namespace Float64

/-- What sorting needs of the comparisons: the order of `sort.Float64s` is total and
transitive, and among values that are not NaN "not less" is `<=`. IEEE-754
comparisons have these properties (`ieeeSortLaws`). -/
structure SortLaws {F : Type} (A : Arith F) : Prop where
  total : ∀ a b, less A b a = false ∨ less A a b = false
  trans : ∀ a b c, less A b a = false → less A c b = false → less A c a = false
  le_of_not_less : ∀ a b, A.isNaN a = false → A.isNaN b = false → less A b a = false →
    A.le a b = true

/-- What a running sum of non-negative fractions needs of the arithmetic: on the
values `ok` (for IEEE-754: the representable values that are at least zero, and
`+Inf`) adding a fraction `count/total` does not decrease the sum, and `<=` is
reflexive there and transitive. IEEE-754 round-to-nearest has these properties
(`ieeeSumLaws`). -/
structure SumLaws {F : Type} (A : Arith F) where
  ok : F → Prop
  ok_zero : ok (A.ofInt 0)
  ok_fraction : ∀ c t : Int, 0 ≤ c → c ≤ maxInt → 0 < t → t ≤ maxInt →
    ok (A.div (A.ofInt c) (A.ofInt t))
  ok_add : ∀ x p, ok x → ok p → ok (A.add x p)
  le_add : ∀ x p, ok x → ok p → A.le p (A.add x p) = true
  le_refl : ∀ p, ok p → A.le p p = true
  le_trans : ∀ a b c, A.le a b = true → A.le b c = true → A.le a c = true
  lt_of_le_of_ne : ∀ a b, A.le a b = true → a ≠ b → A.lt a b = true

end Float64

/-- The thirteen smallest float64 values `0, 1, ..., 12` times `2^-1074`, ascending. -/
def tinySeries : List Binary64 :=
  (List.range 13).map (fun n => Binary64.fin ((n : ℚ) / ((2 ^ 1074 : Nat) : ℚ)))

/-- The float64 values nearest to `1/3` and `2/3`, and `2`: the throughputs of ten
messages in 30 s, 15 s and 5 s. -/
def thirdsSeries : List Binary64 :=
  [Binary64.round (1 / 3), Binary64.round (2 / 3), f64 2]

/-- The summary `buildSummary 3 5 threeClients` returns in IEEE-754 arithmetic:
throughputs 1, 2.5 and 5 messages per second. -/
def threeSummary64 : Float64.Summary Binary64 :=
  { Clients := 3, TotalMessages := 15, MessagesPublished := 15, Errors := 0,
    ErrorRate := Binary64.fin 0, Completed := 3, ConnectFailed := 0, PublishFailed := 0,
    TimeoutExceeded := 0,
    PublishPerformance := [Binary64.fin 1, Binary64.fin (5 / 2), Binary64.fin 5],
    PublishPerformanceMedian := Binary64.fin (5 / 2),
    PublishPerformanceHistogram :=
      [(Binary64.fin (3152519739159347 / 2251799813685248),
          Binary64.fin (6004799503160661 / 18014398509481984)),
       (Binary64.fin (5854679515581645 / 2251799813685248),
          Binary64.fin (6004799503160661 / 9007199254740992)),
       (Binary64.fin (3039929748475085 / 562949953421312), Binary64.fin 1)] }

/-- Two completed clients, the first with no message and no elapsed time: its
throughput is `0/0`. -/
def idleFirst : List Result :=
  [completed "a" 0 0, completed "b" 5 1000000000]

/-- The exponent of the last binary place `Binary64.round` keeps of a positive `a`. -/
def ulpExp (a : ℚ) : Int := max (ilog2 a) (-1022) - 52

/-- The finite float64 values: `m * 2 ^ w` with at most 53 bits in `m` and `w` from
`-1074`. -/
def Binary64.Rep (p : ℚ) : Prop :=
  ∃ (m : Nat) (w : Int), p = (m : ℚ) * (2 : ℚ) ^ w ∧ m ≤ 2 ^ 53 ∧ -1074 ≤ w

/-- The float64 values a sum of non-negative terms can take: `+Inf`, or a finite
float64 value that is at least zero. -/
def Binary64.NonNeg (p : Binary64) : Prop :=
  p = .pinf ∨ ∃ q : ℚ, p = .fin q ∧ 0 ≤ q ∧ Binary64.Rep q

/-- The float64 values `0, 1, ..., 10`, ascending. -/
def zeroToTen : List Binary64 := (List.range 11).map (fun n => f64 (n : Int))

/-- Six completed clients with 0, 2, 4, 6, 8 and 10 messages in one second each. -/
def sixClients : List Result :=
  [completed "a" 0 1000000000, completed "b" 2 1000000000, completed "c" 4 1000000000,
   completed "d" 6 1000000000, completed "e" 8 1000000000, completed "f" 10 1000000000]

/-! ## Helper lemmas: sorting and the summary loop -/

theorem sortFloat64s_sorted (xs : List ℚ) : (sortFloat64s xs).Sorted (· ≤ ·) :=
  List.sorted_insertionSort (· ≤ ·) xs

theorem sortFloat64s_perm (xs : List ℚ) : (sortFloat64s xs).Perm xs :=
  List.perm_insertionSort (· ≤ ·) xs

theorem sortFloat64s_length (xs : List ℚ) : (sortFloat64s xs).length = xs.length :=
  (sortFloat64s_perm xs).length_eq

theorem sortFloat64s_ne_nil {xs : List ℚ} (h : xs ≠ []) : sortFloat64s xs ≠ [] := by
  intro h'
  have := sortFloat64s_length xs
  rw [h'] at this
  exact h (List.length_eq_zero.mp this.symm)

theorem foldl_summaryStep_perf (rs : List Result) (c : Counters) :
    (rs.foldl summaryStep c).publishPerformance =
      c.publishPerformance ++ (completedOf rs).map throughput := by
  induction rs generalizing c with
  | nil => simp [completedOf]
  | cons r rs ih =>
    rw [List.foldl_cons, ih]
    by_cases h : r.Event = PublishCompleteEvent
    · simp [summaryStep, completedOf, h]
      split_ifs <;> rfl
    · simp [summaryStep, completedOf, h]
      split_ifs <;> rfl

theorem foldl_summaryStep_completed (rs : List Result) (c : Counters) :
    (rs.foldl summaryStep c).nCompleted = c.nCompleted + ((completedOf rs).length : Int) := by
  induction rs generalizing c with
  | nil => simp [completedOf]
  | cons r rs ih =>
    rw [List.foldl_cons, ih]
    by_cases h : r.Event = PublishCompleteEvent
    · simp [summaryStep, completedOf, h]
      split_ifs <;> simp <;> ring
    · simp [summaryStep, completedOf, h]
      split_ifs <;> rfl

theorem foldl_summaryStep_inProgress (rs : List Result) (c : Counters) :
    (rs.foldl summaryStep c).nInProgress = c.nInProgress := by
  induction rs generalizing c with
  | nil => rfl
  | cons r rs ih =>
    rw [List.foldl_cons, ih]
    simp only [summaryStep]
    split_ifs <;> rfl

theorem foldl_summaryStep_errors (rs : List Result) (c : Counters) :
    (rs.foldl summaryStep c).nErrors =
      c.nErrors + ((rs.filter (fun r => r.Error)).length : Int) := by
  induction rs generalizing c with
  | nil => simp
  | cons r rs ih =>
    rw [List.foldl_cons, ih]
    cases hE : r.Error
    · simp [summaryStep, hE]
      split_ifs <;> rfl
    · simp [summaryStep, hE]
      split_ifs <;> simp <;> ring

theorem median_of_ne_nil {series : List ℚ} (h : series ≠ []) :
    ∃ hl : (series.length - 1) / 2 < series.length, ∃ hr : series.length / 2 < series.length,
      median series = some ((series[(series.length - 1) / 2] + series[series.length / 2]) / 2) := by
  have hpos : 0 < series.length := List.length_pos.mpr h
  have hl : (series.length - 1) / 2 < series.length := by omega
  have hr : series.length / 2 < series.length := by omega
  refine ⟨hl, hr, ?_⟩
  simp [median, List.getElem?_eq_getElem hl, List.getElem?_eq_getElem hr]

theorem buildHistogram_of_ne_nil {series : List ℚ} (h : series ≠ []) (total : Int) :
    ∃ hist, buildHistogram series total = some hist := by
  have hpos : 0 < series.length := List.length_pos.mpr h
  have h0 : 0 < series.length := hpos
  have h1 : series.length - 1 < series.length := by omega
  simp [buildHistogram, List.getElem?_eq_getElem h0, List.getElem?_eq_getElem h1]

theorem completedOf_ne_nil_iff (rs : List Result) :
    completedOf rs ≠ [] ↔ ∃ r ∈ rs, r.Event = PublishCompleteEvent := by
  simp [completedOf, List.filter_eq_nil_iff]

/-- What `buildSummary` returns when some result has completed. -/
theorem buildSummary_ok (nClient nMessages : Int) (rs : List Result)
    (h : completedOf rs ≠ []) :
    ∃ s, buildSummary nClient nMessages rs = .ok s ∧
      s.Clients = nClient ∧
      s.PublishPerformance = sortFloat64s ((completedOf rs).map throughput) ∧
      s.Completed = ((completedOf rs).length : Int) ∧
      s.Errors = ((rs.filter (fun r => r.Error)).length : Int) ∧
      s.ErrorRate = (s.Errors : ℚ) / (nClient : ℚ) * 100 ∧
      median s.PublishPerformance = some s.PublishPerformanceMedian ∧
      buildHistogram s.PublishPerformance s.Completed = some s.PublishPerformanceHistogram := by
  have hrs : rs ≠ [] := by
    rintro rfl
    exact h rfl
  have hperf : (rs.foldl summaryStep Counters.init).publishPerformance =
      (completedOf rs).map throughput := by
    rw [foldl_summaryStep_perf]; rfl
  have hcomp : (rs.foldl summaryStep Counters.init).nCompleted =
      ((completedOf rs).length : Int) := by
    rw [foldl_summaryStep_completed]; simp [Counters.init]
  have hprog : (rs.foldl summaryStep Counters.init).nInProgress = 0 := by
    rw [foldl_summaryStep_inProgress]; rfl
  have herr : (rs.foldl summaryStep Counters.init).nErrors =
      ((rs.filter (fun r => r.Error)).length : Int) := by
    rw [foldl_summaryStep_errors]; simp [Counters.init]
  have hne : (completedOf rs).map throughput ≠ [] := by
    simpa using h
  obtain ⟨_, _, hmed⟩ := median_of_ne_nil (sortFloat64s_ne_nil hne)
  obtain ⟨hist, hhist⟩ := buildHistogram_of_ne_nil (sortFloat64s_ne_nil hne)
    ((completedOf rs).length : Int)
  have hlen : rs.length ≠ 0 := fun h0 => hrs (List.length_eq_zero.mp h0)
  have hlen2 : ((completedOf rs).map throughput).length ≠ 0 :=
    fun h0 => hne (List.length_eq_zero.mp h0)
  set c := rs.foldl summaryStep Counters.init with hc
  set pp := sortFloat64s ((completedOf rs).map throughput) with hpp
  obtain ⟨med, hmed'⟩ : ∃ med, median pp = some med := ⟨_, hmed⟩
  refine ⟨{ Clients := nClient, TotalMessages := nClient * nMessages,
            MessagesPublished := c.nMessagesPublished,
            Errors := ((rs.filter (fun r => r.Error)).length : Int),
            ErrorRate := (((rs.filter (fun r => r.Error)).length : Int) : ℚ) / (nClient : ℚ) * 100,
            Completed := ((completedOf rs).length : Int),
            ConnectFailed := c.nConnectFailed, PublishFailed := c.nPublishFailed,
            TimeoutExceeded := c.nTimeoutExceeded,
            PublishPerformance := pp, PublishPerformanceMedian := med,
            PublishPerformanceHistogram := hist }, ?_, ?_⟩
  · unfold buildSummary
    rw [if_neg hlen]
    simp only [← hc, hperf, hcomp, hprog, herr, add_zero, if_neg hlen2, ← hpp, hmed', hhist]
  · exact ⟨rfl, rfl, rfl, rfl, rfl, hmed', hhist⟩

/-- The three outcomes of `buildSummary`, by the shape of the result list. -/
theorem buildSummary_cases (nClient nMessages : Int) (rs : List Result) :
    (rs = [] ∧ buildSummary nClient nMessages rs = .error (.err "no results collected")) ∨
    (rs ≠ [] ∧ completedOf rs = [] ∧
      buildSummary nClient nMessages rs = .error (.err "no feasible results found")) ∨
    (completedOf rs ≠ [] ∧ ∃ s, buildSummary nClient nMessages rs = .ok s) := by
  by_cases hrs : rs = []
  · left
    subst hrs
    exact ⟨rfl, rfl⟩
  · right
    by_cases hc : completedOf rs = []
    · left
      refine ⟨hrs, hc, ?_⟩
      have hlen : rs.length ≠ 0 := fun h0 => hrs (List.length_eq_zero.mp h0)
      unfold buildSummary
      rw [if_neg hlen]
      simp [foldl_summaryStep_perf, hc, Counters.init]
    · right
      obtain ⟨s, hs, _⟩ := buildSummary_ok nClient nMessages rs hc
      exact ⟨hc, s, hs⟩

theorem completedOf_ne_nil_of_ok {nClient nMessages : Int} {rs : List Result} {s : Summary}
    (h : buildSummary nClient nMessages rs = .ok s) : completedOf rs ≠ [] := by
  rcases buildSummary_cases nClient nMessages rs with ⟨_, h'⟩ | ⟨_, _, h'⟩ | ⟨hc, _⟩
  · rw [h] at h'; cases h'
  · rw [h] at h'; cases h'
  · exact hc

/-- Every field that `buildSummary` fills, for a successful call. -/
theorem buildSummary_fields {nClient nMessages : Int} {rs : List Result} {s : Summary}
    (h : buildSummary nClient nMessages rs = .ok s) :
    s.Clients = nClient ∧
    s.PublishPerformance = sortFloat64s ((completedOf rs).map throughput) ∧
    s.Completed = ((completedOf rs).length : Int) ∧
    s.Errors = ((rs.filter (fun r => r.Error)).length : Int) ∧
    s.ErrorRate = (s.Errors : ℚ) / (nClient : ℚ) * 100 ∧
    median s.PublishPerformance = some s.PublishPerformanceMedian ∧
    buildHistogram s.PublishPerformance s.Completed = some s.PublishPerformanceHistogram := by
  obtain ⟨s', hs', hrest⟩ := buildSummary_ok nClient nMessages rs (completedOf_ne_nil_of_ok h)
  rw [h] at hs'
  cases hs'
  exact hrest

/-! ## Helper lemmas: order and zero records in `buildSummary` -/

theorem foldl_summaryStep_messages (rs : List Result) (c : Counters) :
    (rs.foldl summaryStep c).nMessagesPublished =
      c.nMessagesPublished + (rs.map (fun r => r.MessagePublished)).sum := by
  induction rs generalizing c with
  | nil => simp
  | cons r rs ih =>
    rw [List.foldl_cons, ih]
    have h1 : (summaryStep c r).nMessagesPublished =
        c.nMessagesPublished + r.MessagePublished := by
      simp only [summaryStep]
      split_ifs <;> rfl
    rw [h1, List.map_cons, List.sum_cons]
    ring

theorem foldl_summaryStep_connectFailed (rs : List Result) (c : Counters) :
    (rs.foldl summaryStep c).nConnectFailed =
      c.nConnectFailed +
        (rs.countP (fun r => r.Error && decide (r.Event = ConnectFailedEvent)) : Int) := by
  induction rs generalizing c with
  | nil => simp
  | cons r rs ih =>
    rw [List.foldl_cons, ih, List.countP_cons]
    have h1 : (summaryStep c r).nConnectFailed = c.nConnectFailed +
        (if (r.Error && decide (r.Event = ConnectFailedEvent)) = true then 1 else 0) := by
      simp only [summaryStep]
      split_ifs <;> simp_all
    rw [h1]
    push_cast
    ring

theorem foldl_summaryStep_publishFailed (rs : List Result) (c : Counters) :
    (rs.foldl summaryStep c).nPublishFailed =
      c.nPublishFailed +
        (rs.countP (fun r => r.Error && decide (r.Event = PublishFailEvent)) : Int) := by
  induction rs generalizing c with
  | nil => simp
  | cons r rs ih =>
    rw [List.foldl_cons, ih, List.countP_cons]
    have h1 : (summaryStep c r).nPublishFailed = c.nPublishFailed +
        (if (r.Error && decide (r.Event = PublishFailEvent)) = true then 1 else 0) := by
      simp only [summaryStep]
      split_ifs <;> simp_all [ConnectFailedEvent, PublishFailEvent]
    rw [h1]
    push_cast
    ring

theorem foldl_summaryStep_timeoutExceeded (rs : List Result) (c : Counters) :
    (rs.foldl summaryStep c).nTimeoutExceeded =
      c.nTimeoutExceeded +
        (rs.countP (fun r => r.Error && decide (r.Event = TimeoutExceededEvent)) : Int) := by
  induction rs generalizing c with
  | nil => simp
  | cons r rs ih =>
    rw [List.foldl_cons, ih, List.countP_cons]
    have h1 : (summaryStep c r).nTimeoutExceeded = c.nTimeoutExceeded +
        (if (r.Error && decide (r.Event = TimeoutExceededEvent)) = true then 1 else 0) := by
      simp only [summaryStep]
      split_ifs <;>
        simp_all [ConnectFailedEvent, PublishFailEvent, TimeoutExceededEvent]
    rw [h1]
    push_cast
    ring

/-- `buildSummary` reads the result list only through its emptiness, the integer
counters of the loop and the sorted throughput series. -/
theorem buildSummary_congr (nClient nMessages : Int) (rs rs' : List Result)
    (hlen : rs.length = 0 ↔ rs'.length = 0)
    (h1 : (rs.foldl summaryStep Counters.init).nMessagesPublished =
      (rs'.foldl summaryStep Counters.init).nMessagesPublished)
    (h2 : (rs.foldl summaryStep Counters.init).nErrors =
      (rs'.foldl summaryStep Counters.init).nErrors)
    (h3 : (rs.foldl summaryStep Counters.init).nCompleted =
      (rs'.foldl summaryStep Counters.init).nCompleted)
    (h4 : (rs.foldl summaryStep Counters.init).nInProgress =
      (rs'.foldl summaryStep Counters.init).nInProgress)
    (h5 : (rs.foldl summaryStep Counters.init).nConnectFailed =
      (rs'.foldl summaryStep Counters.init).nConnectFailed)
    (h6 : (rs.foldl summaryStep Counters.init).nPublishFailed =
      (rs'.foldl summaryStep Counters.init).nPublishFailed)
    (h7 : (rs.foldl summaryStep Counters.init).nTimeoutExceeded =
      (rs'.foldl summaryStep Counters.init).nTimeoutExceeded)
    (h8 : (rs.foldl summaryStep Counters.init).publishPerformance.length =
      (rs'.foldl summaryStep Counters.init).publishPerformance.length)
    (h9 : sortFloat64s (rs.foldl summaryStep Counters.init).publishPerformance =
      sortFloat64s (rs'.foldl summaryStep Counters.init).publishPerformance) :
    buildSummary nClient nMessages rs = buildSummary nClient nMessages rs' := by
  unfold buildSummary
  by_cases h0 : rs.length = 0
  · rw [if_pos h0, if_pos (hlen.mp h0)]
  · rw [if_neg h0, if_neg (fun h => h0 (hlen.mpr h))]
    simp only [h1, h2, h3, h4, h5, h6, h7, h8, h9]

theorem summaryStep_zeroResult (c : Counters) : summaryStep c zeroResult = c := by
  simp [summaryStep, zeroResult, PublishCompleteEvent]

theorem foldl_summaryStep_dropZero (rs : List Result) (c : Counters) :
    rs.foldl summaryStep c =
      (rs.filter (fun r => decide (r ≠ zeroResult))).foldl summaryStep c := by
  induction rs generalizing c with
  | nil => rfl
  | cons r rs ih =>
    by_cases h : r = zeroResult
    · subst h
      simp only [List.foldl_cons, summaryStep_zeroResult]
      rw [ih]
      simp
    · rw [List.filter_cons_of_pos (by simpa using h), List.foldl_cons, List.foldl_cons, ih]

theorem sortFloat64s_eq_of_perm {xs ys : List ℚ} (h : xs.Perm ys) :
    sortFloat64s xs = sortFloat64s ys :=
  List.eq_of_perm_of_sorted
    ((sortFloat64s_perm xs).trans (h.trans (sortFloat64s_perm ys).symm))
    (sortFloat64s_sorted xs) (sortFloat64s_sorted ys)

/-- The invariant of the collection loop: the received results fill the slice from
the front and the rest keeps the zero value. -/
theorem collectLoop_spec (N : Nat) (arrivals done : List Result) (h : done.length < N) :
    collectLoop (N : Int) arrivals
        (done ++ List.replicate (N - done.length) zeroResult) done.length =
      some (done ++ arrivals.take (N - done.length) ++
          List.replicate (N - done.length - arrivals.length) zeroResult,
        min (done.length + arrivals.length) N) := by
  induction arrivals generalizing done with
  | nil => simp [collectLoop, Nat.min_eq_left (Nat.le_of_lt h)]
  | cons r arrivals ih =>
    have hlt : done.length < (done ++ List.replicate (N - done.length) zeroResult).length := by
      simp
      omega
    have hset : (done ++ List.replicate (N - done.length) zeroResult).set done.length r =
        (done ++ [r]) ++ List.replicate (N - (done ++ [r]).length) zeroResult := by
      obtain ⟨k, hk⟩ : ∃ k, N - done.length = k + 1 := ⟨N - done.length - 1, by omega⟩
      have hk' : N - (done ++ [r]).length = k := by simp; omega
      rw [hk, hk', List.replicate_succ, List.set_append_right _ _ (le_refl _)]
      simp
    have hlen : (done ++ [r]).length = done.length + 1 := by simp
    simp only [collectLoop, if_pos hlt, hset]
    by_cases hfull : ((done.length + 1 : Nat) : Int) = (N : Int)
    · have hN : done.length + 1 = N := by exact_mod_cast hfull
      rw [if_pos hfull]
      have h1 : N - done.length = 1 := by omega
      have h2 : N - (done ++ [r]).length = 0 := by simp; omega
      have h3 : min (done.length + (r :: arrivals).length) N = done.length + 1 := by
        simp; omega
      simp [h1, h2]
      constructor <;> omega
    · have hN : done.length + 1 ≠ N := fun e => hfull (by exact_mod_cast e)
      rw [if_neg hfull]
      have hlt' : (done ++ [r]).length < N := by simp; omega
      have := ih (done ++ [r]) hlt'
      rw [hlen] at this
      rw [hlen, this]
      obtain ⟨k, hk⟩ : ∃ k, N - done.length = k + 1 := ⟨N - done.length - 1, by omega⟩
      have hk' : N - (done.length + 1) = k := by omega
      simp only [hk, hk', List.take_succ_cons, List.length_cons, List.append_assoc,
        List.singleton_append]
      congr 2
      · congr 3
        omega
      · omega

/-! ## Helper lemmas: the publish loop -/

theorem publishStep_count (id : String) (o : Obs) (s : SessionState) :
    (publishStep id o s).count = s.count + (if acked o = true then 1 else 0) := by
  cases hf : o.timerFired <;> cases hp : o.published <;> simp [publishStep, acked, hf, hp]

theorem publishStep_ts (id : String) (o : Obs) (s : SessionState) :
    (publishStep id o s).ts = s.ts + (if attempted o = true then 1 else 0) := by
  cases hf : o.timerFired <;> cases hp : o.published <;> simp [publishStep, attempted, hf, hp]

theorem publishStep_stamps (id : String) (o : Obs) (s : SessionState) :
    (publishStep id o s).stamps =
      s.stamps ++ (if attempted o = true then [s.ts + 1] else []) := by
  cases hf : o.timerFired <;> cases hp : o.published <;> simp [publishStep, attempted, hf, hp]

theorem publishStep_sent_of_acked (id : String) (o : Obs) (s : SessionState)
    (h : acked o = true) : (publishStep id o s).sent = s.sent := by
  cases hf : o.timerFired <;> cases hp : o.published <;>
    simp_all [publishStep, acked]

theorem publishStep_sent_event (id : String) (o : Obs) (s : SessionState) :
    ∀ r ∈ (publishStep id o s).sent,
      r ∈ s.sent ∨ r.Event = TimeoutExceededEvent ∨ r.Event = PublishFailEvent := by
  intro r hr
  cases hf : o.timerFired <;> cases hp : o.published <;>
    simp [publishStep, hf, hp] at hr <;>
    first
      | exact Or.inl hr
      | (rcases hr with hr | hr
         · exact Or.inl hr
         · subst hr
           simp)

theorem publishLoop_count (id : String) (obs : Nat → Obs) (n i : Nat) (s : SessionState) :
    (publishLoop id obs n i s).count =
      s.count + ((List.range' i n).countP (fun j => acked (obs j)) : Int) := by
  induction n generalizing i s with
  | zero => simp [publishLoop]
  | succ n ih =>
    rw [publishLoop, ih, publishStep_count, List.range'_succ, List.countP_cons]
    push_cast
    ring

theorem publishLoop_sent_of_acked (id : String) (obs : Nat → Obs) (n i : Nat)
    (s : SessionState) (h : ∀ j, i ≤ j → j < i + n → acked (obs j) = true) :
    (publishLoop id obs n i s).sent = s.sent := by
  induction n generalizing i s with
  | zero => rfl
  | succ n ih =>
    rw [publishLoop, ih _ _ (fun j h1 h2 => h j (by omega) (by omega)),
      publishStep_sent_of_acked _ _ _ (h i (le_refl _) (by omega))]

theorem publishLoop_sent_event (id : String) (obs : Nat → Obs) (n i : Nat) (s : SessionState) :
    ∀ r ∈ (publishLoop id obs n i s).sent,
      r ∈ s.sent ∨ r.Event = TimeoutExceededEvent ∨ r.Event = PublishFailEvent := by
  induction n generalizing i s with
  | zero => intro r hr; exact Or.inl hr
  | succ n ih =>
    intro r hr
    rw [publishLoop] at hr
    rcases ih _ _ r hr with h | h
    · exact publishStep_sent_event id (obs i) s r h
    · exact Or.inr h

theorem publishLoop_stamps (id : String) (obs : Nat → Obs) (n i : Nat) (s : SessionState) :
    (publishLoop id obs n i s).stamps =
      s.stamps ++ (List.range ((List.range' i n).countP (fun j => attempted (obs j)))).map
        (fun k => s.ts + ((k : Nat) : Int) + 1) := by
  induction n generalizing i s with
  | zero => simp [publishLoop]
  | succ n ih =>
    rw [publishLoop, ih, publishStep_stamps, publishStep_ts, List.range'_succ, List.countP_cons]
    by_cases ha : attempted (obs i) = true
    · simp only [ha, if_true, List.append_assoc]
      congr 1
      rw [List.range_succ_eq_map]
      simp only [List.map_cons, List.map_map, List.singleton_append, Nat.cast_zero, add_zero,
        List.cons.injEq, true_and]
      apply List.map_congr_left
      intro k _
      simp only [Function.comp]
      push_cast
      ring
    · simp [ha]

/-! ## Helper lemmas: connecting -/

theorem ConnectAndWait_retries (pre rest : List ConnObs) (h : ∀ p ∈ pre, p.retries) :
    ConnectAndWait (pre ++ rest) = ConnectAndWait rest := by
  induction pre with
  | nil => rfl
  | cons p pre ih =>
    obtain ⟨h1, h2, h3⟩ := h p (List.mem_cons_self _ _)
    rw [List.cons_append, ConnectAndWait, ih (fun q hq => h q (List.mem_cons_of_mem _ hq))]
    simp [h1, h2, h3]

theorem connectLoop_outcomes (N : Int) (outs : List Bool) (rest : List ConnEvent)
    (nConnected counter : Int) (h : counter + (outs.length : Int) < N) :
    connectLoop N (outs.map ConnEvent.outcome ++ rest) nConnected counter =
      connectLoop N rest (nConnected + (outs.count true : Int))
        (counter + (outs.length : Int)) := by
  induction outs generalizing nConnected counter with
  | nil => simp
  | cons v outs ih =>
    have hlen : ((v :: outs).length : Int) = (outs.length : Int) + 1 := by simp
    have hne : ¬ counter + 1 = N := by omega
    rw [List.map_cons, List.cons_append, connectLoop, if_neg hne, ih _ _ (by omega)]
    cases v <;> simp [List.count_cons] <;> ring_nf

theorem connectLoop_last (N : Int) (v : Bool) (rest : List ConnEvent)
    (nConnected counter : Int) (h : counter + 1 = N) :
    connectLoop N (ConnEvent.outcome v :: rest) nConnected counter =
      some (if v then nConnected + 1 else nConnected, N, false) := by
  rw [connectLoop, if_pos h, h]

/-- A fan-in loop that ends without the timer has received exactly the missing
outcomes. -/
theorem connectLoop_complete (N : Int) (events : List ConnEvent) (nConnected counter : Int)
    (nC c : Int) (hlt : counter < N)
    (h : connectLoop N events nConnected counter = some (nC, c, false)) :
    ∃ (outs : List Bool) (rest : List ConnEvent),
      events = outs.map ConnEvent.outcome ++ rest ∧
      counter + (outs.length : Int) = N ∧ c = N ∧
      nC = nConnected + (outs.count true : Int) := by
  induction events generalizing nConnected counter with
  | nil => simp [connectLoop] at h
  | cons e es ih =>
    cases e with
    | timer => simp [connectLoop] at h
    | outcome v =>
      rw [connectLoop] at h
      by_cases hN : counter + 1 = N
      · rw [if_pos hN] at h
        simp only [Option.some.injEq, Prod.mk.injEq, and_true] at h
        refine ⟨[v], es, by simp, by simpa using hN, by omega, ?_⟩
        rw [← h.1]
        cases v <;> simp
      · rw [if_neg hN] at h
        obtain ⟨outs, rest, he, hl, hc, hn⟩ := ih _ _ (by omega) h
        refine ⟨v :: outs, rest, by simp [he], by simp; omega, hc, ?_⟩
        rw [hn]
        cases v
        · simp [List.count_cons]
        · simp [List.count_cons]
          ring

/-! ## Helper lemmas: the statistics module for every float64 arithmetic -/

namespace Float64

theorem sort_perm {F : Type} (A : Arith F) (xs : List F) : (sortFloat64s A xs).Perm xs :=
  List.perm_insertionSort _ xs

theorem sort_length {F : Type} (A : Arith F) (xs : List F) :
    (sortFloat64s A xs).length = xs.length :=
  (sort_perm A xs).length_eq

theorem sort_ne_nil {F : Type} (A : Arith F) {xs : List F} (h : xs ≠ []) :
    sortFloat64s A xs ≠ [] := by
  intro h'
  have := sort_length A xs
  rw [h'] at this
  exact h (List.length_eq_zero.mp this.symm)

theorem sort_pairwise {F : Type} (A : Arith F) (S : SortLaws A) (xs : List F) :
    (sortFloat64s A xs).Pairwise (fun a b => less A b a = false) := by
  haveI : IsTotal F (fun a b => less A b a = false) := ⟨S.total⟩
  haveI : IsTrans F (fun a b => less A b a = false) := ⟨S.trans⟩
  exact List.sorted_insertionSort (fun a b => less A b a = false) xs

theorem fold_perf {F : Type} (A : Arith F) (rs : List Result) (c : Counters F) :
    (rs.foldl (summaryStep A) c).publishPerformance =
      c.publishPerformance ++ (completedOf rs).map (throughput A) := by
  induction rs generalizing c with
  | nil => simp [completedOf]
  | cons r rs ih =>
    rw [List.foldl_cons, ih]
    by_cases h : r.Event = PublishCompleteEvent
    · simp [summaryStep, completedOf, h]
      split_ifs <;> rfl
    · simp [summaryStep, completedOf, h]
      split_ifs <;> rfl

theorem fold_completed {F : Type} (A : Arith F) (rs : List Result) (c : Counters F) :
    (rs.foldl (summaryStep A) c).nCompleted =
      c.nCompleted + ((completedOf rs).length : Int) := by
  induction rs generalizing c with
  | nil => simp [completedOf]
  | cons r rs ih =>
    rw [List.foldl_cons, ih]
    by_cases h : r.Event = PublishCompleteEvent
    · simp [summaryStep, completedOf, h]
      split_ifs <;> simp <;> ring
    · simp [summaryStep, completedOf, h]
      split_ifs <;> rfl

theorem fold_inProgress {F : Type} (A : Arith F) (rs : List Result) (c : Counters F) :
    (rs.foldl (summaryStep A) c).nInProgress = c.nInProgress := by
  induction rs generalizing c with
  | nil => rfl
  | cons r rs ih =>
    rw [List.foldl_cons, ih]
    simp only [summaryStep]
    split_ifs <;> rfl

/-- What a successful `buildSummary` has put in the fields that depend on the
throughput series. -/
theorem summary_fields {F : Type} [DecidableEq F] (A : Arith F) {nClient nMessages : Int}
    {rs : List Result} {s : Summary F} (h : buildSummary A nClient nMessages rs = .ok s) :
    completedOf rs ≠ [] ∧
    s.PublishPerformance = sortFloat64s A ((completedOf rs).map (throughput A)) ∧
    s.Completed = ((completedOf rs).length : Int) ∧
    buildHistogram A s.PublishPerformance s.Completed = some s.PublishPerformanceHistogram := by
  have hperf : (rs.foldl (summaryStep A) Counters.init).publishPerformance =
      (completedOf rs).map (throughput A) := by
    rw [fold_perf]; rfl
  have hcomp : (rs.foldl (summaryStep A) Counters.init).nCompleted =
      ((completedOf rs).length : Int) := by
    rw [fold_completed]; simp [Counters.init]
  have hprog : (rs.foldl (summaryStep A) Counters.init).nInProgress = 0 := by
    rw [fold_inProgress]; rfl
  unfold buildSummary at h
  by_cases h0 : rs.length = 0
  · rw [if_pos h0] at h
    cases h
  · rw [if_neg h0] at h
    simp only [hperf, hcomp, hprog, add_zero] at h
    by_cases h1 : ((completedOf rs).map (throughput A)).length = 0
    · rw [if_pos h1] at h
      cases h
    · rw [if_neg h1] at h
      have hne : completedOf rs ≠ [] := by
        intro e
        rw [e] at h1
        exact h1 rfl
      cases hm : median A (sortFloat64s A ((completedOf rs).map (throughput A))) with
      | none => rw [hm] at h; cases h
      | some med =>
        cases hh : buildHistogram A (sortFloat64s A ((completedOf rs).map (throughput A)))
            ((completedOf rs).length : Int) with
        | none => rw [hm, hh] at h; cases h
        | some hist =>
          rw [hm, hh] at h
          simp only [Except.ok.injEq] at h
          subst h
          exact ⟨hne, rfl, rfl, hh⟩

theorem GoMap.get_set {F V : Type} [DecidableEq F] (d : V) (m : GoMap F V) (k : F) (v : V)
    (k' : F) : (m.set k v).get d k' = if k = k' then v else m.get d k' := by
  induction m with
  | nil => simp [GoMap.set, GoMap.get]
  | cons p m ih =>
    obtain ⟨a, b⟩ := p
    by_cases hak : a = k
    · subst hak
      by_cases hk : a = k' <;> simp [GoMap.set, GoMap.get, hk]
    · simp only [GoMap.set, if_neg hak, GoMap.get, ih]
      by_cases hak' : a = k'
      · have hk : ¬ k = k' := fun h => hak (hak'.trans h.symm)
        simp [hak', hk]
      · simp [hak']

theorem GoMap.mem_keys_set {F V : Type} [DecidableEq F] (m : GoMap F V) (k : F) (v : V)
    (k' : F) : k' ∈ GoMap.keys (GoMap.set m k v) ↔ k' = k ∨ k' ∈ GoMap.keys m := by
  induction m with
  | nil => simp [GoMap.set, GoMap.keys]
  | cons p m ih =>
    obtain ⟨a, b⟩ := p
    by_cases hak : a = k
    · subst hak
      simp [GoMap.set, GoMap.keys]
    · simp only [GoMap.keys] at ih
      simp [GoMap.set, GoMap.keys, hak, ih]
      tauto

theorem GoMap.nodup_keys_set {F V : Type} [DecidableEq F] (m : GoMap F V) (k : F) (v : V)
    (h : (GoMap.keys m).Nodup) : (GoMap.keys (GoMap.set m k v)).Nodup := by
  induction m with
  | nil => simp [GoMap.set, GoMap.keys]
  | cons p m ih =>
    obtain ⟨a, b⟩ := p
    by_cases hak : a = k
    · subst hak
      simpa [GoMap.set, GoMap.keys] using h
    · have h' : a ∉ GoMap.keys m ∧ (GoMap.keys m).Nodup := by
        have h2 : (a :: GoMap.keys m).Nodup := h
        exact List.nodup_cons.mp h2
      have hmem := GoMap.mem_keys_set m k v a
      have hnd := ih h'.2
      simp only [GoMap.set, if_neg hak]
      show (a :: GoMap.keys (GoMap.set m k v)).Nodup
      refine List.nodup_cons.mpr ⟨?_, hnd⟩
      rw [hmem]
      rintro (h1 | h1)
      · exact hak h1
      · exact h'.1 h1

theorem fold_bump_get {F : Type} [DecidableEq F] (key : F → F) (series : List F)
    (m : GoMap F Int) (k : F) :
    (series.foldl (bump key) m).get 0 k = m.get 0 k + ((series.map key).count k : Int) := by
  induction series generalizing m with
  | nil => simp
  | cons v series ih =>
    rw [List.foldl_cons, ih, bump, GoMap.get_set, List.map_cons, List.count_cons]
    by_cases h : key v = k
    · simp [h]; ring
    · simp [h]

theorem fold_bump_mem_keys {F : Type} [DecidableEq F] (key : F → F) (series : List F)
    (m : GoMap F Int) (k : F) :
    k ∈ GoMap.keys (series.foldl (bump key) m) ↔ k ∈ GoMap.keys m ∨ k ∈ series.map key := by
  induction series generalizing m with
  | nil => simp
  | cons v series ih =>
    rw [List.foldl_cons, ih, bump, GoMap.mem_keys_set, List.map_cons, List.mem_cons]
    tauto

theorem fold_bump_nodup {F : Type} [DecidableEq F] (key : F → F) (series : List F)
    (m : GoMap F Int) (h : (GoMap.keys m).Nodup) :
    (GoMap.keys (series.foldl (bump key) m)).Nodup := by
  induction series generalizing m with
  | nil => simpa using h
  | cons v series ih =>
    rw [List.foldl_cons]
    exact ih _ (GoMap.nodup_keys_set m _ _ h)

theorem count_get {F : Type} [DecidableEq F] (A : Arith F) (slowest steps : F)
    (series : List F) (k : F) :
    (countBuckets A slowest steps series).get 0 k =
      (series.countP (fun v => decide (bucketOf A slowest steps v = k)) : Int) := by
  unfold countBuckets
  rw [fold_bump_get, List.count_eq_countP, List.countP_map]
  simp only [GoMap.get, zero_add]
  congr 2

theorem count_mem_keys {F : Type} [DecidableEq F] (A : Arith F) (slowest steps : F)
    (series : List F) (k : F) :
    k ∈ GoMap.keys (countBuckets A slowest steps series) ↔
      ∃ v ∈ series, bucketOf A slowest steps v = k := by
  unfold countBuckets
  rw [fold_bump_mem_keys]
  simp [GoMap.keys]

theorem count_nodup {F : Type} [DecidableEq F] (A : Arith F) (slowest steps : F)
    (series : List F) : (GoMap.keys (countBuckets A slowest steps series)).Nodup := by
  unfold countBuckets
  exact fold_bump_nodup _ _ _ (by simp [GoMap.keys])

theorem loop_get_not_mem {F : Type} [DecidableEq F] (A : Arith F) (bc : GoMap F Int)
    (total : Int) (ks : List F) (prev : F) (h : GoMap F F) (d k : F) (hk : k ∉ ks) :
    (histogramLoop A bc total ks prev h).get d k = h.get d k := by
  induction ks generalizing prev h with
  | nil => rfl
  | cons k0 ks ih =>
    have h0 : ¬ k0 = k := fun e => hk (e ▸ List.mem_cons_self _ _)
    have h1 : k ∉ ks := fun e => hk (List.mem_cons_of_mem _ e)
    simp only [histogramLoop]
    rw [ih _ _ h1, GoMap.get_set, if_neg h0]

/-- The value stored under the `i`-th key is the running sum over the first `i + 1`
keys. -/
theorem loop_get_take {F : Type} [DecidableEq F] (A : Arith F) (bc : GoMap F Int)
    (total : Int) (ks : List F) (hnd : ks.Nodup) (prev : F) (h : GoMap F F) (d : F)
    (i : Nat) (hi : i < ks.length) :
    (histogramLoop A bc total ks prev h).get d (ks.get ⟨i, hi⟩) =
      (ks.take (i + 1)).foldl (cumulate A bc total) prev := by
  induction ks generalizing prev h i with
  | nil => simp at hi
  | cons k0 ks ih =>
    have hnd' := List.nodup_cons.mp hnd
    simp only [histogramLoop]
    cases i with
    | zero =>
      simp only [zero_add, List.take_succ_cons, List.take_zero,
        List.foldl_cons, List.foldl_nil]
      show GoMap.get d (histogramLoop A bc total ks _ _) k0 = _
      rw [loop_get_not_mem A bc total ks _ _ d k0 hnd'.1, GoMap.get_set, if_pos rfl]
    | succ j =>
      have hj : j < ks.length := by simpa using hi
      have := ih hnd'.2 (cumulate A bc total prev k0)
        (GoMap.set h k0 (cumulate A bc total prev k0)) j hj
      simp only [List.take_succ_cons, List.foldl_cons]
      exact this

theorem loop_mem_keys {F : Type} [DecidableEq F] (A : Arith F) (bc : GoMap F Int)
    (total : Int) (ks : List F) (prev : F) (h : GoMap F F) (k : F) :
    k ∈ GoMap.keys (histogramLoop A bc total ks prev h) ↔ k ∈ GoMap.keys h ∨ k ∈ ks := by
  induction ks generalizing prev h with
  | nil => simp [histogramLoop]
  | cons k0 ks ih =>
    simp only [histogramLoop]
    rw [ih, GoMap.mem_keys_set, List.mem_cons]
    tauto

theorem loop_nodup {F : Type} [DecidableEq F] (A : Arith F) (bc : GoMap F Int)
    (total : Int) (ks : List F) (prev : F) (h : GoMap F F) (hn : (GoMap.keys h).Nodup) :
    (GoMap.keys (histogramLoop A bc total ks prev h)).Nodup := by
  induction ks generalizing prev h with
  | nil => simpa [histogramLoop] using hn
  | cons k0 ks ih =>
    simp only [histogramLoop]
    exact ih _ _ (GoMap.nodup_keys_set h _ _ hn)

theorem scan_succ {F : Type} (A : Arith F) (lo s v : F) (n : Nat) :
    bucketScan A lo s v (n + 1) = bucketStep A lo s v (bucketScan A lo s v n) n := by
  simp [bucketScan, List.range_succ, List.foldl_append]

/-- The scan keeps the upper bound of the last bucket that contains the value. -/
theorem scan_last {F : Type} (A : Arith F) (lo s v : F) (n i : Nat) (hi : i < n)
    (hm : inBucket A lo s v i = true)
    (hlast : ∀ j : Nat, i < j → j < n → inBucket A lo s v j = false) :
    bucketScan A lo s v n = upper A lo s i := by
  induction n with
  | zero => omega
  | succ n ih =>
    rw [scan_succ]
    by_cases hin : i = n
    · subst hin
      simp [bucketStep, hm]
    · have hlt : i < n := by omega
      simp only [bucketStep, hlast n hlt (Nat.lt_succ_self n)]
      exact ih hlt (fun j h1 h2 => hlast j h1 (Nat.lt_succ_of_lt h2))

/-- A scan over buckets none of which contains the value keeps the zero value. -/
theorem scan_none {F : Type} (A : Arith F) (lo s v : F) (n : Nat)
    (h : ∀ j : Nat, j < n → inBucket A lo s v j = false) :
    bucketScan A lo s v n = A.ofInt 0 := by
  induction n with
  | zero => rfl
  | succ n ih =>
    rw [scan_succ]
    simp only [bucketStep, h n (Nat.lt_succ_self n)]
    exact ih (fun j hj => h j (Nat.lt_succ_of_lt hj))

/-- The result of a scan: the zero value, or the upper bound of the last bucket that
contains the value. -/
theorem scan_cases {F : Type} (A : Arith F) (lo s v : F) (n : Nat) :
    ((∀ j : Nat, j < n → inBucket A lo s v j = false) ∧ bucketScan A lo s v n = A.ofInt 0) ∨
    ∃ i : Nat, i < n ∧ inBucket A lo s v i = true ∧
      (∀ j : Nat, i < j → j < n → inBucket A lo s v j = false) ∧
      bucketScan A lo s v n = upper A lo s i := by
  induction n with
  | zero => exact Or.inl ⟨fun j hj => absurd hj (Nat.not_lt_zero j), rfl⟩
  | succ n ih =>
    by_cases hn : inBucket A lo s v n = true
    · refine Or.inr ⟨n, Nat.lt_succ_self n, hn, fun j h1 h2 => by omega, ?_⟩
      rw [scan_succ]
      simp [bucketStep, hn]
    · have hn' : inBucket A lo s v n = false := by simpa using hn
      rcases ih with ⟨hall, hz⟩ | ⟨i, hi, hm, hlast, hscan⟩
      · refine Or.inl ⟨?_, ?_⟩
        · intro j hj
          rcases Nat.lt_succ_iff_lt_or_eq.mp hj with h | h
          · exact hall j h
          · rw [h]; exact hn'
        · rw [scan_succ]
          simp only [bucketStep, hn']
          exact hz
      · refine Or.inr ⟨i, Nat.lt_succ_of_lt hi, hm, ?_, ?_⟩
        · intro j h1 h2
          rcases Nat.lt_succ_iff_lt_or_eq.mp h2 with h | h
          · exact hlast j h1 h
          · rw [h]; exact hn'
        · rw [scan_succ]
          simp only [bucketStep, hn']
          exact hscan

end Float64

/-! ## Helper lemmas: IEEE-754 rounding and the running sum -/

theorem pow2_eq (u : Int) : pow2 u = (2 : ℚ) ^ u := by
  unfold pow2
  split_ifs with h
  · obtain ⟨n, rfl⟩ := Int.eq_ofNat_of_zero_le h
    simp
  · push_neg at h
    obtain ⟨n, hn⟩ : ∃ n : Nat, -u = (n : Int) := Int.eq_ofNat_of_zero_le (by omega)
    have hu : u = -(n : Int) := by omega
    rw [hn, hu]
    simp

theorem bitLen_spec (fuel n : Nat) (hn : n < 2 ^ fuel) (hpos : 0 < n) :
    2 ^ bitLen fuel n ≤ 2 * n ∧ n < 2 ^ bitLen fuel n := by
  induction fuel generalizing n with
  | zero => simp at hn; omega
  | succ fuel ih =>
    have h0 : n ≠ 0 := by omega
    simp only [bitLen, if_neg h0]
    by_cases h1 : n / 2 = 0
    · have hn1 : n = 1 := by omega
      subst hn1
      cases fuel <;> simp [bitLen]
    · have hlt : n / 2 < 2 ^ fuel := by
        rw [pow_succ] at hn
        omega
      obtain ⟨ha, hb⟩ := ih (n / 2) hlt (by omega)
      rw [pow_succ]
      constructor <;> omega

theorem bitLen_self (n : Nat) (hpos : 0 < n) :
    2 ^ bitLen n n ≤ 2 * n ∧ n < 2 ^ bitLen n n :=
  bitLen_spec n n (Nat.lt_two_pow n) hpos

theorem ilog2_spec (a : ℚ) (ha : 0 < a) :
    (2 : ℚ) ^ ilog2 a ≤ a ∧ a < (2 : ℚ) ^ (ilog2 a + 1) := by
  have hnum : 0 < a.num := Rat.num_pos.mpr ha
  have hN : 0 < a.num.natAbs := Int.natAbs_pos.mpr (ne_of_gt hnum)
  have hD : 0 < a.den := a.den_pos
  obtain ⟨n1, n2⟩ := bitLen_self a.num.natAbs hN
  obtain ⟨d1, d2⟩ := bitLen_self a.den hD
  set bn := bitLen a.num.natAbs a.num.natAbs with hbn
  set bd := bitLen a.den a.den with hbd
  have hNq : ((a.num.natAbs : Nat) : ℚ) = (a.num : ℚ) := by
    rw [← Int.cast_natCast, Int.natAbs_of_nonneg (le_of_lt hnum)]
  have haeq : a = (a.num.natAbs : ℚ) / (a.den : ℚ) := by
    rw [hNq]; exact (Rat.num_div_den a).symm
  have n1q : (2 : ℚ) ^ bn ≤ 2 * (a.num.natAbs : ℚ) := by exact_mod_cast n1
  have n2q : (a.num.natAbs : ℚ) < (2 : ℚ) ^ bn := by exact_mod_cast n2
  have d1q : (2 : ℚ) ^ bd ≤ 2 * (a.den : ℚ) := by exact_mod_cast d1
  have d2q : (a.den : ℚ) < (2 : ℚ) ^ bd := by exact_mod_cast d2
  have hDq : (0 : ℚ) < (a.den : ℚ) := by exact_mod_cast hD
  have hy : (0 : ℚ) < (2 : ℚ) ^ bd := by positivity
  have he0 : (2 : ℚ) ^ ((bn : Int) - (bd : Int)) = (2 : ℚ) ^ bn / (2 : ℚ) ^ bd := by
    rw [zpow_sub₀ (by norm_num : (2 : ℚ) ≠ 0)]; simp
  have hup : a < 2 * ((2 : ℚ) ^ bn / (2 : ℚ) ^ bd) := by
    rw [haeq, div_lt_iff₀ hDq]
    have : 2 * ((2 : ℚ) ^ bn / (2 : ℚ) ^ bd) * (a.den : ℚ) =
        (2 : ℚ) ^ bn * (2 * (a.den : ℚ) / (2 : ℚ) ^ bd) := by ring
    rw [this]
    have h1 : (1 : ℚ) ≤ 2 * (a.den : ℚ) / (2 : ℚ) ^ bd := by
      rw [le_div_iff₀ hy]; linarith
    have hx : (0 : ℚ) < (2 : ℚ) ^ bn := by positivity
    nlinarith
  have hlow : (2 : ℚ) ^ bn / (2 : ℚ) ^ bd / 2 ≤ a := by
    rw [haeq, le_div_iff₀ hDq, div_div, div_mul_eq_mul_div, div_le_iff₀ (by positivity)]
    have hx : (0 : ℚ) < (2 : ℚ) ^ bn := by positivity
    nlinarith
  have hdef : ilog2 a = if pow2 ((bn : Int) - (bd : Int)) ≤ a then (bn : Int) - (bd : Int)
      else (bn : Int) - (bd : Int) - 1 := rfl
  rw [hdef, pow2_eq]
  split_ifs with hc
  · refine ⟨hc, ?_⟩
    rw [zpow_add_one₀ (by norm_num : (2 : ℚ) ≠ 0), he0]
    linarith
  · push_neg at hc
    constructor
    · rw [zpow_sub_one₀ (by norm_num : (2 : ℚ) ≠ 0), he0]
      simpa [div_eq_mul_inv] using hlow
    · simpa using hc

theorem rhe_cases (x : ℚ) :
    (roundHalfEven x = ⌊x⌋ ∧ x - (⌊x⌋ : ℚ) ≤ 1 / 2) ∨
    (roundHalfEven x = ⌊x⌋ + 1 ∧ 1 / 2 ≤ x - (⌊x⌋ : ℚ)) := by
  unfold roundHalfEven
  simp only
  split_ifs with h1 h2 h3
  · exact Or.inl ⟨rfl, le_of_lt h1⟩
  · exact Or.inr ⟨rfl, le_of_lt h2⟩
  · exact Or.inl ⟨rfl, not_lt.mp h2⟩
  · exact Or.inr ⟨rfl, not_lt.mp h1⟩

theorem rhe_abs (x : ℚ) : |(roundHalfEven x : ℚ) - x| ≤ 1 / 2 := by
  have h1 := Int.floor_le x
  have h2 := Int.lt_floor_add_one x
  rw [abs_le]
  rcases rhe_cases x with ⟨e, h⟩ | ⟨e, h⟩ <;> rw [e] <;> push_cast <;> constructor <;> linarith

theorem rhe_ge (x : ℚ) (k : Int) (h : (k : ℚ) ≤ x) : k ≤ roundHalfEven x := by
  have hk : k ≤ ⌊x⌋ := Int.le_floor.mpr h
  rcases rhe_cases x with ⟨e, _⟩ | ⟨e, _⟩ <;> rw [e] <;> omega

theorem rhe_le (x : ℚ) (k : Int) (h : x ≤ (k : ℚ)) : roundHalfEven x ≤ k := by
  have h1 := Int.floor_le x
  rcases rhe_cases x with ⟨e, _⟩ | ⟨e, hr⟩ <;> rw [e]
  · exact Int.cast_le.mp (le_trans h1 h)
  · have : (⌊x⌋ : ℚ) < (k : ℚ) := by linarith
    have := Int.cast_lt.mp this
    omega

theorem round_of_pos (q : ℚ) (hq : 0 < q) :
    Binary64.round q =
      if (2 : ℚ) ^ (1024 : Int) ≤
          (roundHalfEven (q / (2 : ℚ) ^ ulpExp q) : ℚ) * (2 : ℚ) ^ ulpExp q then .pinf
      else .fin ((roundHalfEven (q / (2 : ℚ) ^ ulpExp q) : ℚ) * (2 : ℚ) ^ ulpExp q) := by
  unfold Binary64.round
  rw [if_neg (ne_of_gt hq)]
  simp only [abs_of_pos hq, if_pos hq, pow2_eq, ulpExp]

theorem ulpExp_ge (q : ℚ) : -1074 ≤ ulpExp q := by
  unfold ulpExp
  have := le_max_right (ilog2 q) (-1022)
  omega

theorem ulpExp_ge_ilog2 (q : ℚ) : ilog2 q - 52 ≤ ulpExp q := by
  unfold ulpExp
  have := le_max_left (ilog2 q) (-1022)
  omega

theorem mant_nonneg (q : ℚ) (hq : 0 < q) : 0 ≤ roundHalfEven (q / (2 : ℚ) ^ ulpExp q) := by
  apply rhe_ge
  have : (0 : ℚ) < (2 : ℚ) ^ ulpExp q := by positivity
  simp only [Int.cast_zero]
  positivity

theorem mant_le (q : ℚ) (hq : 0 < q) :
    roundHalfEven (q / (2 : ℚ) ^ ulpExp q) ≤ 2 ^ 53 := by
  apply rhe_le
  have hp : (0 : ℚ) < (2 : ℚ) ^ ulpExp q := by positivity
  rw [div_le_iff₀ hp]
  have h1 := (ilog2_spec q hq).2
  have h2 : (2 : ℚ) ^ (ilog2 q + 1) ≤ (2 : ℚ) ^ ((53 : Int) + ulpExp q) :=
    zpow_le_zpow_right₀ (by norm_num) (by have := ulpExp_ge_ilog2 q; omega)
  have h3 : (2 : ℚ) ^ ((53 : Int) + ulpExp q) = (2 : ℚ) ^ (53 : Nat) * (2 : ℚ) ^ ulpExp q := by
    rw [zpow_add₀ (by norm_num : (2 : ℚ) ≠ 0)]
    norm_cast
  rw [h3] at h2
  push_cast
  linarith

/-- Rounding a value that is at least zero gives `+Inf` or a finite float64 value that
is at least zero. -/
theorem round_nonneg (q : ℚ) (hq : 0 ≤ q) : (Binary64.round q).NonNeg := by
  rcases eq_or_lt_of_le hq with h0 | hpos
  · subst h0
    refine Or.inr ⟨0, by simp [Binary64.round], le_refl _, 0, 0, by simp, by norm_num, by norm_num⟩
  · rw [round_of_pos q hpos]
    split_ifs with hov
    · exact Or.inl rfl
    · have hm0 := mant_nonneg q hpos
      have hm1 := mant_le q hpos
      obtain ⟨m, hm⟩ := Int.eq_ofNat_of_zero_le hm0
      refine Or.inr ⟨_, rfl, ?_, m, ulpExp q, ?_, ?_, ulpExp_ge q⟩
      · have : (0 : ℚ) ≤ (roundHalfEven (q / (2 : ℚ) ^ ulpExp q) : ℚ) := by exact_mod_cast hm0
        positivity
      · rw [hm]; simp
      · rw [hm] at hm1
        exact_mod_cast hm1

/-- Rounding does not go below a float64 value that the exact result reaches. -/
theorem round_ge_rep (p q : ℚ) (hp0 : 0 ≤ p) (hrep : Binary64.Rep p) (hpq : p ≤ q) :
    Binary64.round q = .pinf ∨ ∃ v, Binary64.round q = .fin v ∧ p ≤ v := by
  rcases eq_or_lt_of_le (le_trans hp0 hpq) with h0 | hpos
  · subst h0
    exact Or.inr ⟨0, by simp [Binary64.round], hpq⟩
  · rw [round_of_pos q hpos]
    split_ifs with hov
    · exact Or.inl rfl
    · refine Or.inr ⟨_, rfl, ?_⟩
      obtain ⟨m, w, hp, hm, hw⟩ := hrep
      have hu : (0 : ℚ) < (2 : ℚ) ^ ulpExp q := by positivity
      by_cases hwu : ulpExp q ≤ w
      · obtain ⟨d, hd⟩ := Int.eq_ofNat_of_zero_le (by omega : 0 ≤ w - ulpExp q)
        have hw' : w = (d : Int) + ulpExp q := by omega
        have hpk : p = (((m * 2 ^ d : Nat) : Int) : ℚ) * (2 : ℚ) ^ ulpExp q := by
          rw [hp, hw', zpow_add₀ (by norm_num : (2 : ℚ) ≠ 0)]
          push_cast
          rw [zpow_natCast]
          ring
        have hk : ((m * 2 ^ d : Nat) : Int) ≤ roundHalfEven (q / (2 : ℚ) ^ ulpExp q) := by
          apply rhe_ge
          rw [le_div_iff₀ hu, ← hpk]
          exact hpq
        rw [hpk]
        have hk' : (((m * 2 ^ d : Nat) : Int) : ℚ) ≤
            (roundHalfEven (q / (2 : ℚ) ^ ulpExp q) : ℚ) := by exact_mod_cast hk
        exact mul_le_mul_of_nonneg_right hk' (le_of_lt hu)
      · push_neg at hwu
        have hnorm : ulpExp q = ilog2 q - 52 := by
          unfold ulpExp at hwu ⊢
          rcases max_cases (ilog2 q) (-1022) with ⟨e, _⟩ | ⟨e, _⟩
          · rw [e]
          · rw [e] at hwu; omega
        have hq52 : (2 : ℚ) ^ (52 : Nat) * (2 : ℚ) ^ ulpExp q ≤ q := by
          have h1 := (ilog2_spec q hpos).1
          have : (2 : ℚ) ^ ilog2 q = (2 : ℚ) ^ (52 : Nat) * (2 : ℚ) ^ ulpExp q := by
            rw [hnorm, ← zpow_natCast, ← zpow_add₀ (by norm_num : (2 : ℚ) ≠ 0)]
            congr 1
            push_cast
            ring
          rw [← this]; exact h1
        have hk : (((2 : Int) ^ 52 : Int)) ≤ roundHalfEven (q / (2 : ℚ) ^ ulpExp q) := by
          apply rhe_ge
          rw [le_div_iff₀ hu]
          push_cast
          exact hq52
        have hk' : ((2 : ℚ) ^ (52 : Nat)) ≤ (roundHalfEven (q / (2 : ℚ) ^ ulpExp q) : ℚ) := by
          exact_mod_cast hk
        have hpw : p ≤ (2 : ℚ) ^ (52 : Nat) * (2 : ℚ) ^ ulpExp q := by
          have hmq : (m : ℚ) ≤ (2 : ℚ) ^ (53 : Nat) := by exact_mod_cast hm
          have hw2 : (2 : ℚ) ^ (w + 1) ≤ (2 : ℚ) ^ ulpExp q :=
            zpow_le_zpow_right₀ (by norm_num) (by omega)
          rw [zpow_add_one₀ (by norm_num : (2 : ℚ) ≠ 0)] at hw2
          have hwpos : (0 : ℚ) < (2 : ℚ) ^ w := by positivity
          rw [hp]
          calc (m : ℚ) * (2 : ℚ) ^ w ≤ (2 : ℚ) ^ (53 : Nat) * (2 : ℚ) ^ w :=
                mul_le_mul_of_nonneg_right hmq (le_of_lt hwpos)
            _ = (2 : ℚ) ^ (52 : Nat) * ((2 : ℚ) ^ w * 2) := by ring
            _ ≤ (2 : ℚ) ^ (52 : Nat) * (2 : ℚ) ^ ulpExp q :=
                mul_le_mul_of_nonneg_left hw2 (by positivity)
        exact le_trans hpw (mul_le_mul_of_nonneg_right hk' (le_of_lt hu))

/-- In the normal range rounding changes a value by at most the factor `1 ± 2^-53`. -/
theorem round_rel (q : ℚ) (h1 : (2 : ℚ) ^ (-1022 : Int) ≤ q) (h2 : q ≤ (2 : ℚ) ^ (1023 : Int)) :
    ∃ v, Binary64.round q = .fin v ∧
      (1 - 1 / 2 ^ 53) * q ≤ v ∧ v ≤ (1 + 1 / 2 ^ 53) * q := by
  have hpos : 0 < q := lt_of_lt_of_le (by positivity) h1
  have hs := ilog2_spec q hpos
  have hil : -1022 ≤ ilog2 q := by
    have : (2 : ℚ) ^ (-1022 : Int) < (2 : ℚ) ^ (ilog2 q + 1) := lt_of_le_of_lt h1 hs.2
    have := (zpow_lt_zpow_iff_right₀ (by norm_num : (1 : ℚ) < 2)).mp this
    omega
  have hnorm : ulpExp q = ilog2 q - 52 := by
    unfold ulpExp
    rw [max_eq_left hil]
  have hu : (0 : ℚ) < (2 : ℚ) ^ ulpExp q := by positivity
  have hulp : (2 : ℚ) ^ ulpExp q / 2 ≤ q / 2 ^ 53 := by
    have : (2 : ℚ) ^ ilog2 q = (2 : ℚ) ^ (52 : Nat) * (2 : ℚ) ^ ulpExp q := by
      rw [hnorm, ← zpow_natCast, ← zpow_add₀ (by norm_num : (2 : ℚ) ≠ 0)]
      congr 1
      push_cast
      ring
    have h3 := hs.1
    rw [this] at h3
    rw [div_le_div_iff₀ (by norm_num) (by positivity)]
    have : (2 : ℚ) ^ 53 = 2 * (2 : ℚ) ^ (52 : Nat) := by norm_num
    rw [this]
    nlinarith
  have habs := rhe_abs (q / (2 : ℚ) ^ ulpExp q)
  rw [abs_le] at habs
  have hv1 : q - (2 : ℚ) ^ ulpExp q / 2 ≤
      (roundHalfEven (q / (2 : ℚ) ^ ulpExp q) : ℚ) * (2 : ℚ) ^ ulpExp q := by
    have := mul_le_mul_of_nonneg_right habs.1 (le_of_lt hu)
    rw [sub_mul, div_mul_cancel₀ _ (ne_of_gt hu)] at this
    linarith
  have hv2 : (roundHalfEven (q / (2 : ℚ) ^ ulpExp q) : ℚ) * (2 : ℚ) ^ ulpExp q ≤
      q + (2 : ℚ) ^ ulpExp q / 2 := by
    have := mul_le_mul_of_nonneg_right habs.2 (le_of_lt hu)
    rw [sub_mul, div_mul_cancel₀ _ (ne_of_gt hu)] at this
    linarith
  have hlt : ¬ (2 : ℚ) ^ (1024 : Int) ≤
      (roundHalfEven (q / (2 : ℚ) ^ ulpExp q) : ℚ) * (2 : ℚ) ^ ulpExp q := by
    have h4 : (2 : ℚ) ^ (1024 : Int) = 2 * (2 : ℚ) ^ (1023 : Int) := by
      rw [show (1024 : Int) = 1023 + 1 from rfl, zpow_add_one₀ (by norm_num : (2 : ℚ) ≠ 0)]
      ring
    have h5 : q / 2 ^ 53 < q := by
      rw [div_lt_iff₀ (by positivity)]
      have : (1 : ℚ) < 2 ^ 53 := by norm_num
      nlinarith
    rw [h4]
    push_neg
    linarith
  rw [round_of_pos q hpos, if_neg hlt]
  refine ⟨_, rfl, ?_, ?_⟩
  · have : (1 - 1 / 2 ^ 53) * q = q - q / 2 ^ 53 := by ring
    rw [this]; linarith
  · have : (1 + 1 / 2 ^ 53) * q = q + q / 2 ^ 53 := by ring
    rw [this]; linarith

theorem maxInt_le_pow : (maxInt : ℚ) ≤ (2 : ℚ) ^ (63 : Nat) := by
  norm_num [maxInt]

/-- The conversion `float64(c)` of a count: finite, at least zero, within the factor
`1 ± 2^-53` of `c`. -/
theorem ofInt_count (c : Int) (h0 : 0 ≤ c) (h1 : c ≤ maxInt) :
    ∃ v : ℚ, ieee.ofInt c = .fin v ∧ 0 ≤ v ∧
      (1 - 1 / 2 ^ 53) * (c : ℚ) ≤ v ∧ v ≤ (1 + 1 / 2 ^ 53) * (c : ℚ) := by
  rcases eq_or_lt_of_le h0 with e | hpos
  · subst e
    exact ⟨0, by simp [ieee, Binary64.round], le_refl _, by simp, by simp⟩
  · have hc1 : (1 : ℚ) ≤ (c : ℚ) := by exact_mod_cast hpos
    have hc2 : (c : ℚ) ≤ (2 : ℚ) ^ (63 : Nat) :=
      le_trans (by exact_mod_cast h1) maxInt_le_pow
    have ha : (2 : ℚ) ^ (-1022 : Int) ≤ (c : ℚ) := by
      have : (2 : ℚ) ^ (-1022 : Int) ≤ (2 : ℚ) ^ (0 : Int) :=
        zpow_le_zpow_right₀ (by norm_num) (by norm_num)
      simp only [zpow_zero] at this
      linarith
    have hb : (c : ℚ) ≤ (2 : ℚ) ^ (1023 : Int) := by
      have : (2 : ℚ) ^ ((63 : Nat) : Int) ≤ (2 : ℚ) ^ (1023 : Int) :=
        zpow_le_zpow_right₀ (by norm_num) (by norm_num)
      rw [zpow_natCast] at this
      linarith
    obtain ⟨v, hv, hl, hu⟩ := round_rel (c : ℚ) ha hb
    refine ⟨v, hv, ?_, hl, hu⟩
    have : (0 : ℚ) ≤ (1 - 1 / 2 ^ 53) * (c : ℚ) := by
      have : (0 : ℚ) ≤ 1 - 1 / 2 ^ 53 := by norm_num
      positivity
    linarith

theorem small_le (x : ℚ) (h1 : (1 : ℚ) / 2 ^ 70 ≤ x) (h2 : x ≤ 2 ^ 70) :
    (2 : ℚ) ^ (-1022 : Int) ≤ x ∧ x ≤ (2 : ℚ) ^ (1023 : Int) := by
  constructor
  · have : (2 : ℚ) ^ (-1022 : Int) ≤ (2 : ℚ) ^ (-70 : Int) :=
      zpow_le_zpow_right₀ (by norm_num) (by norm_num)
    have h3 : (2 : ℚ) ^ (-70 : Int) = 1 / 2 ^ 70 := by
      rw [zpow_neg, one_div]; norm_cast
    rw [h3] at this
    exact le_trans this h1
  · have : (2 : ℚ) ^ ((70 : Nat) : Int) ≤ (2 : ℚ) ^ (1023 : Int) :=
      zpow_le_zpow_right₀ (by norm_num) (by norm_num)
    rw [zpow_natCast] at this
    linarith

/-- The fraction `float64(c)/float64(t)` of a count: finite, at least zero, a float64
value, within the factor `1 ± 4 * 2^-53` of `c/t`. -/
theorem fraction_bound (c t : Int) (hc0 : 0 ≤ c) (hc1 : c ≤ maxInt) (ht0 : 0 < t)
    (ht1 : t ≤ maxInt) :
    ∃ f : ℚ, ieee.div (ieee.ofInt c) (ieee.ofInt t) = .fin f ∧ 0 ≤ f ∧ Binary64.Rep f ∧
      (1 - 4 / 2 ^ 53) * ((c : ℚ) / (t : ℚ)) ≤ f ∧ f ≤ (1 + 4 / 2 ^ 53) * ((c : ℚ) / (t : ℚ)) := by
  obtain ⟨c', hc', hc'0, hcl, hcu⟩ := ofInt_count c hc0 hc1
  obtain ⟨t', ht', _, htl, htu⟩ := ofInt_count t (le_of_lt ht0) ht1
  have htq : (1 : ℚ) ≤ (t : ℚ) := by exact_mod_cast ht0
  have htq2 : (t : ℚ) ≤ (2 : ℚ) ^ (63 : Nat) := le_trans (by exact_mod_cast ht1) maxInt_le_pow
  have hcq2 : (c : ℚ) ≤ (2 : ℚ) ^ (63 : Nat) := le_trans (by exact_mod_cast hc1) maxInt_le_pow
  have hcq0 : (0 : ℚ) ≤ (c : ℚ) := by exact_mod_cast hc0
  have ht'pos : 0 < t' := by
    have : (0 : ℚ) < (1 - 1 / 2 ^ 53) * (t : ℚ) := by
      have : (0 : ℚ) < 1 - 1 / 2 ^ 53 := by norm_num
      positivity
    linarith
  have hdiv : ieee.div (ieee.ofInt c) (ieee.ofInt t) = Binary64.round (c' / t') := by
    rw [hc', ht']
    simp [ieee, Binary64.div, ne_of_gt ht'pos]
  rw [hdiv]
  have htpos : (0 : ℚ) < (t : ℚ) := by linarith
  rcases eq_or_lt_of_le hc0 with e | hcpos
  · subst e
    have hc'z : c' = 0 := by
      simp only [Int.cast_zero, mul_zero] at hcl hcu
      exact le_antisymm hcu hc'0
    subst hc'z
    refine ⟨0, by simp [Binary64.round], le_refl _, ⟨0, 0, by simp, by norm_num, by norm_num⟩,
      by simp, by simp⟩
  · have hcq1 : (1 : ℚ) ≤ (c : ℚ) := by exact_mod_cast hcpos
    have hq0 : 0 < c' / t' := by
      have : 0 < c' := by
        have : (0 : ℚ) < (1 - 1 / 2 ^ 53) * (c : ℚ) := by
          have : (0 : ℚ) < 1 - 1 / 2 ^ 53 := by norm_num
          positivity
        linarith
      positivity
    have hqu : c' / t' ≤ (1 + 5 / 2 ^ 54) * ((c : ℚ) / (t : ℚ)) := by
      rw [div_le_iff₀ ht'pos]
      have h5 : (1 + 5 / 2 ^ 54) * ((c : ℚ) / (t : ℚ)) * t' ≥
          (1 + 5 / 2 ^ 54) * ((c : ℚ) / (t : ℚ)) * ((1 - 1 / 2 ^ 53) * (t : ℚ)) :=
        mul_le_mul_of_nonneg_left htl (by positivity)
      have h6 : (1 + 5 / 2 ^ 54) * ((c : ℚ) / (t : ℚ)) * ((1 - 1 / 2 ^ 53) * (t : ℚ)) =
          ((1 + 5 / 2 ^ 54) * (1 - 1 / 2 ^ 53)) * (c : ℚ) := by
        field_simp
        ring
      have h7 : (1 + 1 / 2 ^ 53) * (c : ℚ) ≤ ((1 + 5 / 2 ^ 54) * (1 - 1 / 2 ^ 53)) * (c : ℚ) :=
        mul_le_mul_of_nonneg_right (by norm_num) hcq0
      linarith
    have hql : (1 - 3 / 2 ^ 53) * ((c : ℚ) / (t : ℚ)) ≤ c' / t' := by
      rw [le_div_iff₀ ht'pos]
      have h5 : (1 - 3 / 2 ^ 53) * ((c : ℚ) / (t : ℚ)) * t' ≤
          (1 - 3 / 2 ^ 53) * ((c : ℚ) / (t : ℚ)) * ((1 + 1 / 2 ^ 53) * (t : ℚ)) :=
        mul_le_mul_of_nonneg_left htu (by
          have : (0 : ℚ) ≤ 1 - 3 / 2 ^ 53 := by norm_num
          positivity)
      have h6 : (1 - 3 / 2 ^ 53) * ((c : ℚ) / (t : ℚ)) * ((1 + 1 / 2 ^ 53) * (t : ℚ)) =
          ((1 - 3 / 2 ^ 53) * (1 + 1 / 2 ^ 53)) * (c : ℚ) := by
        field_simp
        ring
      have h7 : ((1 - 3 / 2 ^ 53) * (1 + 1 / 2 ^ 53)) * (c : ℚ) ≤ (1 - 1 / 2 ^ 53) * (c : ℚ) :=
        mul_le_mul_of_nonneg_right (by norm_num) hcq0
      linarith
    have hct0 : (0 : ℚ) < (c : ℚ) / (t : ℚ) := by positivity
    have hct1 : (1 : ℚ) / 2 ^ 63 ≤ (c : ℚ) / (t : ℚ) := by
      rw [div_le_div_iff₀ (by positivity) htpos]
      nlinarith
    have hct2 : (c : ℚ) / (t : ℚ) ≤ 2 ^ 63 := by
      rw [div_le_iff₀ htpos]
      nlinarith
    have hr := small_le (c' / t') (by
        have : (1 : ℚ) / 2 ^ 70 ≤ (1 - 3 / 2 ^ 53) * (1 / 2 ^ 63) := by norm_num
        have h8 : (1 - 3 / 2 ^ 53) * ((1 : ℚ) / 2 ^ 63) ≤
            (1 - 3 / 2 ^ 53) * ((c : ℚ) / (t : ℚ)) :=
          mul_le_mul_of_nonneg_left hct1 (by norm_num)
        linarith) (by
        have : (1 + 5 / 2 ^ 54) * ((2 : ℚ) ^ 63) ≤ 2 ^ 70 := by norm_num
        have h8 : (1 + 5 / 2 ^ 54) * ((c : ℚ) / (t : ℚ)) ≤ (1 + 5 / 2 ^ 54) * ((2 : ℚ) ^ 63) :=
          mul_le_mul_of_nonneg_left hct2 (by norm_num)
        linarith)
    obtain ⟨f, hf, hfl, hfu⟩ := round_rel (c' / t') hr.1 hr.2
    have hnn := round_nonneg (c' / t') (le_of_lt hq0)
    rw [hf] at hnn
    rcases hnn with h | ⟨q, hq, hq0', hrep⟩
    · cases h
    · cases hq
      refine ⟨f, hf, hq0', hrep, ?_, ?_⟩
      · have h9 : (1 - 1 / 2 ^ 53) * ((1 - 3 / 2 ^ 53) * ((c : ℚ) / (t : ℚ))) ≤
            (1 - 1 / 2 ^ 53) * (c' / t') :=
          mul_le_mul_of_nonneg_left hql (by norm_num)
        have h10 : (1 - 4 / 2 ^ 53) * ((c : ℚ) / (t : ℚ)) ≤
            (1 - 1 / 2 ^ 53) * ((1 - 3 / 2 ^ 53) * ((c : ℚ) / (t : ℚ))) := by
          rw [← mul_assoc]
          exact mul_le_mul_of_nonneg_right (by norm_num) (le_of_lt hct0)
        linarith
      · have h9 : (1 + 1 / 2 ^ 53) * (c' / t') ≤
            (1 + 1 / 2 ^ 53) * ((1 + 5 / 2 ^ 54) * ((c : ℚ) / (t : ℚ))) :=
          mul_le_mul_of_nonneg_left hqu (by norm_num)
        have h10 : (1 + 1 / 2 ^ 53) * ((1 + 5 / 2 ^ 54) * ((c : ℚ) / (t : ℚ))) ≤
            (1 + 4 / 2 ^ 53) * ((c : ℚ) / (t : ℚ)) := by
          rw [← mul_assoc]
          exact mul_le_mul_of_nonneg_right (by norm_num) (le_of_lt hct0)
        linarith

theorem sum_nonneg_of (cnt : Binary64 → Int) (ks : List Binary64)
    (h : ∀ k ∈ ks, 0 ≤ cnt k) : 0 ≤ (ks.map cnt).sum :=
  List.sum_nonneg (by
    intro x hx
    obtain ⟨k, hk, rfl⟩ := List.mem_map.mp hx
    exact h k hk)

theorem coef_small (a : ℚ) (ha4 : 4 ≤ a) (ha : a ≤ 2 ^ 10) :
    a / 2 ^ 53 ≤ 1 / 2 ^ 43 ∧ (0 : ℚ) ≤ a / 2 ^ 53 := by
  constructor
  · rw [div_le_div_iff₀ (by positivity) (by positivity)]
    have : (2 : ℚ) ^ 53 = 2 ^ 10 * 2 ^ 43 := by norm_num
    rw [this]
    nlinarith
  · positivity

theorem coef_lower (a : ℚ) (ha4 : 4 ≤ a) :
    (1 - (a + 2) / 2 ^ 53) ≤ (1 - 1 / 2 ^ 53) * (1 - a / 2 ^ 53) := by
  have h1 : (1 - 1 / 2 ^ 53) * (1 - a / 2 ^ 53) =
      1 - (a + 1) / 2 ^ 53 + (1 / 2 ^ 53) * (a / 2 ^ 53) := by ring
  rw [h1]
  have h2 : (0 : ℚ) ≤ (1 / 2 ^ 53) * (a / 2 ^ 53) := by positivity
  have h3 : (a + 2) / (2 : ℚ) ^ 53 = (a + 1) / 2 ^ 53 + 1 / 2 ^ 53 := by ring
  have h4 : (0 : ℚ) ≤ 1 / 2 ^ 53 := by positivity
  linarith

theorem coef_upper (a : ℚ) (ha4 : 4 ≤ a) (ha : a ≤ 2 ^ 10) :
    (1 + 1 / 2 ^ 53) * (1 + a / 2 ^ 53) ≤ (1 + (a + 2) / 2 ^ 53) := by
  have h1 : (1 + 1 / 2 ^ 53) * (1 + a / 2 ^ 53) =
      1 + (a + 1) / 2 ^ 53 + (1 / 2 ^ 53) * (a / 2 ^ 53) := by ring
  rw [h1]
  have h2 : (1 / 2 ^ 53) * (a / 2 ^ 53) ≤ (1 / (2 : ℚ) ^ 53) * (1 / 2 ^ 43) :=
    mul_le_mul_of_nonneg_left (coef_small a ha4 ha).1 (by positivity)
  have h3 : (1 / (2 : ℚ) ^ 53) * (1 / 2 ^ 43) ≤ 1 / 2 ^ 53 := by norm_num
  have h4 : (a + 2) / (2 : ℚ) ^ 53 = (a + 1) / 2 ^ 53 + 1 / 2 ^ 53 := by ring
  linarith

/-- A positive value between factors near 1 of a fraction `N/t` of 64-bit integers is
in the normal range of float64. -/
theorem range_of_fraction (x T p : ℚ) (hT1 : (1 : ℚ) / 2 ^ 63 ≤ T) (hT2 : T ≤ 2 ^ 63)
    (hp : p ≤ 1 / 2 ^ 43) (hl : (1 - p) * T ≤ x) (hu : x ≤ (1 + p) * T) :
    (2 : ℚ) ^ (-1022 : Int) ≤ x ∧ x ≤ (2 : ℚ) ^ (1023 : Int) := by
  have hT0 : (0 : ℚ) ≤ T := le_trans (by positivity) hT1
  have hlow2 : (0 : ℚ) ≤ 1 - p := by
    have : (1 : ℚ) / 2 ^ 43 < 1 := by norm_num
    linarith
  apply small_le
  · have h1 : (1 - 1 / 2 ^ 43) * ((1 : ℚ) / 2 ^ 63) ≤ (1 - p) * T :=
      mul_le_mul (by linarith) hT1 (by norm_num) hlow2
    have h2 : (1 : ℚ) / 2 ^ 70 ≤ (1 - 1 / 2 ^ 43) * ((1 : ℚ) / 2 ^ 63) := by norm_num
    exact le_trans h2 (le_trans h1 hl)
  · have h1 : (1 + p) * T ≤ (1 + 1 / 2 ^ 43) * ((2 : ℚ) ^ 63) :=
      mul_le_mul (by linarith) hT2 hT0 (by norm_num)
    have h2 : (1 + 1 / 2 ^ 43) * ((2 : ℚ) ^ 63) ≤ 2 ^ 70 := by norm_num
    exact le_trans hu (le_trans h1 h2)

/-- One more key: the new running sum is finite, a float64 value, not below the old
one, and within the factor `1 ± (a + 2) * 2^-53` of the exact sum when the old one was
within `1 ± a * 2^-53`. -/
theorem cumulate_bound (bc : Float64.GoMap Binary64 Int) (t : Int) (ht0 : 0 < t)
    (ht1 : t ≤ maxInt) (k : Binary64) (s : ℚ) (n : Int) (a : ℚ)
    (hs0 : 0 ≤ s) (hrep : Binary64.Rep s) (hn0 : 0 ≤ n)
    (hc0 : 0 ≤ bc.get 0 k) (hsum : n + bc.get 0 k ≤ maxInt)
    (ha4 : 4 ≤ a) (ha : a ≤ 2 ^ 10)
    (hl : (1 - a / 2 ^ 53) * ((n : ℚ) / (t : ℚ)) ≤ s)
    (hu : s ≤ (1 + a / 2 ^ 53) * ((n : ℚ) / (t : ℚ))) :
    ∃ v : ℚ, Float64.cumulate ieee bc t (.fin s) k = .fin v ∧ 0 ≤ v ∧ Binary64.Rep v ∧
      s ≤ v ∧
      (1 - (a + 2) / 2 ^ 53) * (((n + bc.get 0 k : Int) : ℚ) / (t : ℚ)) ≤ v ∧
      v ≤ (1 + (a + 2) / 2 ^ 53) * (((n + bc.get 0 k : Int) : ℚ) / (t : ℚ)) := by
  obtain ⟨f, hf, hf0, _, hfl, hfu⟩ := fraction_bound (bc.get 0 k) t hc0 (by omega) ht0 ht1
  set c := bc.get 0 k with hc
  have htq : (1 : ℚ) ≤ (t : ℚ) := by exact_mod_cast ht0
  have htpos : (0 : ℚ) < (t : ℚ) := by linarith
  have htq2 : (t : ℚ) ≤ (2 : ℚ) ^ (63 : Nat) := le_trans (by exact_mod_cast ht1) maxInt_le_pow
  have hcq : (0 : ℚ) ≤ (c : ℚ) / (t : ℚ) := by
    have : (0 : ℚ) ≤ (c : ℚ) := by exact_mod_cast hc0
    positivity
  have hnq : (0 : ℚ) ≤ (n : ℚ) / (t : ℚ) := by
    have : (0 : ℚ) ≤ (n : ℚ) := by exact_mod_cast hn0
    positivity
  have hT : (((n + c : Int) : ℚ)) / (t : ℚ) = (n : ℚ) / (t : ℚ) + (c : ℚ) / (t : ℚ) := by
    push_cast; ring
  have hT0 : (0 : ℚ) ≤ ((n + c : Int) : ℚ) / (t : ℚ) := by rw [hT]; linarith
  have hT2 : ((n + c : Int) : ℚ) / (t : ℚ) ≤ 2 ^ 63 := by
    rw [div_le_iff₀ htpos]
    have : ((n + c : Int) : ℚ) ≤ (2 : ℚ) ^ (63 : Nat) :=
      le_trans (by exact_mod_cast hsum) maxInt_le_pow
    nlinarith
  have hcum : Float64.cumulate ieee bc t (.fin s) k = Binary64.round (f + s) := by
    unfold Float64.cumulate
    rw [← hc, hf]
    rfl
  rw [hcum]
  have hae : a / 2 ^ 53 ≤ 1 / 2 ^ 43 := (coef_small a ha4 ha).1
  have hae0 : (0 : ℚ) ≤ a / 2 ^ 53 := (coef_small a ha4 ha).2
  -- the exact sum before rounding
  have hxl : (1 - a / 2 ^ 53) * (((n + c : Int) : ℚ) / (t : ℚ)) ≤ f + s := by
    have h1 : (1 - a / 2 ^ 53) * ((c : ℚ) / (t : ℚ)) ≤ (1 - 4 / 2 ^ 53) * ((c : ℚ) / (t : ℚ)) :=
      mul_le_mul_of_nonneg_right (by
        have : (4 : ℚ) / 2 ^ 53 ≤ a / 2 ^ 53 := by
          apply div_le_div_of_nonneg_right ha4 (by positivity)
        linarith) hcq
    rw [hT, mul_add]
    linarith
  have hxu : f + s ≤ (1 + a / 2 ^ 53) * (((n + c : Int) : ℚ) / (t : ℚ)) := by
    have h1 : (1 + 4 / 2 ^ 53) * ((c : ℚ) / (t : ℚ)) ≤ (1 + a / 2 ^ 53) * ((c : ℚ) / (t : ℚ)) :=
      mul_le_mul_of_nonneg_right (by
        have : (4 : ℚ) / 2 ^ 53 ≤ a / 2 ^ 53 := by
          apply div_le_div_of_nonneg_right ha4 (by positivity)
        linarith) hcq
    rw [hT, mul_add]
    linarith
  have hx0 : 0 ≤ f + s := by linarith
  have hnn := round_nonneg (f + s) hx0
  have hge := round_ge_rep s (f + s) hs0 hrep (by linarith)
  have hcl := coef_lower a ha4
  have hcu := coef_upper a ha4 ha
  rcases eq_or_lt_of_le hx0 with hz | hxpos
  · -- nothing counted so far
    rw [← hz]
    have hTz : ((n + c : Int) : ℚ) / (t : ℚ) = 0 := by
      have h1 : (1 - a / 2 ^ 53) * (((n + c : Int) : ℚ) / (t : ℚ)) ≤ 0 := by linarith
      have h2 : (0 : ℚ) < 1 - a / 2 ^ 53 := by
        have : (1 : ℚ) / 2 ^ 43 < 1 := by norm_num
        linarith
      have h3 : ((n + c : Int) : ℚ) / (t : ℚ) ≤ 0 := by
        by_contra hcon
        push_neg at hcon
        have := mul_pos h2 hcon
        linarith
      exact le_antisymm h3 hT0
    have hsz : s = 0 := by linarith
    refine ⟨0, by simp [Binary64.round], le_refl _, ⟨0, 0, by simp, by norm_num, by norm_num⟩,
      by rw [hsz], ?_, ?_⟩ <;> rw [hTz] <;> simp
  · have hTpos : 0 < ((n + c : Int) : ℚ) / (t : ℚ) := by
      by_contra hcon
      push_neg at hcon
      have hTz : ((n + c : Int) : ℚ) / (t : ℚ) = 0 := le_antisymm hcon hT0
      rw [hTz] at hxu
      linarith
    have hNpos : 0 < ((n + c : Int) : ℚ) := by
      by_contra hcon
      push_neg at hcon
      have := div_nonpos_of_nonpos_of_nonneg hcon (le_of_lt htpos)
      linarith
    have hN1 : (1 : ℚ) ≤ ((n + c : Int) : ℚ) := by
      have : 0 < (n + c : Int) := by exact_mod_cast hNpos
      exact_mod_cast this
    have hT1 : (1 : ℚ) / 2 ^ 63 ≤ ((n + c : Int) : ℚ) / (t : ℚ) := by
      rw [div_le_div_iff₀ (by positivity) htpos]
      nlinarith
    have hr := range_of_fraction (f + s) _ (a / 2 ^ 53) hT1 hT2 hae hxl hxu
    obtain ⟨v, hv, hvl, hvu⟩ := round_rel (f + s) hr.1 hr.2
    rw [hv] at hnn hge
    rcases hnn with h | ⟨q, hq, hq0, hqrep⟩
    · cases h
    · cases hq
      refine ⟨v, hv, hq0, hqrep, ?_, ?_, ?_⟩
      · rcases hge with h | ⟨w, hw, hsw⟩
        · cases h
        · cases hw
          exact hsw
      · have h1 : (1 - 1 / 2 ^ 53) * ((1 - a / 2 ^ 53) * (((n + c : Int) : ℚ) / (t : ℚ))) ≤
            (1 - 1 / 2 ^ 53) * (f + s) :=
          mul_le_mul_of_nonneg_left hxl (by norm_num)
        have h2 := mul_le_mul_of_nonneg_right hcl hT0
        rw [mul_assoc] at h2
        linarith
      · have h1 : (1 + 1 / 2 ^ 53) * (f + s) ≤
            (1 + 1 / 2 ^ 53) * ((1 + a / 2 ^ 53) * (((n + c : Int) : ℚ) / (t : ℚ))) :=
          mul_le_mul_of_nonneg_left hxu (by norm_num)
        have h2 := mul_le_mul_of_nonneg_right hcu hT0
        rw [mul_assoc] at h2
        linarith

/-- The running sum over a list of keys: finite, a float64 value, and within the
factor `1 ± (4 + 2 * length) * 2^-53` of the exact fraction `(sum of the counts) / t`. -/
theorem runningSum_bound (bc : Float64.GoMap Binary64 Int) (t : Int) (ht0 : 0 < t)
    (ht1 : t ≤ maxInt) (ks : List Binary64) (hc0 : ∀ k ∈ ks, 0 ≤ bc.get 0 k)
    (hsum : (ks.map (bc.get 0)).sum ≤ maxInt) (hlen : ks.length ≤ 500) :
    ∃ s : ℚ, Float64.runningSum ieee bc t ks = .fin s ∧ 0 ≤ s ∧ Binary64.Rep s ∧
      (1 - (4 + 2 * (ks.length : ℚ)) / 2 ^ 53) *
        ((((ks.map (bc.get 0)).sum : Int) : ℚ) / (t : ℚ)) ≤ s ∧
      s ≤ (1 + (4 + 2 * (ks.length : ℚ)) / 2 ^ 53) *
        ((((ks.map (bc.get 0)).sum : Int) : ℚ) / (t : ℚ)) := by
  induction ks using List.reverseRecOn with
  | nil =>
    refine ⟨0, by simp [Float64.runningSum, ieee, Binary64.round], le_refl _,
      ⟨0, 0, by simp, by norm_num, by norm_num⟩, by simp, by simp⟩
  | append_singleton ks k ih =>
    have hck : 0 ≤ bc.get 0 k := hc0 k (by simp)
    have hcs : ∀ k' ∈ ks, 0 ≤ bc.get 0 k' := fun k' hk' => hc0 k' (by simp [hk'])
    have hs0 := sum_nonneg_of (bc.get 0) ks hcs
    have hsumeq : ((ks ++ [k]).map (bc.get 0)).sum = (ks.map (bc.get 0)).sum + bc.get 0 k := by
      simp
    rw [hsumeq] at hsum
    have hlen' : ks.length + 1 ≤ 500 := by simpa using hlen
    obtain ⟨s, hs, hsn, hrep, hl, hu⟩ := ih hcs (by omega) (by omega)
    have hlq : (ks.length : ℚ) ≤ 499 := by
      have : ks.length ≤ 499 := by omega
      exact_mod_cast this
    have hlq0 : (0 : ℚ) ≤ (ks.length : ℚ) := by positivity
    obtain ⟨v, hv, hv0, hvrep, _, hvl, hvu⟩ :=
      cumulate_bound bc t ht0 ht1 k s ((ks.map (bc.get 0)).sum) (4 + 2 * (ks.length : ℚ))
        hsn hrep hs0 hck hsum (by linarith) (by rw [show (2 : ℚ) ^ 10 = 1024 by norm_num]; linarith) hl hu
    refine ⟨v, ?_, hv0, hvrep, ?_, ?_⟩
    · unfold Float64.runningSum at hs ⊢
      rw [List.foldl_append, hs]
      exact hv
    · rw [hsumeq]
      have : (4 + 2 * (((ks ++ [k]).length : Nat) : ℚ)) = 4 + 2 * (ks.length : ℚ) + 2 := by
        simp; ring
      rw [this]; exact hvl
    · rw [hsumeq]
      have : (4 + 2 * (((ks ++ [k]).length : Nat) : ℚ)) = 4 + 2 * (ks.length : ℚ) + 2 := by
        simp; ring
      rw [this]; exact hvu

theorem sum_take_le (cnt : Binary64 → Int) (ks : List Binary64) (h : ∀ k ∈ ks, 0 ≤ cnt k)
    (i : Nat) : ((ks.take i).map cnt).sum ≤ (ks.map cnt).sum := by
  have h1 : (ks.map cnt).sum = ((ks.take i).map cnt).sum + ((ks.drop i).map cnt).sum := by
    rw [← List.sum_append, ← List.map_append, List.take_append_drop]
  have h2 := sum_nonneg_of cnt (ks.drop i) (fun k hk => h k (List.mem_of_mem_drop hk))
  omega

/-- The running sums over longer prefixes of the keys are not smaller. -/
theorem runningSum_mono (bc : Float64.GoMap Binary64 Int) (t : Int) (ht0 : 0 < t)
    (ht1 : t ≤ maxInt) (ks : List Binary64) (hc0 : ∀ k ∈ ks, 0 ≤ bc.get 0 k)
    (hsum : (ks.map (bc.get 0)).sum ≤ maxInt) (hlen : ks.length ≤ 500)
    (i j : Nat) (hij : i ≤ j) :
    ieee.le (Float64.runningSum ieee bc t (ks.take i))
      (Float64.runningSum ieee bc t (ks.take j)) = true := by
  have hpre : ∀ m : Nat, ∃ s : ℚ, Float64.runningSum ieee bc t (ks.take m) = .fin s ∧ 0 ≤ s ∧
      Binary64.Rep s ∧
      (1 - (4 + 2 * ((ks.take m).length : ℚ)) / 2 ^ 53) *
        (((((ks.take m).map (bc.get 0)).sum : Int) : ℚ) / (t : ℚ)) ≤ s ∧
      s ≤ (1 + (4 + 2 * ((ks.take m).length : ℚ)) / 2 ^ 53) *
        (((((ks.take m).map (bc.get 0)).sum : Int) : ℚ) / (t : ℚ)) := fun m =>
    runningSum_bound bc t ht0 ht1 (ks.take m)
      (fun k hk => hc0 k (List.mem_of_mem_take hk))
      (le_trans (sum_take_le (bc.get 0) ks hc0 m) hsum)
      (le_trans (List.length_take_le' m ks) hlen)
  induction j with
  | zero =>
    have : i = 0 := by omega
    subst this
    obtain ⟨s, hs, _⟩ := hpre 0
    rw [hs]
    simp [ieee, Binary64.le]
  | succ j ih =>
    rcases Nat.lt_or_ge i (j + 1) with hlt | hge
    · have h1 := ih (by omega)
      by_cases hj : j < ks.length
      · obtain ⟨s, hs, hsn, hrep, hl, hu⟩ := hpre j
        have htake : ks.take (j + 1) = ks.take j ++ [ks[j]] := by
          rw [List.take_succ, List.getElem?_eq_getElem hj]
          rfl
        have hsumj := le_trans (sum_take_le (bc.get 0) ks hc0 (j + 1)) hsum
        rw [htake] at hsumj
        simp only [List.map_append, List.sum_append, List.map_cons, List.map_nil,
          List.sum_cons, List.sum_nil, add_zero] at hsumj
        have hlj : ((ks.take j).length : ℚ) ≤ 500 := by
          have := le_trans (List.length_take_le' j ks) hlen
          exact_mod_cast this
        have hlj0 : (0 : ℚ) ≤ ((ks.take j).length : ℚ) := by positivity
        obtain ⟨v, hv, _, _, hsv, _, _⟩ :=
          cumulate_bound bc t ht0 ht1 ks[j] s (((ks.take j).map (bc.get 0)).sum)
            (4 + 2 * ((ks.take j).length : ℚ)) hsn hrep
            (sum_nonneg_of (bc.get 0) (ks.take j) (fun k hk => hc0 k (List.mem_of_mem_take hk)))
            (hc0 _ (List.getElem_mem _)) hsumj (by linarith) (by rw [show (2 : ℚ) ^ 10 = 1024 by norm_num]; linarith) hl hu
        have hnew : Float64.runningSum ieee bc t (ks.take (j + 1)) = .fin v := by
          unfold Float64.runningSum at hs ⊢
          rw [htake, List.foldl_append, hs]
          exact hv
        obtain ⟨si, hsi, _⟩ := hpre i
        rw [hsi, hs] at h1
        rw [hsi, hnew]
        simp only [ieee, Binary64.le, decide_eq_true_eq] at h1 ⊢
        exact le_trans h1 hsv
      · have : ks.take (j + 1) = ks.take j := by
          rw [List.take_of_length_le (by omega), List.take_of_length_le (by omega)]
        rw [this]; exact h1
    · have : i = j + 1 := by omega
      subst this
      obtain ⟨s, hs, _⟩ := hpre (j + 1)
      rw [hs]
      simp [ieee, Binary64.le]

/-! ## Theorems -/

/-- C1 (evaluation at the failing input): with quota 2 and two unacknowledged
publishes the session sends two `PublishFail` results, not one: the `break` after
the first send leaves only the `select`, and the loop runs its second iteration. -/
theorem publishSession_two_results :
    (publishSession "c" 0 2 neverAcked 9).sent =
      [{ ClientId := "c", Event := PublishFailEvent, Error := true, MessagePublished := 0,
         PublishTime := 0, PublishDoneTime := 7 },
       { ClientId := "c", Event := PublishFailEvent, Error := true, MessagePublished := 0,
         PublishTime := 0, PublishDoneTime := 7 }] ∧
    (publishSession "c" 0 2 neverAcked 9).sent.length = 2 := by
  constructor <;> rfl

/-- C2: `buildSummary` fails exactly on an empty result list ("no results collected")
and on a non-empty list without any `PublishComplete` result ("no feasible results
found"); on every other input it returns a `Summary` (no error, and no panic from
`median` or `buildHistogram`, which are only reached with a non-empty series). -/
theorem buildSummary_error_iff (nClient nMessages : Int) (rs : List Result) :
    (rs = [] ∧ buildSummary nClient nMessages rs = .error (.err "no results collected")) ∨
    (rs ≠ [] ∧ (∀ r ∈ rs, r.Event ≠ PublishCompleteEvent) ∧
      buildSummary nClient nMessages rs = .error (.err "no feasible results found")) ∨
    (rs ≠ [] ∧ (∃ r ∈ rs, r.Event = PublishCompleteEvent) ∧
      ∃ s, buildSummary nClient nMessages rs = .ok s ∧
        s.PublishPerformance ≠ [] ∧
        median s.PublishPerformance = some s.PublishPerformanceMedian ∧
        buildHistogram s.PublishPerformance s.Completed =
          some s.PublishPerformanceHistogram) := by
  rcases buildSummary_cases nClient nMessages rs with ⟨h1, h2⟩ | ⟨h1, h2, h3⟩ | ⟨hc, s, hs⟩
  · exact Or.inl ⟨h1, h2⟩
  · refine Or.inr (Or.inl ⟨h1, ?_, h3⟩)
    intro r hr hev
    exact (completedOf_ne_nil_iff rs).mpr ⟨r, hr, hev⟩ h2
  · refine Or.inr (Or.inr ⟨?_, (completedOf_ne_nil_iff rs).mp hc, s, hs, ?_, ?_, ?_⟩)
    · rintro rfl
      exact hc rfl
    · rw [(buildSummary_fields hs).2.1]
      exact sortFloat64s_ne_nil (by simpa using hc)
    · exact (buildSummary_fields hs).2.2.2.2.2.1
    · exact (buildSummary_fields hs).2.2.2.2.2.2

/-- C4: on success with a positive configured client count, `Errors` is the number of
results whose `Error` flag is set and `ErrorRate` is `Errors / nClient * 100`, the
denominator being the configured client count `nClient`, whatever the number of
results passed in. -/
theorem buildSummary_errorRate (nClient nMessages : Int) (rs : List Result) (s : Summary)
    (hn : 0 < nClient) (h : buildSummary nClient nMessages rs = .ok s) :
    s.Errors = (rs.countP (fun r => r.Error) : Int) ∧
    s.ErrorRate = ((rs.countP (fun r => r.Error) : Int) : ℚ) / (nClient : ℚ) * 100 ∧
    (nClient : ℚ) ≠ 0 := by
  obtain ⟨_, _, _, herr, hrate, _⟩ := buildSummary_fields h
  have hcount : (rs.countP (fun r => r.Error) : Int) = s.Errors := by
    rw [herr, List.countP_eq_length_filter]
  refine ⟨hcount.symm, ?_, ?_⟩
  · rw [hrate, hcount]
  · exact_mod_cast hn.ne'

/-- C4 witness: 4 configured clients, one `PublishFail` and three `PublishComplete`
results: `Errors = 1`, `ErrorRate = 25`. -/
theorem buildSummary_errorRate_witness :
    buildSummary 4 5 oneFailure = .ok oneFailureSummary ∧
    oneFailureSummary.Errors = 1 ∧ oneFailureSummary.ErrorRate = 25 ∧
    (oneFailureSummary.Errors = (oneFailure.countP (fun r => r.Error) : Int) ∧
     oneFailureSummary.ErrorRate =
       ((oneFailure.countP (fun r => r.Error) : Int) : ℚ) / ((4 : Int) : ℚ) * 100 ∧
     ((4 : Int) : ℚ) ≠ 0) :=
  ⟨by decide!, rfl, rfl,
    buildSummary_errorRate 4 5 oneFailure oneFailureSummary (by decide) (by decide!)⟩

/-- C5: on a non-empty series of length `L`, `median` is the average of the elements at
indices `(L-1)/2` and `L/2`; this is the middle element when `L` is odd and the
average of the two middle elements (indices `L/2 - 1` and `L/2`) when `L` is even. -/
theorem median_spec (series : List ℚ) (hne : series ≠ []) :
    (∃ a b, series[(series.length - 1) / 2]? = some a ∧ series[series.length / 2]? = some b ∧
      median series = some ((a + b) / 2)) ∧
    (series.length % 2 = 1 → median series = series[series.length / 2]?) ∧
    (series.length % 2 = 0 →
      ∃ a b, series[series.length / 2 - 1]? = some a ∧ series[series.length / 2]? = some b ∧
        median series = some ((a + b) / 2)) := by
  obtain ⟨hl, hr, hmed⟩ := median_of_ne_nil hne
  have hpos : 0 < series.length := List.length_pos.mpr hne
  refine ⟨⟨_, _, List.getElem?_eq_getElem hl, List.getElem?_eq_getElem hr, hmed⟩, ?_, ?_⟩
  · intro hodd
    have hidx : (series.length - 1) / 2 = series.length / 2 := by omega
    rw [hmed, List.getElem?_eq_getElem hr]
    simp only [hidx]
    congr 1
    ring
  · intro heven
    have hidx : (series.length - 1) / 2 = series.length / 2 - 1 := by omega
    refine ⟨series[(series.length - 1) / 2], series[series.length / 2], ?_,
      List.getElem?_eq_getElem hr, hmed⟩
    rw [← hidx]
    exact List.getElem?_eq_getElem hl

/-- C5 witness: `[1,3,5]` has median 3 and `[1,2,3,4]` has median 2.5. -/
theorem median_spec_witness :
    median [1, 3, 5] = some 3 ∧ median [1, 2, 3, 4] = some (5 / 2) ∧
    (([1, 3, 5] : List ℚ).length % 2 = 1 →
      median [1, 3, 5] = ([1, 3, 5] : List ℚ)[([1, 3, 5] : List ℚ).length / 2]?) ∧
    (([1, 2, 3, 4] : List ℚ).length % 2 = 0 →
      ∃ a b, ([1, 2, 3, 4] : List ℚ)[([1, 2, 3, 4] : List ℚ).length / 2 - 1]? = some a ∧
        ([1, 2, 3, 4] : List ℚ)[([1, 2, 3, 4] : List ℚ).length / 2]? = some b ∧
        median [1, 2, 3, 4] = some ((a + b) / 2)) :=
  ⟨by decide!, by decide!, (median_spec [1, 3, 5] (by simp)).2.1,
    (median_spec [1, 2, 3, 4] (by simp)).2.2⟩

/-- C10: `N ≥ 1` results that all have event `PublishComplete` and no error flag give
a successful summary with `Completed = N`, `Errors = 0` and `N` throughput entries. -/
theorem buildSummary_all_complete (N : Nat) (nMessages : Int) (rs : List Result)
    (hN : 1 ≤ N) (hlen : rs.length = N)
    (hall : ∀ r ∈ rs, r.Event = PublishCompleteEvent ∧ r.Error = false) :
    ∃ s, buildSummary (N : Int) nMessages rs = .ok s ∧
      s.Completed = (N : Int) ∧ s.Errors = 0 ∧ s.PublishPerformance.length = N := by
  have hcomp : completedOf rs = rs := by
    unfold completedOf
    rw [List.filter_eq_self]
    intro r hr
    simp [(hall r hr).1]
  have herr : rs.filter (fun r => r.Error) = [] := by
    rw [List.filter_eq_nil_iff]
    intro r hr
    simp [(hall r hr).2]
  have hne : completedOf rs ≠ [] := by
    rw [hcomp]
    intro h0
    rw [h0] at hlen
    simp at hlen
    omega
  obtain ⟨s, hs, _, hpp, hc, he, _⟩ := buildSummary_ok (N : Int) nMessages rs hne
  refine ⟨s, hs, ?_, ?_, ?_⟩
  · rw [hc, hcomp, hlen]
  · rw [he, herr]; rfl
  · rw [hpp, sortFloat64s_length, List.length_map, hcomp, hlen]

/-- C10 witness: the three completed clients of `threeClients`. -/
theorem buildSummary_all_complete_witness :
    ∃ s, buildSummary ((3 : Nat) : Int) 5 threeClients = .ok s ∧
      s.Completed = ((3 : Nat) : Int) ∧ s.Errors = 0 ∧ s.PublishPerformance.length = 3 :=
  buildSummary_all_complete 3 5 threeClients (by decide) rfl (by decide)


/-- C11: `buildSummary` does not depend on the arrival order: on a permutation of the
result list it returns the same `Summary` (every counter, the throughput series, the
median and the histogram) or the same error. -/
theorem buildSummary_perm (nClient nMessages : Int) (rs rs' : List Result)
    (h : rs'.Perm rs) :
    buildSummary nClient nMessages rs' = buildSummary nClient nMessages rs := by
  have hperf : ((completedOf rs').map throughput).Perm ((completedOf rs).map throughput) :=
    (h.filter _).map _
  apply buildSummary_congr
  · rw [h.length_eq]
  · rw [foldl_summaryStep_messages, foldl_summaryStep_messages, (h.map _).sum_eq]
  · rw [foldl_summaryStep_errors, foldl_summaryStep_errors, (h.filter _).length_eq]
  · rw [foldl_summaryStep_completed, foldl_summaryStep_completed]
    unfold completedOf
    rw [(h.filter _).length_eq]
  · rw [foldl_summaryStep_inProgress, foldl_summaryStep_inProgress]
  · rw [foldl_summaryStep_connectFailed, foldl_summaryStep_connectFailed, h.countP_eq]
  · rw [foldl_summaryStep_publishFailed, foldl_summaryStep_publishFailed, h.countP_eq]
  · rw [foldl_summaryStep_timeoutExceeded, foldl_summaryStep_timeoutExceeded, h.countP_eq]
  · rw [foldl_summaryStep_perf, foldl_summaryStep_perf]
    simp only [Counters.init, List.nil_append]
    exact hperf.length_eq
  · rw [foldl_summaryStep_perf, foldl_summaryStep_perf]
    simp only [Counters.init, List.nil_append]
    exact sortFloat64s_eq_of_perm hperf

/-- C11 witness: the three completed clients, arriving in the opposite order. -/
theorem buildSummary_perm_witness :
    buildSummary 3 5 threeClients.reverse = buildSummary 3 5 threeClients ∧
    buildSummary 3 5 threeClients = .ok threeSummary :=
  ⟨buildSummary_perm 3 5 threeClients threeClients.reverse (List.reverse_perm _), by decide!⟩

/-- C12: the collection loop leaves every slot it did not fill at the zero value of
`Result` (the slice is the received results followed by zero records), and whenever
some result has event `PublishComplete`, a list that differs only by zero records
(the two lists agree once the zero records are dropped) gives the same successful
`Summary`: no panic, and no field changes. -/
theorem buildSummary_ignores_missing :
    (∀ (N : Nat) (arrivals : List Result), 1 ≤ N →
      collectResults (N : Int) arrivals =
        some (arrivals.take N ++ List.replicate (N - arrivals.length) zeroResult,
          min arrivals.length N)) ∧
    (∀ (nClient nMessages : Int) (rs rs' : List Result),
      (∃ r ∈ rs, r.Event = PublishCompleteEvent) →
      rs'.filter (fun r => decide (r ≠ zeroResult)) =
        rs.filter (fun r => decide (r ≠ zeroResult)) →
      buildSummary nClient nMessages rs' = buildSummary nClient nMessages rs ∧
      ∃ s, buildSummary nClient nMessages rs = .ok s) := by
  constructor
  · intro N arrivals hN
    have h := collectLoop_spec N arrivals [] (by simpa using hN)
    have hneg : ¬ ((N : Int) < 0) := by omega
    simp only [collectResults, if_neg hneg, Int.toNat_ofNat]
    simpa using h
  · intro nClient nMessages rs rs' hpc hfilter
    obtain ⟨r, hr, hev⟩ := hpc
    have hrz : r ≠ zeroResult := by
      intro e
      rw [e] at hev
      exact absurd hev (by decide)
    have hmem : r ∈ rs.filter (fun r => decide (r ≠ zeroResult)) :=
      List.mem_filter.mpr ⟨hr, by simpa using hrz⟩
    have hmem' : r ∈ rs' := by
      rw [← hfilter] at hmem
      exact (List.mem_filter.mp hmem).1
    have hfold : rs'.foldl summaryStep Counters.init = rs.foldl summaryStep Counters.init := by
      rw [foldl_summaryStep_dropZero rs', foldl_summaryStep_dropZero rs, hfilter]
    refine ⟨?_, ?_⟩
    · apply buildSummary_congr <;> try rw [hfold]
      constructor
      · intro h0
        rw [List.length_eq_zero.mp h0] at hmem'
        cases hmem'
      · intro h0
        rw [List.length_eq_zero.mp h0] at hr
        cases hr
    · obtain ⟨s, hs, _⟩ := buildSummary_ok nClient nMessages rs
        ((completedOf_ne_nil_iff rs).mpr ⟨r, hr, hev⟩)
      exact ⟨s, hs⟩

/-- C12 witness: four configured clients of which three results arrive in time. -/
theorem buildSummary_ignores_missing_witness :
    collectResults ((4 : Nat) : Int) threeClients =
      some (threeClients.take 4 ++ List.replicate (4 - threeClients.length) zeroResult,
        min threeClients.length 4) ∧
    (buildSummary 4 5 (threeClients ++ [zeroResult]) = buildSummary 4 5 threeClients ∧
      ∃ s, buildSummary 4 5 threeClients = .ok s) :=
  ⟨buildSummary_ignores_missing.1 4 threeClients (by decide),
   buildSummary_ignores_missing.2 4 5 threeClients (threeClients ++ [zeroResult])
     ⟨completed "a" 5 1000000000, by decide, rfl⟩ (by decide)⟩


/-- C15 (evaluation at the failing input): with quota 3, where the second publish is
not acknowledged and the others are, the session sends one `PublishFail` carrying the
one acknowledged publish before it, and then still attempts the third publish (three
timestamps are used): the `break` after the send leaves only the `select`. -/
theorem publishSession_publishes_after_failure :
    (publishSession "c" 0 3 failsSecond 9).stamps = [1, 2, 3] ∧
    (publishSession "c" 0 3 failsSecond 9).sent = [failed "c" 1 7] ∧
    (publishSession "c" 0 3 failsSecond 9).count = 2 := by
  refine ⟨by rfl, by rfl, by rfl⟩

/-- C16: the session sends `PublishComplete` exactly when the quota `M` is not negative
and each of the `M` iterations takes the `default` branch and has its publish
acknowledged; the session then sends that one result only, with `Error = false` and
`MessagePublished = M`. -/
theorem publishSession_complete_iff (id : String) (startUnix M : Int) (obs : Nat → Obs)
    (doneElapsed : Int) :
    ((0 ≤ M ∧ ∀ i : Nat, (i : Int) < M →
        (obs i).timerFired = false ∧ (obs i).published = true) →
      (publishSession id startUnix M obs doneElapsed).sent =
        [{ ClientId := id, Event := PublishCompleteEvent, Error := false,
           MessagePublished := M, PublishTime := 0, PublishDoneTime := doneElapsed }]) ∧
    ((∃ r ∈ (publishSession id startUnix M obs doneElapsed).sent,
        r.Event = PublishCompleteEvent) →
      0 ≤ M ∧ ∀ i : Nat, (i : Int) < M →
        (obs i).timerFired = false ∧ (obs i).published = true) := by
  have hcount := publishLoop_count id obs M.toNat 0
    { ts := startUnix * 1000, count := 0, sent := [], stamps := [] }
  simp only [zero_add] at hcount
  have hle : (List.range' 0 M.toNat).countP (fun j => acked (obs j)) ≤ M.toNat := by
    have := List.countP_le_length (fun j => acked (obs j)) (l := List.range' 0 M.toNat)
    simpa using this
  constructor
  · rintro ⟨hM, hall⟩
    have hack : ∀ j, 0 ≤ j → j < 0 + M.toNat → acked (obs j) = true := by
      intro j _ hj
      have hjM : (j : Int) < M := by omega
      simp [acked, hall j hjM]
    have hsent := publishLoop_sent_of_acked id obs M.toNat 0
      { ts := startUnix * 1000, count := 0, sent := [], stamps := [] } hack
    have hfull : (List.range' 0 M.toNat).countP (fun j => acked (obs j)) = M.toNat := by
      have : (List.range' 0 M.toNat).countP (fun j => acked (obs j)) =
          (List.range' 0 M.toNat).length := by
        rw [List.countP_eq_length]
        intro j hj
        have := List.mem_range'_1.mp hj
        exact hack j this.1 this.2
      simpa using this
    have hc : (publishLoop id obs M.toNat 0
        { ts := startUnix * 1000, count := 0, sent := [], stamps := [] }).count = M := by
      rw [hcount, hfull]
      exact Int.toNat_of_nonneg hM
    simp only [publishSession, if_pos hc, hsent, hc, List.nil_append]
    rfl
  · rintro ⟨r, hr, hev⟩
    by_cases hc : (publishLoop id obs M.toNat 0
        { ts := startUnix * 1000, count := 0, sent := [], stamps := [] }).count = M
    · rw [hcount] at hc
      have hM : 0 ≤ M := by omega
      refine ⟨hM, ?_⟩
      intro i hi
      have hfull : (List.range' 0 M.toNat).countP (fun j => acked (obs j)) =
          (List.range' 0 M.toNat).length := by
        simp only [List.length_range']
        omega
      rw [List.countP_eq_length] at hfull
      have := hfull i (List.mem_range'_1.mpr ⟨Nat.zero_le _, by omega⟩)
      simpa [acked] using this
    · simp only [publishSession, if_neg hc] at hr
      rcases publishLoop_sent_event id obs M.toNat 0 _ r hr with h | h | h
      · cases h
      · rw [h] at hev
        exact absurd hev (by decide)
      · rw [h] at hev
        exact absurd hev (by decide)

/-- C16 witness: quota 3 with every publish acknowledged, and quota 3 with the second
publish unacknowledged (no `PublishComplete` is sent). -/
theorem publishSession_complete_iff_witness :
    (publishSession "c" 0 3 allAcked 9).sent = [completed "c" 3 9] ∧
    ¬ (∃ r ∈ (publishSession "c" 0 3 failsSecond 9).sent, r.Event = PublishCompleteEvent) :=
  ⟨(publishSession_complete_iff "c" 0 3 allAcked 9).1
      ⟨by decide, fun _ _ => ⟨rfl, rfl⟩⟩,
   fun h => absurd ((publishSession_complete_iff "c" 0 3 failsSecond 9).2 h).2
      (fun hall => absurd (hall 1 (by decide)).2 (by decide))⟩

/-- C17: with `t0 = startUnix * 1000`, the `k`-th publish attempt of a session
(`k = 1, 2, ...`) carries the timestamp `t0 + k`; the timestamps of a session are
therefore strictly increasing and all greater than `t0`. There is one timestamp per
iteration that takes the `default` branch. -/
theorem publishSession_stamps (id : String) (startUnix M : Int) (obs : Nat → Obs)
    (doneElapsed : Int) :
    (publishSession id startUnix M obs doneElapsed).stamps.length =
      (List.range M.toNat).countP (fun i => attempted (obs i)) ∧
    (∀ k : Nat, 1 ≤ k → k ≤ (publishSession id startUnix M obs doneElapsed).stamps.length →
      (publishSession id startUnix M obs doneElapsed).stamps[k - 1]? =
        some (startUnix * 1000 + (k : Int))) ∧
    (publishSession id startUnix M obs doneElapsed).stamps.Pairwise (· < ·) ∧
    (∀ t ∈ (publishSession id startUnix M obs doneElapsed).stamps, startUnix * 1000 < t) := by
  have hst : (publishSession id startUnix M obs doneElapsed).stamps =
      (List.range ((List.range M.toNat).countP (fun i => attempted (obs i)))).map
        (fun k => startUnix * 1000 + ((k : Nat) : Int) + 1) := by
    have h := publishLoop_stamps id obs M.toNat 0
      { ts := startUnix * 1000, count := 0, sent := [], stamps := [] }
    simp only [List.nil_append] at h
    have hr : List.range M.toNat = List.range' 0 M.toNat := List.range_eq_range' _
    rw [hr, ← h]
    simp only [publishSession]
    split_ifs <;> rfl
  rw [hst]
  refine ⟨by simp, ?_, ?_, ?_⟩
  · intro k hk1 hk2
    simp only [List.length_map, List.length_range] at hk2
    rw [List.getElem?_map, List.getElem?_range (by omega)]
    simp only [Option.map_some']
    congr 1
    have : ((k - 1 : Nat) : Int) = (k : Int) - 1 := by omega
    rw [this]
    ring
  · rw [List.pairwise_map]
    refine (List.pairwise_lt_range _).imp ?_
    intro a b hab
    have : (a : Int) < (b : Int) := by exact_mod_cast hab
    linarith
  · intro t ht
    obtain ⟨k, _, rfl⟩ := List.mem_map.mp ht
    have : (0 : Int) ≤ (k : Int) := Int.natCast_nonneg k
    linarith


/-- The fan-in loop on exactly the missing outcomes: it ends without the timer, having
counted the positive ones. -/
theorem connectLoop_exact (N : Int) (outs : List Bool) (rest : List ConnEvent)
    (nConnected counter : Int) (hne : outs ≠ [])
    (h : counter + (outs.length : Int) = N) :
    connectLoop N (outs.map ConnEvent.outcome ++ rest) nConnected counter =
      some (nConnected + (outs.count true : Int), N, false) := by
  have hsplit : outs.dropLast ++ [outs.getLast hne] = outs := List.dropLast_append_getLast hne
  have hlen : (outs.length : Int) = (outs.dropLast.length : Int) + 1 := by
    have : outs.length = outs.dropLast.length + 1 := by
      conv_lhs => rw [← hsplit]
      simp
    exact_mod_cast this
  have hcount : (outs.count true : Int) = (outs.dropLast.count true : Int) +
      (if outs.getLast hne = true then 1 else 0) := by
    conv_lhs => rw [← hsplit]
    rw [List.count_append]
    cases outs.getLast hne <;> simp
  conv_lhs => rw [← hsplit]
  rw [List.map_append, List.append_assoc, connectLoop_outcomes _ _ _ _ _ (by omega)]
  simp only [List.map_cons, List.map_nil, List.singleton_append]
  rw [connectLoop_last _ _ _ _ _ (by omega), hcount]
  cases outs.getLast hne <;> simp
  ring

/-- C13: for `N ≥ 1` clients the run goes on to the publish phase exactly when `N`
outcomes arrive before the phase timer fires and all `N` are positive. When the `N`
outcomes arrive but not all are positive, and when the timer fires after fewer than
`N` outcomes, `Run` returns the error "only K/N devices connected!", `K` being the
number of positive outcomes received, and does not reach the publish phase. -/
theorem connectionPhase_spec (N : Nat) (hN : 1 ≤ N) :
    (∀ (outs : List Bool) (rest : List ConnEvent), outs.length = N →
      connectionPhase (N : Int) (outs.map ConnEvent.outcome ++ rest) =
        some (if ∀ v ∈ outs, v = true then PhaseResult.proceed
              else PhaseResult.failed (onlyConnected (outs.count true : Int) (N : Int)))) ∧
    (∀ (outs : List Bool) (rest : List ConnEvent), outs.length < N →
      connectionPhase (N : Int) (outs.map ConnEvent.outcome ++ ConnEvent.timer :: rest) =
        some (PhaseResult.failed (onlyConnected (outs.count true : Int) (N : Int)))) ∧
    (∀ events : List ConnEvent,
      connectionPhase (N : Int) events = some PhaseResult.proceed ↔
        ∃ (outs : List Bool) (rest : List ConnEvent),
          events = outs.map ConnEvent.outcome ++ rest ∧ outs.length = N ∧
          ∀ v ∈ outs, v = true) := by
  have hall : ∀ outs : List Bool, ((outs.count true : Int) < (outs.length : Int)) ↔
      ¬ ∀ v ∈ outs, v = true := by
    intro outs
    have hle := List.count_le_length true outs
    have hiff := List.count_eq_length (a := true) (l := outs)
    constructor
    · intro hlt hv
      have : outs.count true = outs.length := hiff.mpr (fun b hb => (hv b hb).symm)
      omega
    · intro hnot
      have : outs.count true ≠ outs.length := fun e => hnot (fun v hv => (hiff.mp e v hv).symm)
      omega
  have hfull : ∀ (outs : List Bool) (rest : List ConnEvent), outs.length = N →
      connectionPhase (N : Int) (outs.map ConnEvent.outcome ++ rest) =
        some (if ∀ v ∈ outs, v = true then PhaseResult.proceed
              else PhaseResult.failed (onlyConnected (outs.count true : Int) (N : Int))) := by
    intro outs rest hlen
    have hne : outs ≠ [] := by
      rintro rfl
      simp at hlen
      omega
    have hloop := connectLoop_exact (N : Int) outs rest 0 0 hne (by rw [hlen]; simp)
    simp only [connectionPhase, hloop, zero_add]
    have := hall outs
    rw [hlen] at this
    by_cases hv : ∀ v ∈ outs, v = true
    · have hnlt : ¬ ((outs.count true : Int) < (N : Int)) := fun h => this.mp h hv
      rw [if_pos hv]
      simp [hnlt]
    · have hlt : (outs.count true : Int) < (N : Int) := this.mpr hv
      rw [if_neg hv]
      simp [hlt]
  refine ⟨hfull, ?_, ?_⟩
  · intro outs rest hlen
    have hloop := connectLoop_outcomes (N : Int) outs (ConnEvent.timer :: rest) 0 0
      (by simp; omega)
    simp only [connectionPhase, hloop, zero_add, connectLoop]
    simp
  · intro events
    constructor
    · intro h
      simp only [connectionPhase] at h
      cases hloop : connectLoop (N : Int) events 0 0 with
      | none => simp [hloop] at h
      | some res =>
        obtain ⟨nC, c, t⟩ := res
        simp only [hloop] at h
        cases t with
        | true => simp at h
        | false =>
          obtain ⟨outs, rest, he, hl, hc, hn⟩ :=
            connectLoop_complete (N : Int) events 0 0 nC c (by omega) hloop
          have hlen : outs.length = N := by omega
          refine ⟨outs, rest, he, hlen, ?_⟩
          by_contra hv
          have hlt := (hall outs).mpr hv
          have : nC < c := by rw [hn, hc]; omega
          simp [this] at h
    · rintro ⟨outs, rest, he, hlen, hv⟩
      rw [he, hfull outs rest hlen, if_pos hv]

/-- C13 witness: two clients; both connect, one fails to connect, or the timer fires
after the first outcome. -/
theorem connectionPhase_spec_witness :
    connectionPhase 2 [.outcome true, .outcome true] = some .proceed ∧
    connectionPhase 2 [.outcome true, .outcome false] =
      some (.failed "only 1/2 devices connected!") ∧
    connectionPhase 2 [.outcome true, .timer, .outcome true] =
      some (.failed "only 1/2 devices connected!") ∧
    (connectionPhase ((2 : Nat) : Int) [.outcome true, .timer, .outcome true] =
        some PhaseResult.proceed ↔
      ∃ (outs : List Bool) (rest : List ConnEvent),
        [ConnEvent.outcome true, .timer, .outcome true] = outs.map ConnEvent.outcome ++ rest ∧
        outs.length = 2 ∧ ∀ v ∈ outs, v = true) :=
  ⟨by decide, by decide, by decide,
   (connectionPhase_spec 2 (by decide)).2.2 [.outcome true, .timer, .outcome true]⟩

/-- C18: `ConnectAndWait` after any number of retrying iterations: it returns
`(false, ErrMqttClientConnectTimeout)` when the total timer is observed fired,
`(true, nil)` when the attempt settles without error, `(false, err)` at once when the
token reports the error `err`, and tries again when the attempt neither settles nor
errors. Every returned pair has a true flag exactly when its error is nil, and a
call returns as soon as some iteration does not retry. -/
theorem ConnectAndWait_spec :
    (∀ (pre : List ConnObs) (o : ConnObs) (rest : List ConnObs), (∀ p ∈ pre, p.retries) →
      (o.timerFired = true →
        ConnectAndWait (pre ++ o :: rest) = some (false, some ErrMqttClientConnectTimeout)) ∧
      (o.timerFired = false → o.settled = true → o.err = none →
        ConnectAndWait (pre ++ o :: rest) = some (true, none)) ∧
      (∀ e, o.timerFired = false → o.err = some e →
        ConnectAndWait (pre ++ o :: rest) = some (false, some e)) ∧
      (o.retries → ConnectAndWait (pre ++ o :: rest) = ConnectAndWait rest)) ∧
    (∀ (obs : List ConnObs) (flag : Bool) (err : Option String),
      ConnectAndWait obs = some (flag, err) → (flag = true ↔ err = none)) ∧
    (∀ obs : List ConnObs, (∃ o ∈ obs, ¬ o.retries) → ∃ r, ConnectAndWait obs = some r) := by
  refine ⟨?_, ?_, ?_⟩
  · intro pre o rest hpre
    rw [ConnectAndWait_retries pre _ hpre]
    refine ⟨?_, ?_, ?_, ?_⟩
    · intro h
      simp [ConnectAndWait, h]
    · intro h1 h2 h3
      simp [ConnectAndWait, h1, h2, h3]
    · intro e h1 h2
      simp [ConnectAndWait, h1, h2]
    · rintro ⟨h1, h2, h3⟩
      simp [ConnectAndWait, h1, h2, h3]
  · intro obs flag err
    induction obs with
    | nil => intro h; simp [ConnectAndWait] at h
    | cons o os ih =>
      intro h
      rw [ConnectAndWait] at h
      split_ifs at h with h1 h2 h3
      · simp only [Option.some.injEq, Prod.mk.injEq] at h
        rw [← h.1, ← h.2]
        simp
      · simp only [Option.some.injEq, Prod.mk.injEq] at h
        rw [← h.1, ← h.2]
        simp
      · simp only [Option.some.injEq, Prod.mk.injEq] at h
        rw [← h.1, ← h.2]
        simp [h3]
      · exact ih h
  · intro obs
    induction obs with
    | nil => rintro ⟨o, ho, _⟩; cases ho
    | cons o os ih =>
      rintro ⟨p, hp, hnot⟩
      rw [ConnectAndWait]
      split_ifs with h1 h2 h3
      · exact ⟨_, rfl⟩
      · exact ⟨_, rfl⟩
      · exact ⟨_, rfl⟩
      · rcases List.mem_cons.mp hp with rfl | hp'
        · exfalso
          apply hnot
          refine ⟨by simpa using h1, ?_, by simpa using h3⟩
          have h3' : p.err = none := by simpa using h3
          cases hs : p.settled
          · rfl
          · exact absurd ⟨hs, h3'⟩ h2
        · exact ih ⟨p, hp', hnot⟩

/-- C18 witness: one retry, then a settled attempt; one retry, then a token error; one
retry, then the total timer. -/
theorem ConnectAndWait_spec_witness :
    ConnectAndWait [⟨false, false, none⟩, ⟨false, true, none⟩] = some (true, none) ∧
    ConnectAndWait [⟨false, false, none⟩, ⟨false, false, some "refused"⟩, ⟨false, true, none⟩] =
      some (false, some "refused") ∧
    ConnectAndWait [⟨false, false, none⟩, ⟨true, true, none⟩] =
      some (false, some ErrMqttClientConnectTimeout) :=
  ⟨(ConnectAndWait_spec.1 [⟨false, false, none⟩] ⟨false, true, none⟩ []
      (by simp [ConnObs.retries])).2.1 rfl rfl rfl,
   (ConnectAndWait_spec.1 [⟨false, false, none⟩] ⟨false, false, some "refused"⟩
      [⟨false, true, none⟩] (by simp [ConnObs.retries])).2.2.1 "refused" rfl rfl,
   (ConnectAndWait_spec.1 [⟨false, false, none⟩] ⟨true, true, none⟩ []
      (by simp [ConnObs.retries])).1 rfl⟩


/-- C14 (evaluation at the failing inputs): with one provisioned device,
`-startNum 9223372036854775807` passes the range check, because `StartNum+1` wraps to
the least `int`; with two provisioned devices, `-startNum 1 -concurrent
9223372036854775807` is not clamped, because `endNum+1` wraps, and the effective
concurrency stays 9223372036854775807. -/
theorem runBounds_overflow :
    runBounds 9223372036854775807 1 1 =
      .ok { startNum := 9223372036854775807, endNum := 9223372036854775807, concurrent := 1 } ∧
    wrapInt (9223372036854775807 + 1) = -9223372036854775808 ∧
    runBounds 1 9223372036854775807 2 =
      .ok { startNum := 1, endNum := 9223372036854775807,
            concurrent := 9223372036854775807 } := by
  refine ⟨by decide, by decide, by decide⟩


/-- Inside the range of a 64-bit `int` the machine result is the exact result. -/
theorem wrapInt_of_fits (x : Int) (h1 : -9223372036854775808 ≤ x)
    (h2 : x ≤ 9223372036854775807) : wrapInt x = x := by
  unfold wrapInt
  omega

/-- The bounds handling when no addition overflows: the run is rejected exactly when
`startNum < 0` or `startNum ≥ D`, and otherwise the effective concurrency is the
requested one when it fits and `D - startNum` when it does not. -/
theorem runBounds_of_fits (s c D : Int)
    (hs : -9223372036854775808 ≤ s ∧ s < 9223372036854775807)
    (hD : -9223372036854775808 < D ∧ D ≤ 9223372036854775807)
    (hsc : -9223372036854775808 < s + c ∧ s + c ≤ 9223372036854775807) :
    ((s < 0 ∨ D ≤ s) → runBounds s c D = .error (.err (outOfRange s D))) ∧
    (0 ≤ s → s < D → ∃ b, runBounds s c D = .ok b ∧ b.startNum = s ∧
      b.endNum = s + b.concurrent - 1 ∧ s + b.concurrent ≤ D ∧
      (s + c ≤ D → b.concurrent = c) ∧
      (D < s + c → b.concurrent = D - s ∧ 1 ≤ b.concurrent)) := by
  have w1 : wrapInt (s + 1) = s + 1 := wrapInt_of_fits _ (by omega) (by omega)
  have w2 : wrapInt (s + c) = s + c := wrapInt_of_fits _ (by omega) (by omega)
  have w3 : wrapInt (s + c - 1) = s + c - 1 := wrapInt_of_fits _ (by omega) (by omega)
  have w4 : wrapInt (s + c - 1 + 1) = s + c := by
    rw [wrapInt_of_fits _ (by omega) (by omega)]
    ring
  have w5 : wrapInt (D - 1) = D - 1 := wrapInt_of_fits _ (by omega) (by omega)
  constructor
  · intro h
    have hcond : s < 0 ∨ wrapInt (s + 1) > D := by
      rw [w1]
      omega
    simp only [runBounds, if_pos hcond]
  · intro h0 hlt
    have hcond : ¬ (s < 0 ∨ wrapInt (s + 1) > D) := by
      rw [w1]
      omega
    have w6 : wrapInt (D - 1 - s) = D - 1 - s := wrapInt_of_fits _ (by omega) (by omega)
    have w7 : wrapInt (D - 1 - s + 1) = D - s := by
      rw [wrapInt_of_fits _ (by omega) (by omega)]
      ring
    by_cases hclamp : s + c > D
    · refine ⟨{ startNum := s, endNum := D - 1, concurrent := D - s }, ?_, rfl, ?_, ?_, ?_, ?_⟩
      · simp only [runBounds, if_neg hcond, w2, w3, w4, if_pos hclamp, w5, w6, w7]
      · show D - 1 = s + (D - s) - 1
        ring
      · show s + (D - s) ≤ D
        omega
      · intro h
        omega
      · intro _
        exact ⟨rfl, by show 1 ≤ D - s; omega⟩
    · refine ⟨{ startNum := s, endNum := s + c - 1, concurrent := c }, ?_, rfl, rfl, ?_, ?_, ?_⟩
      · simp only [runBounds, if_neg hcond, w2, w3, w4, if_neg hclamp]
      · show s + c ≤ D
        omega
      · intro _
        rfl
      · intro h
        omega

/-- The enumeration when every device's `SeqNo` is its position and no subtraction
overflows: it ends without error or panic, and afterwards a slot `j` holds the client
of device `startNum + j` when that device was visited, and is unchanged otherwise. -/
theorem forEach_seq (store : Nat → Except String Int) (b : RunBounds) (n i : Nat)
    (clients : ClientSlice) (hs : 0 ≤ b.startNum)
    (he : b.endNum = b.startNum + clients.len - 1)
    (hfit : ((i + n : Nat) : Int) ≤ 9223372036854775807)
    (hstore : ∀ k : Nat, i ≤ k → k < i + n → store k = .ok (k : Int)) :
    ∃ cs, forEach store b n i clients = .ok cs ∧ cs.len = clients.len ∧
      ∀ j : Int, cs.slot j =
        if (i : Int) ≤ b.startNum + j ∧ b.startNum + j < ((i + n : Nat) : Int) ∧ 0 ≤ j ∧
            j < clients.len
        then some (b.startNum + j).toNat else clients.slot j := by
  induction n generalizing i clients with
  | zero =>
    refine ⟨clients, rfl, rfl, ?_⟩
    intro j
    have : ¬ ((i : Int) ≤ b.startNum + j ∧ b.startNum + j < ((i + 0 : Nat) : Int) ∧ 0 ≤ j ∧
        j < clients.len) := by
      push_cast
      omega
    rw [if_neg this]
  | succ n ih =>
    have hst : store i = .ok (i : Int) := hstore i (le_refl _) (by omega)
    have hcast : ((i + (n + 1) : Nat) : Int) = (i : Int) + n + 1 := by push_cast; ring
    have hcast' : ((i + 1 + n : Nat) : Int) = (i : Int) + n + 1 := by push_cast; ring
    rw [hcast] at hfit
    by_cases hskip : (i : Int) < b.startNum ∨ (i : Int) > b.endNum
    · obtain ⟨cs, hcs, hlen, hslot⟩ := ih (i + 1) clients he (by rw [hcast']; exact hfit)
        (fun k h1 h2 => hstore k (by omega) (by omega))
      refine ⟨cs, ?_, hlen, ?_⟩
      · simp only [forEach, hst, if_pos hskip, hcs]
      · intro j
        rw [hslot j, hcast, hcast']
        have hiff : ((((i + 1 : Nat) : Int) ≤ b.startNum + j ∧
            b.startNum + j < (i : Int) + n + 1 ∧ 0 ≤ j ∧ j < clients.len)) ↔
            ((i : Int) ≤ b.startNum + j ∧ b.startNum + j < (i : Int) + n + 1 ∧ 0 ≤ j ∧
              j < clients.len) := by
          push_cast
          constructor
          · rintro ⟨h1, h2, h3, h4⟩
            exact ⟨by omega, h2, h3, h4⟩
          · rintro ⟨h1, h2, h3, h4⟩
            refine ⟨?_, h2, h3, h4⟩
            rcases hskip with h | h
            · omega
            · rw [he] at h
              omega
        by_cases hc : (i : Int) ≤ b.startNum + j ∧ b.startNum + j < (i : Int) + n + 1 ∧ 0 ≤ j ∧
            j < clients.len
        · rw [if_pos hc, if_pos (hiff.mpr hc)]
        · rw [if_neg hc, if_neg (fun h => hc (hiff.mp h))]
    · have hin : b.startNum ≤ (i : Int) ∧ (i : Int) ≤ b.endNum := by omega
      have hw : wrapInt ((i : Int) - b.startNum) = (i : Int) - b.startNum :=
        wrapInt_of_fits _ (by omega) (by omega)
      have hidx : ¬ ((i : Int) - b.startNum < 0 ∨ (i : Int) - b.startNum ≥ clients.len) := by
        rw [he] at hin
        omega
      obtain ⟨cs, hcs, hlen, hslot⟩ := ih (i + 1)
        { clients with slot := Function.update clients.slot ((i : Int) - b.startNum) (some i) }
        he (by rw [hcast']; exact hfit) (fun k h1 h2 => hstore k (by omega) (by omega))
      refine ⟨cs, ?_, hlen, ?_⟩
      · simp only [forEach, hst, if_neg hskip, hw, if_neg hidx, hcs]
      · intro j
        rw [hslot j, hcast, hcast']
        by_cases hj : j = (i : Int) - b.startNum
        · subst hj
          have h1 : ¬ (((i + 1 : Nat) : Int) ≤ b.startNum + ((i : Int) - b.startNum) ∧
              b.startNum + ((i : Int) - b.startNum) < (i : Int) + n + 1 ∧
              0 ≤ (i : Int) - b.startNum ∧ (i : Int) - b.startNum < clients.len) := by
            push_cast
            omega
          have h2 : (i : Int) ≤ b.startNum + ((i : Int) - b.startNum) ∧
              b.startNum + ((i : Int) - b.startNum) < (i : Int) + n + 1 ∧
              0 ≤ (i : Int) - b.startNum ∧ (i : Int) - b.startNum < clients.len := by
            rw [he] at hin
            omega
          rw [if_neg h1, if_pos h2]
          show Function.update clients.slot ((i : Int) - b.startNum) (some i)
            ((i : Int) - b.startNum) = _
          rw [Function.update_same]
          congr 1
          have : b.startNum + ((i : Int) - b.startNum) = (i : Int) := by ring
          rw [this, Int.toNat_ofNat]
        · have hiff : ((((i + 1 : Nat) : Int) ≤ b.startNum + j ∧
              b.startNum + j < (i : Int) + n + 1 ∧ 0 ≤ j ∧ j < clients.len)) ↔
              ((i : Int) ≤ b.startNum + j ∧ b.startNum + j < (i : Int) + n + 1 ∧ 0 ≤ j ∧
                j < clients.len) := by
            push_cast
            constructor
            · rintro ⟨h1, h2, h3, h4⟩
              exact ⟨by omega, h2, h3, h4⟩
            · rintro ⟨h1, h2, h3, h4⟩
              exact ⟨by omega, h2, h3, h4⟩
          by_cases hc : (i : Int) ≤ b.startNum + j ∧ b.startNum + j < (i : Int) + n + 1 ∧
              0 ≤ j ∧ j < clients.len
          · rw [if_pos hc, if_pos (hiff.mpr hc)]
          · rw [if_neg hc, if_neg (fun h => hc (hiff.mp h))]
            show Function.update clients.slot ((i : Int) - b.startNum) (some i) j = _
            rw [Function.update_noteq hj]


/-- The client-set construction when no addition overflows and the slice can be
allocated: every slot of `clients` ends up holding the client of the device at
position `startNum + j`. -/
theorem initClients_of_fits (s c D : Int) (store : Nat → Except String Int)
    (hs0 : 0 ≤ s) (hsD : s < D) (hc : 1 ≤ c) (hD : D ≤ 9223372036854775807)
    (hsc : s + c ≤ 9223372036854775807)
    (hsz : 8 * min c (D - s) < 18446744073709551616)
    (hstore : ∀ i : Nat, (i : Int) < D → store i = .ok (i : Int)) :
    ∃ cs, initClients s c D store = .ok cs ∧ cs.len = min c (D - s) ∧
      ∀ j : Int, 0 ≤ j → j < cs.len → cs.slot j = some (s + j).toNat := by
  obtain ⟨b, hb, hbs, hbe, hble, hb1, hb2⟩ :=
    (runBounds_of_fits s c D ⟨by omega, by omega⟩ ⟨by omega, hD⟩ ⟨by omega, hsc⟩).2 hs0 hsD
  have hconc : b.concurrent = min c (D - s) := by
    by_cases h : s + c ≤ D
    · rw [hb1 h]
      omega
    · rw [(hb2 (by omega)).1]
      omega
  have hmake : makeClients b.concurrent =
      .ok { len := b.concurrent, slot := fun _ => none } := by
    have : ¬ (b.concurrent < 0 ∨ 8 * b.concurrent ≥ 18446744073709551616) := by
      rw [hconc]
      omega
    simp only [makeClients, if_neg this]
  obtain ⟨cs, hcs, hlen, hslot⟩ := forEach_seq store b D.toNat 0
    { len := b.concurrent, slot := fun _ => none } (by rw [hbs]; exact hs0)
    (by rw [hbe, hbs]) (by simp; omega)
    (fun k _ hk => hstore k (by omega))
  refine ⟨cs, ?_, ?_, ?_⟩
  · simp only [initClients, hb, hmake, bind, Except.bind, hcs]
  · rw [hlen, ← hconc]
  · intro j hj0 hjlt
    rw [hlen] at hjlt
    have hcond : ((0 : Nat) : Int) ≤ b.startNum + j ∧
        b.startNum + j < ((0 + D.toNat : Nat) : Int) ∧ 0 ≤ j ∧
        j < ({ len := b.concurrent, slot := fun _ => none } : ClientSlice).len := by
      refine ⟨by simp; omega, ?_, hj0, hjlt⟩
      have hlt' : j < b.concurrent := hjlt
      simp only [zero_add, Int.toNat_of_nonneg (by omega : (0 : Int) ≤ D)]
      omega
    rw [hslot j, if_pos hcond, hbs]

/-- C19 (evaluation at the failing input): two provisioned devices whose `SeqNo` is
their position, `-startNum 1 -concurrent 9223372036854775807`. The clamp is skipped
(`endNum+1` wraps), so `Run` asks `make` for 9223372036854775807 slots and panics; the
one device inside `[startNum, endNum]` is never written and no slot is filled. With
the effective concurrency 1 that the clamp is there to produce, the construction
fills its one slot. -/
theorem initClients_overflow :
    runBounds 1 9223372036854775807 2 =
      .ok { startNum := 1, endNum := 9223372036854775807,
            concurrent := 9223372036854775807 } ∧
    (∃ cs, initClients 1 1 2 seqStore = .ok cs ∧ cs.len = 1 ∧ cs.slot 0 = some 1) ∧
    (match initClients 1 9223372036854775807 2 seqStore with
      | .error .panic => True
      | _ => False) := by
  refine ⟨by decide, ⟨_, rfl, rfl, rfl⟩, ?_⟩
  have h : initClients 1 9223372036854775807 2 seqStore = .error .panic := by rfl
  rw [h]
  trivial

/-! ## Theorems: the histogram under float64 arithmetic -/

/-- The histogram `buildHistogram` returns on a non-empty series. -/
theorem Float64.buildHistogram_eq {F : Type} [DecidableEq F] (A : Arith F) (series : List F)
    (total : Int) (lo hi : F) (hlo : series.head? = some lo)
    (hhi : series.getLast? = some hi) :
    Float64.buildHistogram A series total =
      some (Float64.histogramLoop A
        (Float64.countBuckets A lo (Float64.stepsOf A lo hi) series) total
        (Float64.sortFloat64s A
          (Float64.GoMap.keys (Float64.countBuckets A lo (Float64.stepsOf A lo hi) series)))
        (A.ofInt 0) []) := by
  have h0 : series[0]? = some lo := by
    rw [← List.head?_eq_getElem?]; exact hlo
  have h1 : series[series.length - 1]? = some hi := by
    rw [← List.getLast?_eq_getElem?]; exact hhi
  simp [Float64.buildHistogram, h0, h1]

/-- The keys of the histogram are the bucket keys of the series values. -/
theorem Float64.buildHistogram_mem_keys {F : Type} [DecidableEq F] (A : Arith F)
    (series : List F) (total : Int) (lo hi : F) (k : F) :
    k ∈ Float64.GoMap.keys (Float64.histogramLoop A
        (Float64.countBuckets A lo (Float64.stepsOf A lo hi) series) total
        (Float64.sortFloat64s A
          (Float64.GoMap.keys (Float64.countBuckets A lo (Float64.stepsOf A lo hi) series)))
        (A.ofInt 0) []) ↔
      ∃ v ∈ series, Float64.bucketOf A lo (Float64.stepsOf A lo hi) v = k := by
  rw [Float64.loop_mem_keys, (Float64.sort_perm A _).mem_iff, Float64.count_mem_keys]
  simp [Float64.GoMap.keys]

/-- C6, counterexample: on the series `[0, 1, 10]` the buckets have width 1; the value 1
lies in bucket 0 = `[0, 1]` and in bucket 1 = `[1, 2]`; the first bucket that contains
it has upper bound 1, but `buildHistogram` counts it under 2. -/
theorem buildHistogram_not_first_bucket :
    Float64.stepsOf ieee (f64 0) (f64 10) = f64 1 ∧
    Float64.inBucket ieee (f64 0) (f64 1) (f64 1) 0 = true ∧
    Float64.inBucket ieee (f64 0) (f64 1) (f64 1) 1 = true ∧
    Float64.upper ieee (f64 0) (f64 1) 0 = f64 1 ∧
    Float64.firstMatchBucket ieee (f64 0) (f64 1) (f64 1) = f64 1 ∧
    Float64.bucketOf ieee (f64 0) (f64 1) (f64 1) = f64 2 ∧
    Float64.countBuckets ieee (f64 0) (f64 1) [f64 0, f64 1, f64 10] =
      [(f64 1, 1), (f64 2, 1), (f64 11, 1)] ∧
    (Float64.buildHistogram ieee [f64 0, f64 1, f64 10] 3).map Float64.GoMap.keys =
      some [f64 1, f64 2, f64 11] := by
  decide!

/-- C6, amended: in `buildHistogram` on a non-empty series with first element `lo` and
last element `hi`, whatever the float64 arithmetic, each value is counted under the
upper bound of the last of the eleven buckets `0..10` (bounds as the code computes
them) whose closed interval contains it, and under the zero value when no bucket
contains it; the keys of the result are exactly these bucket keys. A value that lies
in two adjacent buckets `i` and `i + 1` is counted under the upper bound of a bucket
above `i`. -/
theorem buildHistogram_last_bucket {F : Type} [DecidableEq F] (A : Arith F)
    (series : List F) (total : Int) (lo hi : F)
    (hlo : series.head? = some lo) (hhi : series.getLast? = some hi) :
    ∃ hist, Float64.buildHistogram A series total = some hist ∧
      (∀ k, k ∈ Float64.GoMap.keys hist ↔
        ∃ v ∈ series, Float64.bucketOf A lo (Float64.stepsOf A lo hi) v = k) ∧
      (∀ k, (Float64.countBuckets A lo (Float64.stepsOf A lo hi) series).get 0 k =
        (series.countP
          (fun v => decide (Float64.bucketOf A lo (Float64.stepsOf A lo hi) v = k)) : Int)) ∧
      (∀ v,
        ((∀ j : Nat, j ≤ 10 → Float64.inBucket A lo (Float64.stepsOf A lo hi) v j = false) ∧
          Float64.bucketOf A lo (Float64.stepsOf A lo hi) v = A.ofInt 0) ∨
        ∃ i : Nat, i ≤ 10 ∧ Float64.inBucket A lo (Float64.stepsOf A lo hi) v i = true ∧
          (∀ j : Nat, i < j → j ≤ 10 →
            Float64.inBucket A lo (Float64.stepsOf A lo hi) v j = false) ∧
          Float64.bucketOf A lo (Float64.stepsOf A lo hi) v =
            Float64.upper A lo (Float64.stepsOf A lo hi) i) ∧
      (∀ v, ∀ i : Nat, i < 10 →
        Float64.inBucket A lo (Float64.stepsOf A lo hi) v i = true →
        Float64.inBucket A lo (Float64.stepsOf A lo hi) v (i + 1) = true →
        ∃ j : Nat, i < j ∧ j ≤ 10 ∧
          Float64.inBucket A lo (Float64.stepsOf A lo hi) v j = true ∧
          Float64.bucketOf A lo (Float64.stepsOf A lo hi) v =
            Float64.upper A lo (Float64.stepsOf A lo hi) j) := by
  have hcases : ∀ v,
      ((∀ j : Nat, j ≤ 10 → Float64.inBucket A lo (Float64.stepsOf A lo hi) v j = false) ∧
        Float64.bucketOf A lo (Float64.stepsOf A lo hi) v = A.ofInt 0) ∨
      ∃ i : Nat, i ≤ 10 ∧ Float64.inBucket A lo (Float64.stepsOf A lo hi) v i = true ∧
        (∀ j : Nat, i < j → j ≤ 10 →
          Float64.inBucket A lo (Float64.stepsOf A lo hi) v j = false) ∧
        Float64.bucketOf A lo (Float64.stepsOf A lo hi) v =
          Float64.upper A lo (Float64.stepsOf A lo hi) i := by
    intro v
    rcases Float64.scan_cases A lo (Float64.stepsOf A lo hi) v (nBuckets + 1) with
      ⟨hall, hz⟩ | ⟨i, hi', hm, hlast, hscan⟩
    · exact Or.inl ⟨fun j hj => hall j (by simp only [nBuckets]; omega), hz⟩
    · refine Or.inr ⟨i, by simp only [nBuckets] at hi'; omega, hm,
        fun j h1 h2 => hlast j h1 (by simp only [nBuckets]; omega), hscan⟩
  refine ⟨_, Float64.buildHistogram_eq A series total lo hi hlo hhi,
    fun k => Float64.buildHistogram_mem_keys A series total lo hi k,
    fun k => Float64.count_get A lo _ series k, hcases, ?_⟩
  intro v i hi10 hm0 hm1
  rcases hcases v with ⟨hall, _⟩ | ⟨j, hj, hmj, hlast, hkey⟩
  · rw [hall i (by omega)] at hm0
    cases hm0
  · refine ⟨j, ?_, hj, hmj, hkey⟩
    by_contra hle
    have hji : j < i + 1 := by omega
    rw [hlast (i + 1) hji (by omega)] at hm1
    cases hm1

/-- C6, witness: the series `[1/3, 2/3, 2]` rounded to float64; its maximum 2 is
counted under the upper bound `2.0000000000000004` of bucket 9. -/
theorem buildHistogram_last_bucket_witness :
    thirdsSeries.head? = some (Binary64.round (1 / 3)) ∧
    thirdsSeries.getLast? = some (f64 2) ∧
    Float64.bucketOf ieee (Binary64.round (1 / 3))
        (Float64.stepsOf ieee (Binary64.round (1 / 3)) (f64 2)) (f64 2) =
      Float64.upper ieee (Binary64.round (1 / 3))
        (Float64.stepsOf ieee (Binary64.round (1 / 3)) (f64 2)) 9 ∧
    ∃ hist, Float64.buildHistogram ieee thirdsSeries 3 = some hist ∧
      (∀ k, k ∈ Float64.GoMap.keys hist ↔
        ∃ v ∈ thirdsSeries, Float64.bucketOf ieee (Binary64.round (1 / 3))
          (Float64.stepsOf ieee (Binary64.round (1 / 3)) (f64 2)) v = k) :=
  ⟨by decide!, by decide!, by decide!,
    (buildHistogram_last_bucket ieee thirdsSeries 3 (Binary64.round (1 / 3)) (f64 2)
      (by decide!) (by decide!)).imp (fun _ h => ⟨h.1, h.2.1⟩)⟩

/-- C7, counterexample: on `[0, 10]` the key 11 is greater than the maximum 10 and is
none of `lo + k*(hi-lo)/10` for `k` in `1..10`; on `[0, 1, ..., 10]` the histogram has
eleven keys; on the thirteen smallest float64 values it has twelve keys, one of them
the zero value under which the maximum is counted. -/
theorem buildHistogram_key_above_fastest :
    (Float64.buildHistogram ieee [f64 0, f64 10] 2).map Float64.GoMap.keys =
      some [f64 1, f64 11] ∧
    ieee.lt (f64 10) (f64 11) = true ∧
    (∀ k ∈ List.range' 1 10,
      ieee.add (f64 0) (ieee.div (ieee.mul (ieee.ofInt (k : Int))
        (ieee.sub (f64 10) (f64 0))) (f64 10)) ≠ f64 11) ∧
    (Float64.buildHistogram ieee ((List.range 11).map (fun n => f64 (n : Int))) 11).map
      (fun hist => (Float64.GoMap.keys hist).length) = some 11 ∧
    (Float64.buildHistogram ieee tinySeries 13).map
      (fun hist => (Float64.GoMap.keys hist).length) = some 12 ∧
    (Float64.buildHistogram ieee tinySeries 13).map
      (fun hist => decide (f64 0 ∈ Float64.GoMap.keys hist)) = some true ∧
    (∀ j : Nat, j ≤ 10 → Float64.inBucket ieee (f64 0)
      (Float64.stepsOf ieee (f64 0) (Binary64.fin ((12 : ℚ) / ((2 ^ 1074 : Nat) : ℚ))))
      (Binary64.fin ((12 : ℚ) / ((2 ^ 1074 : Nat) : ℚ))) j = false) := by
  decide!

/-- C7, amended: for every non-empty series with first element `lo` and last element
`hi`, whatever the float64 arithmetic, `buildHistogram` uses eleven buckets of width
`steps = (hi - lo) / 10` starting at `lo`: the returned histogram has at most 12 keys,
and every key is the zero value or `lo + steps * k` for some `k` in `1..11`. -/
theorem buildHistogram_keys {F : Type} [DecidableEq F] (A : Arith F)
    (series : List F) (total : Int) (lo hi : F)
    (hlo : series.head? = some lo) (hhi : series.getLast? = some hi) :
    ∃ hist, Float64.buildHistogram A series total = some hist ∧
      (Float64.GoMap.keys hist).length ≤ 12 ∧
      ∀ k ∈ Float64.GoMap.keys hist, k = A.ofInt 0 ∨
        ∃ j : Nat, 1 ≤ j ∧ j ≤ 11 ∧
          k = A.add lo (A.mul (A.div (A.sub hi lo) (A.ofInt 10)) (A.ofInt (j : Int))) := by
  refine ⟨_, Float64.buildHistogram_eq A series total lo hi hlo hhi, ?_, ?_⟩
  · have hsub : Float64.GoMap.keys (Float64.histogramLoop A
        (Float64.countBuckets A lo (Float64.stepsOf A lo hi) series) total
        (Float64.sortFloat64s A
          (Float64.GoMap.keys (Float64.countBuckets A lo (Float64.stepsOf A lo hi) series)))
        (A.ofInt 0) []) ⊆
        A.ofInt 0 :: (List.range 11).map (Float64.upper A lo (Float64.stepsOf A lo hi)) := by
      intro k hk
      rw [Float64.buildHistogram_mem_keys] at hk
      obtain ⟨v, _, rfl⟩ := hk
      rcases Float64.scan_cases A lo (Float64.stepsOf A lo hi) v (nBuckets + 1) with
        ⟨_, hz⟩ | ⟨i, hi', _, _, hscan⟩
      · exact List.mem_cons.mpr (Or.inl hz)
      · refine List.mem_cons.mpr (Or.inr (List.mem_map.mpr ⟨i, ?_, hscan.symm⟩))
        simpa [nBuckets] using hi'
    have hnd := Float64.loop_nodup A
      (Float64.countBuckets A lo (Float64.stepsOf A lo hi) series) total
      (Float64.sortFloat64s A
        (Float64.GoMap.keys (Float64.countBuckets A lo (Float64.stepsOf A lo hi) series)))
      (A.ofInt 0) [] (by simp [Float64.GoMap.keys])
    have := (hnd.subperm hsub).length_le
    simpa using this
  · intro k hk
    rw [Float64.buildHistogram_mem_keys] at hk
    obtain ⟨v, _, rfl⟩ := hk
    rcases Float64.scan_cases A lo (Float64.stepsOf A lo hi) v (nBuckets + 1) with
      ⟨_, hz⟩ | ⟨i, hi', _, _, hscan⟩
    · exact Or.inl hz
    · refine Or.inr ⟨i + 1, by omega, by simp only [nBuckets] at hi'; omega, ?_⟩
      exact hscan

/-- C7, witness: the series `[1/3, 2/3, 2]` rounded to float64. -/
theorem buildHistogram_keys_witness :
    ∃ hist, Float64.buildHistogram ieee thirdsSeries 3 = some hist ∧
      (Float64.GoMap.keys hist).length ≤ 12 ∧
      ∀ k ∈ Float64.GoMap.keys hist, k = ieee.ofInt 0 ∨
        ∃ j : Nat, 1 ≤ j ∧ j ≤ 11 ∧
          k = ieee.add (Binary64.round (1 / 3))
            (ieee.mul (ieee.div (ieee.sub (f64 2) (Binary64.round (1 / 3))) (ieee.ofInt 10))
              (ieee.ofInt (j : Int))) :=
  buildHistogram_keys ieee thirdsSeries 3 (Binary64.round (1 / 3)) (f64 2)
    (by decide!) (by decide!)

/-! ## Theorems: the throughput series under float64 arithmetic -/

/-- IEEE-754 comparisons make the order of `sort.Float64s` total and transitive, and
"not less" is `<=` away from NaN. -/
theorem ieeeSortLaws : Float64.SortLaws ieee := by
  constructor
  · intro a b
    cases a <;> cases b <;>
      simp [Float64.less, ieee, Binary64.lt, Binary64.isNaN]
    exact le_total _ _
  · intro a b c
    cases a <;> cases b <;> cases c <;>
      simp [Float64.less, ieee, Binary64.lt, Binary64.isNaN]
    exact fun h1 h2 => le_trans h1 h2
  · intro a b
    cases a <;> cases b <;>
      simp [Float64.less, ieee, Binary64.lt, Binary64.le, Binary64.isNaN]

/-- C3, counterexample: a completed client with no message and no elapsed time has
throughput `0/0`, a NaN, which `sort.Float64s` puts first; the series `[NaN, 5]` is not
ascending (`NaN <= 5` is false) and its first element is not below the other. -/
theorem buildSummary_nan_first :
    (Float64.buildSummary ieee 2 5 idleFirst).toOption.map
      (fun s => s.PublishPerformance) = some [Binary64.nan, Binary64.fin 5] ∧
    (Float64.buildSummary ieee 2 5 idleFirst).toOption.map
      (fun s => s.Completed) = some 2 ∧
    ieee.le Binary64.nan (Binary64.fin 5) = false ∧
    ¬ ([Binary64.nan, Binary64.fin 5] : List Binary64).Pairwise
      (fun a b => ieee.le a b = true) := by
  decide!

/-- C3, amended: for every input on which `buildSummary` succeeds,
`Summary.PublishPerformance` holds the float64 values
`float64(messagesPublished) / elapsed.Seconds()` of exactly the results whose event is
`PublishComplete`, in the order of `sort.Float64s` (no element less than an earlier one,
a NaN before the other values), and its length equals `Summary.Completed`; when none of
the values is NaN the list is ascending, its first element the slowest and its last
element the fastest throughput. -/
theorem buildSummary_publishPerformance {F : Type} [DecidableEq F] (A : Arith F)
    (S : Float64.SortLaws A) (nClient nMessages : Int) (rs : List Result)
    (s : Float64.Summary F) (h : Float64.buildSummary A nClient nMessages rs = .ok s) :
    s.PublishPerformance.Perm
      ((rs.filter (fun r => decide (r.Event = PublishCompleteEvent))).map
        (fun r => A.div (A.ofInt r.MessagePublished) (Float64.Seconds A r.PublishDoneTime))) ∧
    (s.PublishPerformance.length : Int) = s.Completed ∧
    s.PublishPerformance.Pairwise (fun a b => Float64.less A b a = false) ∧
    ((∀ x ∈ s.PublishPerformance, A.isNaN x = false) →
      s.PublishPerformance.Pairwise (fun a b => A.le a b = true) ∧
      ∃ lo hi, s.PublishPerformance.head? = some lo ∧
        s.PublishPerformance.getLast? = some hi ∧
        ∀ x ∈ s.PublishPerformance, A.le lo x = true ∧ A.le x hi = true) := by
  obtain ⟨hne, hperf, hcomp, _⟩ := Float64.summary_fields A h
  have hpw := Float64.sort_pairwise A S ((completedOf rs).map (Float64.throughput A))
  have hpm := Float64.sort_perm A ((completedOf rs).map (Float64.throughput A))
  rw [← hperf] at hpw hpm
  refine ⟨hpm, ?_, hpw, ?_⟩
  · rw [hcomp, hpm.length_eq, List.length_map]
  · intro hnan
    have hrefl : ∀ x ∈ s.PublishPerformance, A.le x x = true := by
      intro x hx
      have hx' := hnan x hx
      refine S.le_of_not_less x x hx' hx' ?_
      rcases S.total x x with h1 | h1 <;> exact h1
    have hle : s.PublishPerformance.Pairwise (fun a b => A.le a b = true) := by
      have hand : s.PublishPerformance.Pairwise
          (fun a b => (A.isNaN a = false ∧ A.isNaN b = false) ∧ Float64.less A b a = false) :=
        (List.pairwise_and_iff.mpr ⟨List.pairwise_of_forall_mem_list
          (fun a ha b hb => ⟨hnan a ha, hnan b hb⟩), hpw⟩)
      exact hand.imp (fun hab => S.le_of_not_less _ _ hab.1.1 hab.1.2 hab.2)
    refine ⟨hle, ?_⟩
    have hnil : s.PublishPerformance ≠ [] := by
      intro e
      have := hpm.length_eq
      rw [e] at this
      simp at this
      exact hne (List.length_eq_zero.mp this.symm)
    obtain ⟨lo, tl, hcons⟩ := List.exists_cons_of_ne_nil hnil
    refine ⟨lo, s.PublishPerformance.getLast hnil, ?_, List.getLast?_eq_getLast _ hnil, ?_⟩
    · rw [hcons]; rfl
    · intro x hx
      constructor
      · have hx' := hx
        rw [hcons] at hx' hle
        rcases List.mem_cons.mp hx' with e | e
        · rw [e]; exact hrefl lo (by rw [hcons]; exact List.mem_cons_self _ _)
        · exact (List.pairwise_cons.mp hle).1 x e
      · obtain ⟨ini, hsnoc⟩ : ∃ ini, s.PublishPerformance =
            ini ++ [s.PublishPerformance.getLast hnil] :=
          ⟨_, (List.dropLast_append_getLast hnil).symm⟩
        have hx' := hx
        rw [hsnoc] at hx' hle
        rcases List.mem_append.mp hx' with e | e
        · exact (List.pairwise_append.mp hle).2.2 x e _ (List.mem_singleton_self _)
        · rw [List.mem_singleton.mp e]
          exact hrefl _ (List.getLast_mem hnil)

/-- C3, witness: 3 clients, 5 messages each, elapsed 1 s, 2 s and 5 s give
`[1, 2.5, 5]` in IEEE-754 arithmetic. -/
theorem buildSummary_publishPerformance_witness :
    Float64.buildSummary ieee 3 5 threeClients = .ok threeSummary64 ∧
    threeSummary64.PublishPerformance = [Binary64.fin 1, Binary64.fin (5 / 2), Binary64.fin 5] ∧
    (threeSummary64.PublishPerformance.length : Int) = threeSummary64.Completed ∧
    threeSummary64.PublishPerformance.Pairwise (fun a b => ieee.le a b = true) :=
  ⟨by decide!, rfl,
    (buildSummary_publishPerformance ieee ieeeSortLaws 3 5 threeClients threeSummary64
      (by decide!)).2.1,
    ((buildSummary_publishPerformance ieee ieeeSortLaws 3 5 threeClients threeSummary64
      (by decide!)).2.2.2 (by decide!)).1⟩

/-! ## Helper lemmas: the histogram in IEEE-754 arithmetic -/

theorem Binary64.le_right_notNaN (a b : Binary64) (h : Binary64.le a b = true) :
    Binary64.isNaN b = false := by
  cases a <;> cases b <;> simp_all [Binary64.le, Binary64.isNaN]

theorem Binary64.lt_of_not_less (a b : Binary64) (ha : Binary64.isNaN a = false)
    (hb : Binary64.isNaN b = false) (h : Float64.less ieee b a = false) (hne : a ≠ b) :
    Binary64.lt a b = true := by
  cases a <;> cases b <;>
    simp_all [Float64.less, ieee, Binary64.lt, Binary64.isNaN]
  exact lt_of_le_of_ne h hne

theorem Binary64.not_le_of_lt (a b : Binary64) (h : Binary64.lt a b = true) :
    Binary64.le b a = false := by
  cases a <;> cases b <;> simp_all [Binary64.le, Binary64.lt]

theorem Binary64.le_of_lt (a b : Binary64) (h : Binary64.lt a b = true) :
    Binary64.le a b = true := by
  cases a <;> cases b <;> simp_all [Binary64.le, Binary64.lt]
  exact h.le

theorem Binary64.le_self (a : Binary64) (ha : Binary64.isNaN a = false) :
    Binary64.le a a = true := by
  cases a <;> simp_all [Binary64.le, Binary64.isNaN]

/-- A bucket key is never NaN: it is the zero value or a bound that some value is
below. -/
theorem bucketOf_notNaN (lo s v : Binary64) :
    Binary64.isNaN (Float64.bucketOf ieee lo s v) = false := by
  rcases Float64.scan_cases ieee lo s v (nBuckets + 1) with ⟨_, hz⟩ | ⟨i, _, hm, _, hscan⟩
  · unfold Float64.bucketOf
    rw [hz]
    simp [ieee, Binary64.round, Binary64.isNaN]
  · unfold Float64.bucketOf
    rw [hscan]
    unfold Float64.inBucket at hm
    simp only [Bool.and_eq_true] at hm
    exact Binary64.le_right_notNaN _ _ hm.2

/-- The sorted keys of the count map are strictly increasing. -/
theorem sortedKeys_strict (lo s : Binary64) (series : List Binary64) :
    (Float64.sortFloat64s ieee
      (Float64.GoMap.keys (Float64.countBuckets ieee lo s series))).Pairwise
      (fun a b => Binary64.lt a b = true) := by
  have hpw := Float64.sort_pairwise ieee ieeeSortLaws
    (Float64.GoMap.keys (Float64.countBuckets ieee lo s series))
  have hperm := Float64.sort_perm ieee
    (Float64.GoMap.keys (Float64.countBuckets ieee lo s series))
  have hnd : (Float64.sortFloat64s ieee
      (Float64.GoMap.keys (Float64.countBuckets ieee lo s series))).Nodup :=
    hperm.nodup_iff.mpr (Float64.count_nodup ieee lo s series)
  have hnan : ∀ k ∈ Float64.sortFloat64s ieee
      (Float64.GoMap.keys (Float64.countBuckets ieee lo s series)),
      Binary64.isNaN k = false := by
    intro k hk
    rw [hperm.mem_iff, Float64.count_mem_keys] at hk
    obtain ⟨v, _, rfl⟩ := hk
    exact bucketOf_notNaN lo s v
  have hboth := hpw.and hnd
  exact hboth.imp_of_mem (fun ha hb hab =>
    Binary64.lt_of_not_less _ _ (hnan _ ha) (hnan _ hb) hab.1 hab.2)

theorem sum_indicator {F : Type} [DecidableEq F] (L : List F) (x : F) (hnd : L.Nodup) :
    (L.map (fun k => if x = k then (1 : Int) else 0)).sum = if x ∈ L then 1 else 0 := by
  induction L with
  | nil => simp
  | cons a L ih =>
    have hnd' := List.nodup_cons.mp hnd
    rw [List.map_cons, List.sum_cons, ih hnd'.2]
    by_cases hxa : x = a
    · subst hxa
      simp [hnd'.1]
    · have : ¬ x ∈ a :: L ↔ ¬ x ∈ L := by simp [hxa]
      by_cases hx : x ∈ L <;> simp [hxa, hx]

/-- The counts of the keys of a duplicate-free list add up to the number of values
whose key is in the list. -/
theorem sum_countP {F : Type} [DecidableEq F] (key : F → F) (L : List F) (hnd : L.Nodup)
    (series : List F) :
    (L.map (fun k => (series.countP (fun v => decide (key v = k)) : Int))).sum =
      (series.countP (fun v => decide (key v ∈ L)) : Int) := by
  induction series with
  | nil => simp
  | cons v vs ih =>
    have h1 : (L.map (fun k => ((v :: vs).countP (fun v => decide (key v = k)) : Int))) =
        L.map (fun k => (vs.countP (fun v => decide (key v = k)) : Int) +
          (if key v = k then (1 : Int) else 0)) := by
      apply List.map_congr_left
      intro k _
      rw [List.countP_cons]
      by_cases h : key v = k <;> simp [h]
    rw [h1, List.sum_map_add, ih, sum_indicator L (key v) hnd, List.countP_cons]
    by_cases h : key v ∈ L <;> simp [h]

/-- In a strictly increasing list without NaN, the first `i + 1` elements are the
elements that are at most the `i`-th. -/
theorem mem_take_iff_le (ks : List Binary64)
    (hs : ks.Pairwise (fun a b => Binary64.lt a b = true))
    (hnan : ∀ k ∈ ks, Binary64.isNaN k = false) (i : Nat) (hi : i < ks.length)
    (k : Binary64) (hk : k ∈ ks) :
    k ∈ ks.take (i + 1) ↔ Binary64.le k ks[i] = true := by
  rw [List.pairwise_iff_getElem] at hs
  constructor
  · intro h
    obtain ⟨j, hj, rfl⟩ := List.mem_take_iff_getElem.mp h
    have hj' : j < i + 1 := lt_of_lt_of_le hj (min_le_left _ _)
    rcases Nat.lt_or_ge j i with hlt | hge
    · exact Binary64.le_of_lt _ _ (hs j i _ hi hlt)
    · have : j = i := by omega
      subst this
      exact Binary64.le_self _ (hnan _ (List.getElem_mem _))
  · intro h
    obtain ⟨j, hj, rfl⟩ := List.getElem_of_mem hk
    rcases Nat.lt_or_ge i j with hlt | hge
    · have := Binary64.not_le_of_lt _ _ (hs i j hi hj hlt)
      rw [this] at h
      cases h
    · exact List.mem_take_iff_getElem.mpr ⟨j, lt_min (by omega) hj, rfl⟩

theorem filter_le_eq_take (ks : List Binary64)
    (hs : ks.Pairwise (fun a b => Binary64.lt a b = true))
    (hnan : ∀ k ∈ ks, Binary64.isNaN k = false) (i : Nat) (hi : i < ks.length) :
    ks.filter (fun k => Binary64.le k ks[i]) = ks.take (i + 1) := by
  have h1 : (ks.take (i + 1)).filter (fun k => Binary64.le k ks[i]) = ks.take (i + 1) :=
    List.filter_eq_self.mpr (fun a ha =>
      (mem_take_iff_le ks hs hnan i hi a (List.mem_of_mem_take ha)).mp ha)
  have h2 : (ks.drop (i + 1)).filter (fun k => Binary64.le k ks[i]) = [] := by
    rw [List.filter_eq_nil_iff]
    intro a ha
    obtain ⟨j, hj, rfl⟩ := List.mem_drop_iff_getElem.mp ha
    rw [List.pairwise_iff_getElem] at hs
    have := Binary64.not_le_of_lt _ _ (hs i (i + 1 + j) hi (by omega) (by omega))
    simp [this]
  calc ks.filter (fun k => Binary64.le k ks[i])
      = (ks.take (i + 1) ++ ks.drop (i + 1)).filter (fun k => Binary64.le k ks[i]) := by
        rw [List.take_append_drop]
    _ = ks.take (i + 1) := by rw [List.filter_append, h1, h2, List.append_nil]

theorem count_nonneg (lo s : Binary64) (series : List Binary64) (k : Binary64) :
    0 ≤ (Float64.countBuckets ieee lo s series).get 0 k := by
  rw [Float64.count_get]
  exact Int.natCast_nonneg _

/-- The counts of the first `i + 1` sorted keys add up to the number of values whose
bucket key is at most the `i`-th key. -/
theorem sum_take_counts (lo s : Binary64) (series : List Binary64) (i : Nat)
    (hi : i < (Float64.sortFloat64s ieee
      (Float64.GoMap.keys (Float64.countBuckets ieee lo s series))).length) :
    (((Float64.sortFloat64s ieee
        (Float64.GoMap.keys (Float64.countBuckets ieee lo s series))).take (i + 1)).map
        ((Float64.countBuckets ieee lo s series).get 0)).sum =
      (series.countP (fun v => Binary64.le (Float64.bucketOf ieee lo s v)
        ((Float64.sortFloat64s ieee
          (Float64.GoMap.keys (Float64.countBuckets ieee lo s series)))[i])) : Int) := by
  set ks := Float64.sortFloat64s ieee
    (Float64.GoMap.keys (Float64.countBuckets ieee lo s series)) with hks
  have hperm := Float64.sort_perm ieee
    (Float64.GoMap.keys (Float64.countBuckets ieee lo s series))
  have hnd : ks.Nodup := hperm.nodup_iff.mpr (Float64.count_nodup ieee lo s series)
  have hstrict := sortedKeys_strict lo s series
  have hmem : ∀ v ∈ series, Float64.bucketOf ieee lo s v ∈ ks := by
    intro v hv
    rw [hks, hperm.mem_iff, Float64.count_mem_keys]
    exact ⟨v, hv, rfl⟩
  have hnan : ∀ k ∈ ks, Binary64.isNaN k = false := by
    intro k hk
    rw [hks, hperm.mem_iff, Float64.count_mem_keys] at hk
    obtain ⟨v, _, rfl⟩ := hk
    exact bucketOf_notNaN lo s v
  have h1 : ((ks.take (i + 1)).map ((Float64.countBuckets ieee lo s series).get 0)) =
      (ks.take (i + 1)).map (fun k =>
        (series.countP (fun v => decide (Float64.bucketOf ieee lo s v = k)) : Int)) :=
    List.map_congr_left (fun k _ => Float64.count_get ieee lo s series k)
  rw [h1, sum_countP (Float64.bucketOf ieee lo s) (ks.take (i + 1))
    (List.Nodup.sublist (List.take_sublist _ _) hnd) series]
  congr 1
  apply List.countP_congr
  intro v hv
  simp only [decide_eq_true_eq]
  exact mem_take_iff_le ks hstrict hnan i hi _ (hmem v hv)

/-- The counts of all keys add up to the length of the series. -/
theorem sum_all_counts (lo s : Binary64) (series : List Binary64) :
    ((Float64.sortFloat64s ieee
        (Float64.GoMap.keys (Float64.countBuckets ieee lo s series))).map
        ((Float64.countBuckets ieee lo s series).get 0)).sum = (series.length : Int) := by
  set ks := Float64.sortFloat64s ieee
    (Float64.GoMap.keys (Float64.countBuckets ieee lo s series)) with hks
  have hperm := Float64.sort_perm ieee
    (Float64.GoMap.keys (Float64.countBuckets ieee lo s series))
  have hnd : ks.Nodup := hperm.nodup_iff.mpr (Float64.count_nodup ieee lo s series)
  have h1 : (ks.map ((Float64.countBuckets ieee lo s series).get 0)) =
      ks.map (fun k =>
        (series.countP (fun v => decide (Float64.bucketOf ieee lo s v = k)) : Int)) :=
    List.map_congr_left (fun k _ => Float64.count_get ieee lo s series k)
  rw [h1, sum_countP (Float64.bucketOf ieee lo s) ks hnd series]
  congr 1
  rw [List.countP_eq_length]
  intro v hv
  simp only [decide_eq_true_eq]
  rw [hks, hperm.mem_iff, Float64.count_mem_keys]
  exact ⟨v, hv, rfl⟩

/-- The count map has at most twelve keys: the zero value and the upper bounds of the
eleven buckets. -/
theorem Float64.keys_length_le {F : Type} [DecidableEq F] (A : Arith F) (lo s : F)
    (series : List F) :
    (Float64.GoMap.keys (Float64.countBuckets A lo s series)).length ≤ 12 := by
  have hsub : Float64.GoMap.keys (Float64.countBuckets A lo s series) ⊆
      A.ofInt 0 :: (List.range 11).map (Float64.upper A lo s) := by
    intro k hk
    rw [Float64.count_mem_keys] at hk
    obtain ⟨v, _, rfl⟩ := hk
    rcases Float64.scan_cases A lo s v (nBuckets + 1) with ⟨_, hz⟩ | ⟨i, hi', _, _, hscan⟩
    · exact List.mem_cons.mpr (Or.inl hz)
    · refine List.mem_cons.mpr (Or.inr (List.mem_map.mpr ⟨i, ?_, hscan.symm⟩))
      simpa [nBuckets] using hi'
  have := ((Float64.count_nodup A lo s series).subperm hsub).length_le
  simpa using this

theorem weaken_bounds (x T p : ℚ) (hT : 0 ≤ T) (hp : p ≤ 1 / 2 ^ 48)
    (hl : (1 - p) * T ≤ x) (hu : x ≤ (1 + p) * T) :
    (1 - 1 / 2 ^ 48) * T ≤ x ∧ x ≤ (1 + 1 / 2 ^ 48) * T := by
  have h1 : p * T ≤ 1 / 2 ^ 48 * T := mul_le_mul_of_nonneg_right hp hT
  constructor
  · have : (1 - 1 / 2 ^ 48) * T = T - 1 / 2 ^ 48 * T := by ring
    have : (1 - p) * T = T - p * T := by ring
    linarith
  · have : (1 + 1 / 2 ^ 48) * T = T + 1 / 2 ^ 48 * T := by ring
    have : (1 + p) * T = T + p * T := by ring
    linarith

theorem coef_twelve (n : Nat) (h : n ≤ 12) : (4 + 2 * (n : ℚ)) / 2 ^ 53 ≤ 1 / 2 ^ 48 := by
  have hn : (n : ℚ) ≤ 12 := by exact_mod_cast h
  rw [div_le_div_iff₀ (by positivity) (by positivity)]
  have : (2 : ℚ) ^ 53 = 32 * 2 ^ 48 := by norm_num
  rw [this]
  have h48 : (0 : ℚ) < 2 ^ 48 := by positivity
  nlinarith

/-- The entry of the histogram under the `i`-th sorted key: the float64 running sum over
the keys up to it, a finite value within the factor `1 ± 2^-48` of
`(number of values whose bucket key is at most that key) / total`. -/
theorem hist_entry (lo s : Binary64) (series : List Binary64) (total : Int)
    (ht0 : 0 < total) (ht1 : total ≤ maxInt) (hlen : (series.length : Int) ≤ maxInt)
    (d : Binary64) (i : Nat)
    (hi : i < (Float64.sortFloat64s ieee
      (Float64.GoMap.keys (Float64.countBuckets ieee lo s series))).length) :
    (Float64.histogramLoop ieee (Float64.countBuckets ieee lo s series) total
        (Float64.sortFloat64s ieee
          (Float64.GoMap.keys (Float64.countBuckets ieee lo s series)))
        (ieee.ofInt 0) []).get d
        ((Float64.sortFloat64s ieee
          (Float64.GoMap.keys (Float64.countBuckets ieee lo s series)))[i]) =
      Float64.runningSum ieee (Float64.countBuckets ieee lo s series) total
        ((Float64.sortFloat64s ieee
          (Float64.GoMap.keys (Float64.countBuckets ieee lo s series))).take (i + 1)) ∧
    ∃ x : ℚ,
      Float64.runningSum ieee (Float64.countBuckets ieee lo s series) total
        ((Float64.sortFloat64s ieee
          (Float64.GoMap.keys (Float64.countBuckets ieee lo s series))).take (i + 1)) =
        .fin x ∧
      (1 - 1 / 2 ^ 48) *
        (((series.countP (fun v => Binary64.le (Float64.bucketOf ieee lo s v)
          ((Float64.sortFloat64s ieee
            (Float64.GoMap.keys (Float64.countBuckets ieee lo s series)))[i])) : Int) : ℚ) /
          (total : ℚ)) ≤ x ∧
      x ≤ (1 + 1 / 2 ^ 48) *
        (((series.countP (fun v => Binary64.le (Float64.bucketOf ieee lo s v)
          ((Float64.sortFloat64s ieee
            (Float64.GoMap.keys (Float64.countBuckets ieee lo s series)))[i])) : Int) : ℚ) /
          (total : ℚ)) := by
  have hperm := Float64.sort_perm ieee
    (Float64.GoMap.keys (Float64.countBuckets ieee lo s series))
  have hnd : (Float64.sortFloat64s ieee
      (Float64.GoMap.keys (Float64.countBuckets ieee lo s series))).Nodup :=
    hperm.nodup_iff.mpr (Float64.count_nodup ieee lo s series)
  have hklen : (Float64.sortFloat64s ieee
      (Float64.GoMap.keys (Float64.countBuckets ieee lo s series))).length ≤ 12 := by
    rw [Float64.sort_length]
    exact Float64.keys_length_le ieee lo s series
  have hsum : (((Float64.sortFloat64s ieee
      (Float64.GoMap.keys (Float64.countBuckets ieee lo s series))).take (i + 1)).map
      ((Float64.countBuckets ieee lo s series).get 0)).sum ≤ maxInt := by
    have h1 := sum_take_le ((Float64.countBuckets ieee lo s series).get 0)
      (Float64.sortFloat64s ieee
        (Float64.GoMap.keys (Float64.countBuckets ieee lo s series)))
      (fun k _ => count_nonneg lo s series k) (i + 1)
    have h2 := sum_all_counts lo s series
    omega
  have htl : ((Float64.sortFloat64s ieee
      (Float64.GoMap.keys (Float64.countBuckets ieee lo s series))).take (i + 1)).length ≤ 12 :=
    le_trans (List.length_take_le' _ _) hklen
  constructor
  · have := Float64.loop_get_take ieee (Float64.countBuckets ieee lo s series) total _ hnd
      (ieee.ofInt 0) [] d i hi
    rw [List.get_eq_getElem] at this
    exact this
  · obtain ⟨x, hx, hx0, _, hl, hu⟩ := runningSum_bound (Float64.countBuckets ieee lo s series)
      total ht0 ht1 ((Float64.sortFloat64s ieee
        (Float64.GoMap.keys (Float64.countBuckets ieee lo s series))).take (i + 1))
      (fun k _ => count_nonneg lo s series k) hsum (by omega)
    rw [sum_take_counts lo s series i hi] at hl hu
    have htq : (0 : ℚ) < (total : ℚ) := by exact_mod_cast ht0
    have hT : (0 : ℚ) ≤ ((series.countP (fun v => Binary64.le (Float64.bucketOf ieee lo s v)
        ((Float64.sortFloat64s ieee
          (Float64.GoMap.keys (Float64.countBuckets ieee lo s series)))[i])) : Int) : ℚ) /
        (total : ℚ) := by
      have : (0 : ℚ) ≤ ((series.countP (fun v => Binary64.le (Float64.bucketOf ieee lo s v)
          ((Float64.sortFloat64s ieee
            (Float64.GoMap.keys (Float64.countBuckets ieee lo s series)))[i])) : Int) : ℚ) := by
        exact_mod_cast Int.natCast_nonneg _
      positivity
    obtain ⟨h1, h2⟩ := weaken_bounds x _ _ hT (coef_twelve _ htl) hl hu
    exact ⟨x, hx, h1, h2⟩

theorem sortedKeys_notNaN (lo s : Binary64) (series : List Binary64) :
    ∀ k ∈ Float64.sortFloat64s ieee
      (Float64.GoMap.keys (Float64.countBuckets ieee lo s series)),
      Binary64.isNaN k = false := by
  intro k hk
  rw [(Float64.sort_perm ieee _).mem_iff, Float64.count_mem_keys] at hk
  obtain ⟨v, _, rfl⟩ := hk
  exact bucketOf_notNaN lo s v

theorem abs_le_of_factor (x T : ℚ) (hl : (1 - 1 / 2 ^ 48) * T ≤ x)
    (hu : x ≤ (1 + 1 / 2 ^ 48) * T) : |x - T| ≤ T / 2 ^ 48 := by
  rw [abs_le]
  constructor
  · have : (1 - 1 / 2 ^ 48) * T = T - T / 2 ^ 48 := by ring
    linarith
  · have : (1 + 1 / 2 ^ 48) * T = T + T / 2 ^ 48 := by ring
    linarith

/-! ## Theorems: the cumulative fractions in IEEE-754 arithmetic -/

/-- C8, counterexample: on `[0, 1, 10]` with total 3 the key 1 carries the float64 value
of `1/3`, although two of the three values are at most 1; on `[0, 1, ..., 10]` with
total 11 the key 5 carries `0.4545454545454546`, the running float64 sum of five times
`1/11`, not the float64 quotient `5/11 = 0.45454545454545453`. -/
theorem buildHistogram_boundary_fraction :
    (Float64.buildHistogram ieee [f64 0, f64 1, f64 10] 3).map
      (fun hist => hist.get (Binary64.fin 0) (f64 1)) =
      some (Binary64.fin (6004799503160661 / 18014398509481984)) ∧
    ([f64 0, f64 1, f64 10].countP (fun v => ieee.le v (f64 1))) = 2 ∧
    ieee.div (ieee.ofInt 2) (ieee.ofInt 3) =
      Binary64.fin (6004799503160661 / 9007199254740992) ∧
    (Float64.buildHistogram ieee zeroToTen 11).map
      (fun hist => hist.get (Binary64.fin 0) (f64 5)) =
      some (Binary64.fin (8188362958855448 / 18014398509481984)) ∧
    (zeroToTen.countP (fun v => ieee.le
      (Float64.bucketOf ieee (f64 0) (Float64.stepsOf ieee (f64 0) (f64 10)) v) (f64 5))) = 5 ∧
    ieee.div (ieee.ofInt 5) (ieee.ofInt 11) =
      Binary64.fin (8188362958855447 / 18014398509481984) := by
  decide!

/-- C8, amended: for every non-empty series (first element `lo`, last element `hi`) and
`total = len(series)`, in IEEE-754 arithmetic, each entry of `buildHistogram`'s result
maps a key `k` to the running float64 sum, over the keys up to `k` in increasing order,
of `float64(count)/float64(total)`; that value is finite and equals, up to a relative
error of `2^-48`, (number of series values whose bucket key is at most `k`) / total. -/
theorem buildHistogram_fraction (series : List Binary64) (lo hi : Binary64)
    (hlo : series.head? = some lo) (hhi : series.getLast? = some hi)
    (hlen : (series.length : Int) ≤ maxInt) :
    ∃ hist, Float64.buildHistogram ieee series (series.length : Int) = some hist ∧
      ∀ k ∈ Float64.GoMap.keys hist,
        hist.get (Binary64.fin 0) k =
          Float64.runningSum ieee
            (Float64.countBuckets ieee lo (Float64.stepsOf ieee lo hi) series)
            (series.length : Int)
            ((Float64.sortFloat64s ieee (Float64.GoMap.keys
              (Float64.countBuckets ieee lo (Float64.stepsOf ieee lo hi) series))).filter
              (fun k' => ieee.le k' k)) ∧
        ∃ x : ℚ, hist.get (Binary64.fin 0) k = Binary64.fin x ∧
          |x - ((series.countP (fun v => ieee.le
              (Float64.bucketOf ieee lo (Float64.stepsOf ieee lo hi) v) k) : Nat) : ℚ) /
            (series.length : ℚ)| ≤
          ((series.countP (fun v => ieee.le
              (Float64.bucketOf ieee lo (Float64.stepsOf ieee lo hi) v) k) : Nat) : ℚ) /
            (series.length : ℚ) / 2 ^ 48 := by
  have hne : series ≠ [] := by
    intro e
    rw [e] at hlo
    cases hlo
  have hpos : 0 < (series.length : Int) := by
    have := List.length_pos.mpr hne
    exact_mod_cast this
  refine ⟨_, Float64.buildHistogram_eq ieee series _ lo hi hlo hhi, ?_⟩
  intro k hk
  rw [Float64.loop_mem_keys] at hk
  rcases hk with hk | hk
  · simp [Float64.GoMap.keys] at hk
  · obtain ⟨i, hi', rfl⟩ := List.getElem_of_mem hk
    obtain ⟨h1, x, hx, hl, hu⟩ := hist_entry lo (Float64.stepsOf ieee lo hi) series
      (series.length : Int) hpos hlen hlen (Binary64.fin 0) i hi'
    refine ⟨?_, x, ?_, ?_⟩
    · rw [h1]
      congr 1
      exact (filter_le_eq_take _ (sortedKeys_strict lo _ series)
        (sortedKeys_notNaN lo _ series) i hi').symm
    · rw [h1, hx]
    · have := abs_le_of_factor x _ hl hu
      simpa using this

/-- C8, witness: the series `[0, 1, 10]`. -/
theorem buildHistogram_fraction_witness :
    ([f64 0, f64 1, f64 10] : List Binary64).head? = some (f64 0) ∧
    ([f64 0, f64 1, f64 10] : List Binary64).getLast? = some (f64 10) ∧
    ∃ hist, Float64.buildHistogram ieee [f64 0, f64 1, f64 10] 3 = some hist ∧
      ∀ k ∈ Float64.GoMap.keys hist,
        ∃ x : ℚ, hist.get (Binary64.fin 0) k = Binary64.fin x ∧
          |x - (([f64 0, f64 1, f64 10].countP (fun v => ieee.le
              (Float64.bucketOf ieee (f64 0) (Float64.stepsOf ieee (f64 0) (f64 10)) v) k) :
                Nat) : ℚ) / 3| ≤
          (([f64 0, f64 1, f64 10].countP (fun v => ieee.le
              (Float64.bucketOf ieee (f64 0) (Float64.stepsOf ieee (f64 0) (f64 10)) v) k) :
                Nat) : ℚ) / 3 / 2 ^ 48 :=
  ⟨rfl, rfl,
    (buildHistogram_fraction [f64 0, f64 1, f64 10] (f64 0) (f64 10) rfl rfl
      (by decide)).imp (fun _ h => ⟨h.1, fun k hk => by
        obtain ⟨x, hx, hb⟩ := (h.2 k hk).2
        exact ⟨x, hx, by simpa using hb⟩⟩)⟩

/-! ## Theorems: the top of the histogram in IEEE-754 arithmetic -/

/-- What `buildHistogram` returns on a non-empty series for a total in the range of a
64-bit integer: the values do not decrease as the keys increase, and the value at the
highest key is `len(series) / total` up to a relative error of `2^-48`. -/
theorem hist_cumulative (series : List Binary64) (total : Int)
    (hist : Float64.GoMap Binary64 Binary64) (hne : series ≠ [])
    (ht0 : 0 < total) (ht1 : total ≤ maxInt) (hlen : (series.length : Int) ≤ maxInt)
    (hb : Float64.buildHistogram ieee series total = some hist) :
    Float64.GoMap.keys hist ≠ [] ∧
    (∀ k ∈ Float64.GoMap.keys hist, ∀ k' ∈ Float64.GoMap.keys hist, ieee.le k k' = true →
      ieee.le (hist.get (Binary64.fin 0) k) (hist.get (Binary64.fin 0) k') = true) ∧
    (∀ k ∈ Float64.GoMap.keys hist, (∀ k' ∈ Float64.GoMap.keys hist, ieee.le k' k = true) →
      ∃ x : ℚ, hist.get (Binary64.fin 0) k = Binary64.fin x ∧
        |x - (series.length : ℚ) / (total : ℚ)| ≤
          (series.length : ℚ) / (total : ℚ) / 2 ^ 48) := by
  obtain ⟨lo, tl, hcons⟩ := List.exists_cons_of_ne_nil hne
  have hlo : series.head? = some lo := by rw [hcons]; rfl
  have hhi : series.getLast? = some (series.getLast hne) := List.getLast?_eq_getLast _ hne
  have heq := Float64.buildHistogram_eq ieee series total lo (series.getLast hne) hlo hhi
  rw [hb] at heq
  have hhist := Option.some.inj heq
  have hkeys : ∀ k, k ∈ Float64.GoMap.keys hist ↔
      k ∈ Float64.sortFloat64s ieee (Float64.GoMap.keys (Float64.countBuckets ieee lo
        (Float64.stepsOf ieee lo (series.getLast hne)) series)) := by
    intro k
    rw [hhist, Float64.loop_mem_keys]
    simp [Float64.GoMap.keys]
  have hvmem : ∀ v ∈ series,
      Float64.bucketOf ieee lo (Float64.stepsOf ieee lo (series.getLast hne)) v ∈
        Float64.GoMap.keys hist := by
    intro v hv
    rw [hkeys, (Float64.sort_perm ieee _).mem_iff, Float64.count_mem_keys]
    exact ⟨v, hv, rfl⟩
  have hstrict := sortedKeys_strict lo (Float64.stepsOf ieee lo (series.getLast hne)) series
  refine ⟨?_, ?_, ?_⟩
  · intro e
    have := hvmem lo (by rw [hcons]; exact List.mem_cons_self _ _)
    rw [e] at this
    cases this
  · intro k hk k' hk' hle
    rw [hkeys] at hk hk'
    obtain ⟨i, hi, rfl⟩ := List.getElem_of_mem hk
    obtain ⟨j, hj, rfl⟩ := List.getElem_of_mem hk'
    have hij : i ≤ j := by
      by_contra hcon
      push_neg at hcon
      have := Binary64.not_le_of_lt _ _ ((List.pairwise_iff_getElem.mp hstrict) j i hj hi hcon)
      have hle' : Binary64.le _ _ = true := hle
      rw [this] at hle'
      cases hle'
    obtain ⟨h1, _⟩ := hist_entry lo _ series total ht0 ht1 hlen (Binary64.fin 0) i hi
    obtain ⟨h2, _⟩ := hist_entry lo _ series total ht0 ht1 hlen (Binary64.fin 0) j hj
    rw [hhist, h1, h2]
    exact runningSum_mono _ total ht0 ht1 _ (fun k _ => count_nonneg lo _ series k)
      (by rw [sum_all_counts]; exact hlen)
      (by
        rw [Float64.sort_length]
        exact le_trans (Float64.keys_length_le ieee lo _ series) (by norm_num))
      (i + 1) (j + 1) (by omega)
  · intro k hk htop
    have hk' := (hkeys k).mp hk
    obtain ⟨i, hi, rfl⟩ := List.getElem_of_mem hk'
    obtain ⟨h1, x, hx, hl, hu⟩ := hist_entry lo _ series total ht0 ht1 hlen (Binary64.fin 0) i hi
    have hall : series.countP (fun v => Binary64.le
        (Float64.bucketOf ieee lo (Float64.stepsOf ieee lo (series.getLast hne)) v)
        ((Float64.sortFloat64s ieee (Float64.GoMap.keys (Float64.countBuckets ieee lo
          (Float64.stepsOf ieee lo (series.getLast hne)) series)))[i])) = series.length := by
      rw [List.countP_eq_length]
      intro v hv
      exact htop _ (hvmem v hv)
    rw [hall] at hl hu
    refine ⟨x, by rw [hhist, h1, hx], ?_⟩
    have := abs_le_of_factor x _ hl hu
    simpa using this

/-- C9, counterexample: on `[0, 1, ..., 10]` with total 11 the value at the highest key
is `1.0000000000000002`, not `11/11`; for six completed clients with distinct buckets
`buildSummary` returns a histogram whose value at the highest key is
`0.9999999999999999`, not 1. -/
theorem buildHistogram_top_not_one :
    (Float64.buildHistogram ieee zeroToTen 11).map Float64.GoMap.keys =
      some ((List.range' 1 11).map (fun n => f64 (n : Int))) ∧
    (Float64.buildHistogram ieee zeroToTen 11).map
      (fun hist => hist.get (Binary64.fin 0) (f64 11)) =
      some (Binary64.fin (4503599627370497 / 4503599627370496)) ∧
    ieee.div (ieee.ofInt (zeroToTen.length : Int)) (ieee.ofInt 11) = Binary64.fin 1 ∧
    (Float64.buildSummary ieee 6 10 sixClients).toOption.map
      (fun s => Float64.GoMap.keys s.PublishPerformanceHistogram) =
      some [f64 1, f64 3, f64 5, f64 7, f64 9, f64 11] ∧
    (Float64.buildSummary ieee 6 10 sixClients).toOption.map
      (fun s => s.PublishPerformanceHistogram.get (Binary64.fin 0) (f64 11)) =
      some (Binary64.fin (9007199254740991 / 9007199254740992)) := by
  decide!

/-- C9, amended: in IEEE-754 arithmetic, for every non-empty series and total > 0 (both
in the range of a 64-bit integer), the values of `buildHistogram`'s result are
non-decreasing as the keys increase, and the value at the highest key is finite and
equals `len(series) / total` up to a relative error of `2^-48`; in every `Summary`
returned by `buildSummary` (where total is the completed count) the value at the
highest key is 1 up to `2^-48`. -/
theorem buildHistogram_cumulative :
    (∀ (series : List Binary64) (total : Int), series ≠ [] → 0 < total → total ≤ maxInt →
      (series.length : Int) ≤ maxInt →
      ∃ hist, Float64.buildHistogram ieee series total = some hist ∧
        Float64.GoMap.keys hist ≠ [] ∧
        (∀ k ∈ Float64.GoMap.keys hist, ∀ k' ∈ Float64.GoMap.keys hist, ieee.le k k' = true →
          ieee.le (hist.get (Binary64.fin 0) k) (hist.get (Binary64.fin 0) k') = true) ∧
        (∀ k ∈ Float64.GoMap.keys hist,
          (∀ k' ∈ Float64.GoMap.keys hist, ieee.le k' k = true) →
          ∃ x : ℚ, hist.get (Binary64.fin 0) k = Binary64.fin x ∧
            |x - (series.length : ℚ) / (total : ℚ)| ≤
              (series.length : ℚ) / (total : ℚ) / 2 ^ 48)) ∧
    (∀ (nClient nMessages : Int) (rs : List Result) (s : Float64.Summary Binary64),
      (rs.length : Int) ≤ maxInt →
      Float64.buildSummary ieee nClient nMessages rs = .ok s →
        Float64.GoMap.keys s.PublishPerformanceHistogram ≠ [] ∧
        ∀ k ∈ Float64.GoMap.keys s.PublishPerformanceHistogram,
          (∀ k' ∈ Float64.GoMap.keys s.PublishPerformanceHistogram, ieee.le k' k = true) →
            ∃ x : ℚ, s.PublishPerformanceHistogram.get (Binary64.fin 0) k = Binary64.fin x ∧
              |x - 1| ≤ 1 / 2 ^ 48) := by
  constructor
  · intro series total hne ht0 ht1 hlen
    obtain ⟨lo, tl, hcons⟩ := List.exists_cons_of_ne_nil hne
    have hlo : series.head? = some lo := by rw [hcons]; rfl
    have hb := Float64.buildHistogram_eq ieee series total lo (series.getLast hne) hlo
      (List.getLast?_eq_getLast _ hne)
    exact ⟨_, hb, hist_cumulative series total _ hne ht0 ht1 hlen hb⟩
  · intro nClient nMessages rs s hrs h
    obtain ⟨hne, hperf, hcomp, hh⟩ := Float64.summary_fields ieee h
    have hlenPP : s.PublishPerformance.length = (completedOf rs).length := by
      rw [hperf, Float64.sort_length, List.length_map]
    have hcl : (completedOf rs).length ≤ rs.length := List.length_filter_le _ _
    have hpos : 0 < (completedOf rs).length := List.length_pos.mpr hne
    have hneS : s.PublishPerformance ≠ [] := by
      intro e
      rw [e] at hlenPP
      simp at hlenPP
      omega
    have ht0 : 0 < s.Completed := by rw [hcomp]; exact_mod_cast hpos
    have ht1 : s.Completed ≤ maxInt := by
      rw [hcomp]
      have : ((completedOf rs).length : Int) ≤ (rs.length : Int) := by exact_mod_cast hcl
      omega
    have hlen : (s.PublishPerformance.length : Int) ≤ maxInt := by
      rw [hlenPP, ← hcomp]; exact ht1
    obtain ⟨h1, _, h3⟩ := hist_cumulative s.PublishPerformance s.Completed _ hneS ht0 ht1 hlen hh
    refine ⟨h1, fun k hk htop => ?_⟩
    obtain ⟨x, hx, hb⟩ := h3 k hk htop
    refine ⟨x, hx, ?_⟩
    have hone : (s.PublishPerformance.length : ℚ) / (s.Completed : ℚ) = 1 := by
      rw [hcomp, hlenPP]
      have : ((completedOf rs).length : ℚ) ≠ 0 := by
        have : (0 : ℚ) < ((completedOf rs).length : ℚ) := by exact_mod_cast hpos
        exact ne_of_gt this
      push_cast
      exact div_self this
    rw [hone] at hb
    exact hb

/-- C9, witness: the series `[0, 1, ..., 10]` with total 11. -/
theorem buildHistogram_cumulative_witness :
    zeroToTen ≠ [] ∧ (0 : Int) < 11 ∧
    ∃ hist, Float64.buildHistogram ieee zeroToTen 11 = some hist ∧
      ∀ k ∈ Float64.GoMap.keys hist,
        (∀ k' ∈ Float64.GoMap.keys hist, ieee.le k' k = true) →
        ∃ x : ℚ, hist.get (Binary64.fin 0) k = Binary64.fin x ∧
          |x - (zeroToTen.length : ℚ) / ((11 : Int) : ℚ)| ≤
            (zeroToTen.length : ℚ) / ((11 : Int) : ℚ) / 2 ^ 48 :=
  ⟨by decide, by decide,
    (buildHistogram_cumulative.1 zeroToTen 11 (by decide) (by decide) (by decide)
      (by decide)).imp (fun _ h => ⟨h.1, h.2.2.2⟩)⟩

end Tbload
